import Mathlib

/-!
csshtml: block parser and at-rule extractors.

A shallow embedding of `css.go` (package `csshtml`): the brace matcher
`findClosingBrace`, the component-value normalizer `fixupComponentValues`,
`trimSpace`, the recursive block parser `consumeBlock`, the extractors
`doFontFace` (`@font-face`) and `doPage` (`@page`), and the walk
`processAtRules` over the at-rules of a stylesheet.

Conventions of the embedding.

* A Go slice of token pointers is a `List Token`.  The source updates tokens in
  place (`fixupComponentValues`); the embedding returns the updated list.  The
  two agree as long as every token object occurs once in the stream, which is
  what the tokenizer produces: the only place `consumeBlock` rewrites is the
  prelude of a block, and it never reads a prelude again afterwards.
* Go `int` indices are `Nat` (they are never negative here); the brace level
  is an `Int`.
* A slice expression `toks[lo:hi]` of Go is checked against the capacity of
  the slice; every upper bound that the source uses is at most `len(toks)`, so
  the embedding checks it against the length.
* A run-time panic (slice bounds out of range, index out of range, a write
  to a nil map) is the outcome `Run.panic`.
* A Go map is a list of key-value pairs, read with `mapGet` and written with
  `mapSet`; the order of the list has no meaning.  The order in which a
  `range` loop visits a map is an argument (`RangeOrder`).
* Helpers of the package that are not in `css.go` (`stringValue`,
  `getFourValues`, `ResolveAttributes`) and `strconv.ParseFloat` are
  arguments (`Externals`, `PageHelpers`); they are taken to return.
-/

namespace Csshtml

/-- Modelled from the spec: the token kinds of the external tokenizer package
(`scanner`), which is not part of the repository.  The parser distinguishes
`Ident`, `AtKeyword`, `Hash`, `S` (whitespace), `Delim`, `URI`, `Local`,
`Format` and `Tech`; the others stand for every kind it does not look at. -/
inductive TokenType where
  | Error | EOF | Ident | AtKeyword | String | Hash | Number | Percentage
  | Dimension | URI | Local | Format | Tech | UnicodeRange | CDO | CDC | S
  | Comment | Function | Includes | DashMatch | PrefixMatch | SuffixMatch
  | SubstringMatch | Delim | BOM
  deriving DecidableEq, Repr

/-- A token of the scanner: a kind (the Go field `Type`) and its literal
value. -/
structure Token where
  Typ : TokenType
  Value : String
  deriving DecidableEq, Repr

/-- The Go type `tokenstream` (`[]*scanner.Token`). -/
abbrev tokenstream := List Token

/-- The Go type `qrule`: one `key: value` declaration. -/
structure qrule where
  key : tokenstream
  value : tokenstream
  deriving DecidableEq, Repr

/-- The Go type `sBlock`: a block with a selector. -/
inductive sBlock where
  | mk (name : String) (componentValues : tokenstream)
      (childAtRules : List sBlock) (blocks : List sBlock)
      (rules : List qrule) : sBlock

namespace sBlock

/-- The zero value `sBlock{}`. -/
def empty : sBlock := sBlock.mk "" [] [] [] []

/-- Field `name`. -/
def name : sBlock → String
  | mk n _ _ _ _ => n

/-- Field `componentValues`. -/
def componentValues : sBlock → tokenstream
  | mk _ cv _ _ _ => cv

/-- Field `childAtRules`. -/
def childAtRules : sBlock → List sBlock
  | mk _ _ c _ _ => c

/-- Field `blocks`. -/
def blocks : sBlock → List sBlock
  | mk _ _ _ b _ => b

/-- Field `rules`. -/
def rules : sBlock → List qrule
  | mk _ _ _ _ r => r

end sBlock

/-- What a call of the Go code ends in: a returned value, a run-time panic, or
(in the embedding only) an exhausted recursion budget. -/
inductive Run (α : Type) where
  | ret (a : α)
  | panic
  | fuelOut
  deriving DecidableEq, Repr

/-- The Go slice expression `toks[lo:hi]`: it panics (here `none`) unless
`lo ≤ hi` and `hi` is within the slice. -/
def goSlice (toks : tokenstream) (lo hi : Nat) : Option tokenstream :=
  if lo ≤ hi ∧ hi ≤ toks.length then some ((toks.take hi).drop lo) else none

/-- The loop of `findClosingBrace`: `i` is the index of the head of the
remaining tokens, `level` the current brace level. -/
def findClosingBraceLoop : tokenstream → Int → Nat → Nat
  | [], _, i => i
  | t :: rest, level, i =>
    if t.Typ = TokenType.Delim then
      if t.Value = "\x7b" then findClosingBraceLoop rest (level + 1) (i + 1)
      else if t.Value = "\x7d" then
        if level - 1 = 0 then i + 1
        else findClosingBraceLoop rest (level - 1) (i + 1)
      else findClosingBraceLoop rest level (i + 1)
    else findClosingBraceLoop rest level (i + 1)

/-- The Go function `findClosingBrace`: the position after the matching
closing brace. -/
def findClosingBrace (toks : tokenstream) : Nat :=
  findClosingBraceLoop toks 1 0

/-- The Go function `trimSpace`: drop the leading whitespace tokens. -/
def trimSpace : tokenstream → tokenstream
  | [] => []
  | t :: rest => if t.Typ = TokenType.S then trimSpace rest else t :: rest

/-- Prepend `p` to the value of a token (`tok.Value = p + tok.Value`). -/
def Token.prepend (p : String) (t : Token) : Token :=
  { t with Value := p ++ t.Value }

/-- The loop of `fixupComponentValues` at index `i` over the current slice
`toks`.  A fused pair removes `toks[i]` and advances `i` twice.  The first
argument bounds the number of iterations. -/
def fixupLoop : Nat → tokenstream → Nat → tokenstream
  | 0, toks, _ => toks
  | fuel + 1, toks, i =>
    if h : i + 1 < toks.length then
      let t := toks[i]
      let n := toks[i + 1]
      if t.Typ = TokenType.Delim ∧ t.Value = "." ∧ n.Typ = TokenType.Ident then
        fixupLoop fuel ((toks.set (i + 1) (n.prepend ".")).eraseIdx i) (i + 2)
      else if t.Typ = TokenType.Delim ∧ t.Value = ":" ∧ n.Typ = TokenType.Ident then
        fixupLoop fuel ((toks.set (i + 1) (n.prepend ":")).eraseIdx i) (i + 2)
      else if t.Typ = TokenType.Hash then
        fixupLoop fuel (toks.set i (t.prepend "#")) (i + 1)
      else fixupLoop fuel toks (i + 1)
    else toks

/-- The Go function `fixupComponentValues`: changes `DELIM[.] + IDENT[foo]` to
`IDENT[.foo]`.  Every iteration advances `i`, so `len(toks)` iterations are
enough (`fixupLoop_eq_tail`). -/
def fixupComponentValues (toks : tokenstream) : tokenstream :=
  fixupLoop (trimSpace toks).length (trimSpace toks) 0

/-- The whitespace skip at the head of `consumeBlock`: the index of the first
token that is not whitespace, counted from `i`. -/
def skipSpaceLoop : tokenstream → Nat → Nat
  | [], i => i
  | t :: rest, i => if t.Typ = TokenType.S then skipSpaceLoop rest (i + 1) else i

namespace sBlock

/-- The statement `b.rules = append(b.rules, q)`. -/
def addRule : sBlock → qrule → sBlock
  | mk n cv c bl r, q => mk n cv c bl (r ++ [q])

/-- The statement `b.childAtRules = append(b.childAtRules, &nb)`. -/
def addChildAtRule : sBlock → sBlock → sBlock
  | mk n cv c bl r, nb => mk n cv (c ++ [nb]) bl r

/-- The statement `b.blocks = append(b.blocks, &nb)`. -/
def addBlock : sBlock → sBlock → sBlock
  | mk n cv c bl r, nb => mk n cv c (bl ++ [nb]) r

/-- The statement `nb.name = v`. -/
def setName : sBlock → String → sBlock
  | mk _ cv c bl r, v => mk v cv c bl r

/-- The statement `nb.componentValues = cv`. -/
def setComponentValues : sBlock → tokenstream → sBlock
  | mk n _ c bl r, cv => mk n cv c bl r

end sBlock

/-- The end of `consumeBlock` (after the loop): a dangling declaration is
appended untrimmed when a colon is pending. -/
def consumeFinish (toks : tokenstream) (b : sBlock) (start colon : Nat) : Run sBlock :=
  if colon > 0 then
    match goSlice toks start colon, goSlice toks (colon + 1) toks.length with
    | some key, some value => Run.ret (b.addRule ⟨key, value⟩)
    | _, _ => Run.panic
  else Run.ret b

/-- The locals `b`, `start`, `colon` of `consumeBlock` when its loop is left. -/
structure LoopExit where
  b : sBlock
  start : Nat
  colon : Nat

/-- The type of the main loop of `consumeBlock`, as a function of the token
stream, the flag and the locals `b`, `i`, `start`, `colon`. -/
abbrev LoopFn := tokenstream → Bool → sBlock → Nat → Nat → Nat → Run LoopExit

/-- The Go function `consumeBlock` around its main loop `loop`: fewer than two
tokens give the empty node; otherwise leading whitespace is skipped, the loop
runs with `start = i` and `colon = 0`, and the pending declaration is added. -/
def consumeBlockWith (loop : LoopFn) (toks : tokenstream) (inblock : Bool) : Run sBlock :=
  if toks.length ≤ 1 then Run.ret sBlock.empty
  else
    match loop toks inblock sBlock.empty (skipSpaceLoop toks 0) (skipSpaceLoop toks 0) 0 with
    | Run.ret e => consumeFinish toks e.b e.start e.colon
    | Run.panic => Run.panic
    | Run.fuelOut => Run.fuelOut

/-- The test `start < len(toks) && toks[start].Type == scanner.S`. -/
def isSpaceAt (toks : tokenstream) (start : Nat) : Bool :=
  match toks[start]? with
  | some s => decide (s.Typ = TokenType.S)
  | none => false

/-- The statements that end an iteration of the loop `outer`:
`i++; if i == len(toks) { break }`, then the next iteration. -/
def consumeNext (loop : LoopFn) (toks : tokenstream) (inblock : Bool) (b : sBlock)
    (i start colon : Nat) : Run LoopExit :=
  if i + 1 = toks.length then Run.ret ⟨b, start, colon⟩
  else loop toks inblock b (i + 1) start colon

/-- One iteration of the loop `outer` of `consumeBlock`; `loop` stands for the
rest of the run (the following iterations, and the recursive call of
`consumeBlock` on a sub-block). -/
def consumeStep (loop : LoopFn) (toks : tokenstream) (inblock : Bool) (b : sBlock)
    (i start colon : Nat) : Run LoopExit :=
  if i = toks.length then Run.ret ⟨b, start, colon⟩
  else
    match toks[i]? with
    | none => Run.panic
    | some t =>
      if t.Typ = TokenType.Delim then
        if t.Value = ":" then
          consumeNext loop toks inblock b i start (if inblock then i else colon)
        else if t.Value = ";" then
          match goSlice toks start colon, goSlice toks (colon + 1) i with
          | some key, some value =>
            if (if isSpaceAt toks (i + 1) then i + 2 else i + 1) = toks.length then
              Run.ret ⟨b.addRule ⟨trimSpace key, trimSpace value⟩,
                if isSpaceAt toks (i + 1) then i + 2 else i + 1, 0⟩
            else
              consumeNext loop toks inblock (b.addRule ⟨trimSpace key, trimSpace value⟩) i
                (if isSpaceAt toks (i + 1) then i + 2 else i + 1) 0
          | _, _ => Run.panic
        else if t.Value = "\x7b" then
          -- `l` is `findClosingBrace(toks[i+1:])`
          if findClosingBrace (toks.drop (i + 1)) = 1 then
            consumeNext loop toks inblock b i start colon
          else
            match goSlice toks (i + 1) (i + findClosingBrace (toks.drop (i + 1))),
              toks[start]? with
            | some subblock, some starttok =>
              match consumeBlockWith loop subblock
                  (!(decide (starttok.Typ = TokenType.AtKeyword ∧
                    (starttok.Value = "media" ∨ starttok.Value = "supports")))) with
              | Run.ret nb =>
                match (if starttok.Typ = TokenType.AtKeyword then
                    (goSlice toks (start + 1) i).map fun pre =>
                      b.addChildAtRule
                        ((nb.setName starttok.Value).setComponentValues
                          (fixupComponentValues pre))
                  else
                    (goSlice toks start i).map fun pre =>
                      b.addBlock (nb.setComponentValues (fixupComponentValues pre))) with
                | some b =>
                  if isSpaceAt toks (i + findClosingBrace (toks.drop (i + 1)) + 1) then
                    consumeNext loop toks inblock b
                      (i + findClosingBrace (toks.drop (i + 1)) + 1)
                      (i + findClosingBrace (toks.drop (i + 1)) + 2) colon
                  else
                    consumeNext loop toks inblock b
                      (i + findClosingBrace (toks.drop (i + 1)))
                      (i + findClosingBrace (toks.drop (i + 1)) + 1) colon
                | none => Run.panic
              | Run.panic => Run.panic
              | Run.fuelOut => Run.fuelOut
            | _, _ => Run.panic
        else consumeNext loop toks inblock b i start colon
      else consumeNext loop toks inblock b i start colon

/-- The main loop of `consumeBlock`, bounded to a nesting of `fuel` iterations
and recursive calls. -/
def consumeLoop : Nat → LoopFn
  | 0 => fun _ _ _ _ _ _ => Run.fuelOut
  | fuel + 1 => consumeStep (consumeLoop fuel)

/-- The Go function `consumeBlock` with a bound on its iterations. -/
def consumeBlockFuel (fuel : Nat) (toks : tokenstream) (inblock : Bool) : Run sBlock :=
  consumeBlockWith (consumeLoop fuel) toks inblock

/-- The Go function `consumeBlock`: the contents of a block.  The bound
`len(toks) + 1` is never reached (`consumeBlock_ne_fuelOut`). -/
def consumeBlock (toks : tokenstream) (inblock : Bool) : Run sBlock :=
  consumeBlockFuel (toks.length + 1) toks inblock

/-! ### Strings of the Go library used by the extractors -/

/-- The method `tokenstream.String` (`debug.go`): the token values joined
without separator. -/
def tokenstream.String (t : tokenstream) : String :=
  String.join (t.map (fun tok => tok.Value))

/-- Go `unicode.IsSpace`: the white space characters of Unicode. -/
def isSpaceRune (c : Char) : Bool :=
  let n := c.toNat
  n = 9 ∨ n = 10 ∨ n = 11 ∨ n = 12 ∨ n = 13 ∨ n = 32 ∨ n = 0x85 ∨ n = 0xA0 ∨ n = 0x1680 ∨
    (0x2000 ≤ n ∧ n ≤ 0x200A) ∨ n = 0x2028 ∨ n = 0x2029 ∨ n = 0x202F ∨ n = 0x205F ∨
    n = 0x3000

/-- Drop from both ends of a list the elements that satisfy `p`. -/
def trimBoth {α : Type} (p : α → Bool) (l : List α) : List α :=
  ((l.dropWhile p).reverse.dropWhile p).reverse

/-- Go `strings.TrimSpace`. -/
def goTrimSpace (s : String) : String :=
  String.mk (trimBoth isSpaceRune s.data)

/-- Go `strings.Trim(s, cutset)` for a cutset of one character. -/
def goTrimChar (s : String) (c : Char) : String :=
  String.mk (trimBoth (fun x => decide (x = c)) s.data)

/-- Go `strings.TrimSuffix(s, "%")`. -/
def goTrimSuffixPercent (s : String) : String :=
  match s.data.reverse with
  | c :: r => if c = '%' then String.mk r.reverse else s
  | [] => s

/-- A decimal digit (`\d` of the regular expression, and the digits of `Atoi`). -/
def isDigitRune (c : Char) : Bool :=
  decide (48 ≤ c.toNat ∧ c.toNat ≤ 57)

/-- Go `strconv.Atoi` on a 64-bit platform: an optional sign and decimal
digits, in the range of `int`; `none` is a returned error. -/
def goAtoi (s : String) : Option Int :=
  let cs := s.data
  let neg : Bool := cs.head? = some '-'
  let ds := if cs.head? = some '-' ∨ cs.head? = some '+' then cs.drop 1 else cs
  if ds = [] ∨ ¬ ds.all isDigitRune = true then none
  else
    let n : Nat := ds.foldl (fun a c => 10 * a + (c.toNat - 48)) 0
    let v : Int := if neg then -(n : Int) else (n : Int)
    if -(2 : Int) ^ 63 ≤ v ∧ v ≤ (2 : Int) ^ 63 - 1 then some v else none

/-- Go `unicode.ToLower` as far as it can produce an ASCII character: the
ASCII capitals, U+0130 (to `i`) and the Kelvin sign U+212A (to `k`).  Every
other character is left as it is; the library maps it to itself or to another
character outside ASCII, which no comparison with an ASCII keyword tells
apart. -/
def goToLowerRune (c : Char) : Char :=
  if 65 ≤ c.toNat ∧ c.toNat ≤ 90 then Char.ofNat (c.toNat + 32)
  else if c.toNat = 0x130 then 'i'
  else if c.toNat = 0x212A then 'k'
  else c

/-- Go `strings.ToLower` (see `goToLowerRune`). -/
def goToLower (s : String) : String :=
  String.mk (s.data.map goToLowerRune)

/-- Go `strings.Split(s, ",")` on the characters of `s`: always at least one
piece. -/
def goSplitComma : List Char → List (List Char)
  | [] => [[]]
  | c :: cs =>
    if c = ',' then [] :: goSplitComma cs
    else
      match goSplitComma cs with
      | [] => [[c]]
      | h :: t => (c :: h) :: t

/-- The class `\s` of Go regular expressions: `[\t\n\f\r ]`. -/
def isRegexSpace (c : Char) : Bool :=
  let n := c.toNat
  n = 9 ∨ n = 10 ∨ n = 12 ∨ n = 13 ∨ n = 32

/-- Whether the whole of `cs` matches `(on|off|\d+)\s*`. -/
def featureTailMatch (cs : List Char) : Bool :=
  (cs.take 2 = ['o', 'n'] ∧ (cs.drop 2).all isRegexSpace) ∨
  (cs.take 3 = ['o', 'f', 'f'] ∧ (cs.drop 3).all isRegexSpace) ∨
  ((cs.takeWhile isDigitRune) ≠ [] ∧ (cs.dropWhile isDigitRune).all isRegexSpace)

/-- The start of the leftmost match of the regular expression
`(on|off|\d+)\s*$` in a string whose characters from index `i` on are `cs`
(`FindAllStringIndex(value, -1)[0][0]`); `none` when nothing matches. -/
def featureMatchIndex : List Char → Nat → Option Nat
  | [], _ => none
  | c :: cs, i =>
    if featureTailMatch (c :: cs) then some i else featureMatchIndex cs (i + 1)

/-! ### `@font-face` -/

/-- The Go type `FontSource`: information from the `src` attribute. -/
structure FontSource where
  Local : String := ""
  URI : String := ""
  Format : String := ""
  Tech : String := ""
  deriving DecidableEq, Repr

/-- The value of the field `SizeAdjust` (a `float64`): the zero value, or
`1 - (flt / 100)` with `flt` the float parsed from the text `v`.  The floating
point arithmetic itself is not modelled. -/
inductive SizeAdjustValue where
  | zero
  | ofPercent (v : String)
  deriving DecidableEq, Repr

/-- The Go type `FontFace`: information from a `@font-face` rule. -/
structure FontFace where
  Weight : Int := 0
  Style : String := ""
  Family : String := ""
  Source : List FontSource := []
  Features : List String := []
  SizeAdjust : SizeAdjustValue := SizeAdjustValue.zero
  deriving DecidableEq, Repr

/-- The type `html.Attribute` of the external HTML package (key and value). -/
structure Attribute where
  Key : String
  Val : String
  deriving DecidableEq, Repr

/-- The Go type `Page`; a Go map is a list of key-value pairs. -/
structure Page where
  PageArea : List (String × List (String × String)) := []
  Attributes : List Attribute := []
  Papersize : String := ""
  MarginLeft : String := ""
  MarginRight : String := ""
  MarginTop : String := ""
  MarginBottom : String := ""
  pageareaRules : List (String × List qrule) := []

/-- The Go type `CSS`, without the file finder.  The map `Pages` is `none` when
it is the nil map (as in `NewCSSParser`): reading a nil map finds nothing,
writing to it panics. -/
structure CSS where
  Pages : Option (List (String × Page)) := none
  FontFaces : List FontFace := []
  dirstack : List String := []
  stylesheet : List sBlock := []

/-- What `doFontFace` uses and the sources under study do not define:
`stringValue`, a helper of the package whose file is not among them, and
whether `strconv.ParseFloat(v, 64)` accepts a text. -/
structure Externals where
  stringValue : tokenstream → String
  parsesAsFloat : String → Bool

/-- The error value returned for a token of `src` that is not handled. -/
def srcError : String := "css src(): unhandled token *scanner.Token"

/-- The loop over the tokens of a `src` value: `src` is the current source,
`sources` the field `f.Source`; `none` is the returned error. -/
def srcLoop : FontSource → List FontSource → tokenstream →
    Option (FontSource × List FontSource)
  | src, sources, [] => some (src, sources)
  | src, sources, v :: rest =>
    match v.Typ with
    | TokenType.Local => srcLoop { src with Local := v.Value } sources rest
    | TokenType.URI => srcLoop { src with URI := v.Value } sources rest
    | TokenType.Format => srcLoop { src with Format := v.Value } sources rest
    | TokenType.Tech => srcLoop { src with Tech := v.Value } sources rest
    | TokenType.Delim =>
      if v.Value = "," then srcLoop src (sources ++ [src]) rest
      else srcLoop src sources rest
    | TokenType.S => srcLoop src sources rest
    | _ => none

/-- The weight of a `font-weight` keyword, already in lower case; `none`
leaves the weight as it is. -/
def weightKeyword (v : String) : Option Int :=
  if v = "thin" ∨ v = "hairline" then some 100
  else if v = "extra light" ∨ v = "ultra light" then some 200
  else if v = "light" then some 300
  else if v = "normal" then some 400
  else if v = "medium" then some 500
  else if v = "semi bold" ∨ v = "demi bold" then some 600
  else if v = "bold" then some 700
  else if v = "extra bold" ∨ v = "ultra bold" then some 800
  else if v = "black" ∨ v = "heavy" then some 900
  else none

/-- The case `font-feature-settings` of `doFontFace`: the features to append
for the trimmed value. -/
def featureSettings (value : String) : List String :=
  let idx := featureMatchIndex value.data 0
  let sw : Option String := idx.map fun k => String.mk (value.data.drop k)
  let settingOn : Bool := ¬ (sw = some "off" ∨ sw = some "0")
  let rest : List Char :=
    match idx with
    | some k => value.data.take k
    | none => value.data
  let sign : String := if settingOn then "+" else "-"
  (goSplitComma rest).map fun v => sign ++ goTrimSpace (String.mk v)

/-- The body of the loop of `doFontFace` for one declaration: the updated
font face, a returned error (`Except.error`), or a panic. -/
def fontFaceRule (ext : Externals) (f : FontFace) (rule : qrule) :
    Run (Except String FontFace) :=
  let key := goTrimSpace (tokenstream.String rule.key)
  let value := goTrimSpace (ext.stringValue rule.value)
  if key = "font-family" then Run.ret (Except.ok { f with Family := goTrimChar value '"' })
  else if key = "font-style" then Run.ret (Except.ok { f with Style := value })
  else if key = "font-weight" then
    match goAtoi value with
    | some i => Run.ret (Except.ok { f with Weight := i })
    | none =>
      match weightKeyword (goToLower value) with
      | some w => Run.ret (Except.ok { f with Weight := w })
      | none => Run.ret (Except.ok f)
  else if key = "src" then
    match srcLoop {} f.Source rule.value with
    | some (src, sources) => Run.ret (Except.ok { f with Source := sources ++ [src] })
    | none => Run.ret (Except.error srcError)
  else if key = "font-feature-settings" then
    Run.ret (Except.ok { f with Features := f.Features ++ featureSettings value })
  else if key = "size-adjust" then
    if ext.parsesAsFloat (goTrimSuffixPercent value) then
      Run.ret (Except.ok
        { f with SizeAdjust := SizeAdjustValue.ofPercent (goTrimSuffixPercent value) })
    else Run.panic
  else Run.ret (Except.ok f)

/-- The loop of `doFontFace` over the declarations. -/
def doFontFaceLoop (ext : Externals) : FontFace → List qrule → Run (Except String FontFace)
  | f, [] => Run.ret (Except.ok f)
  | f, rule :: rest =>
    match fontFaceRule ext f rule with
    | Run.ret (Except.ok f) => doFontFaceLoop ext f rest
    | other => other

/-- The Go method `doFontFace`: the engine afterwards and the returned error
(`none` for `nil`). -/
def doFontFace (ext : Externals) (c : CSS) (ff : List qrule) : Run (CSS × Option String) :=
  match doFontFaceLoop ext { Weight := 400 } ff with
  | Run.ret (Except.ok f) => Run.ret ({ c with FontFaces := c.FontFaces ++ [f] }, none)
  | Run.ret (Except.error e) => Run.ret (c, some e)
  | Run.panic => Run.panic
  | Run.fuelOut => Run.fuelOut

/-! ### `@page` and the walk over the at-rules -/

/-- The Go expression `m[k]` with its `ok` result, on a map held as a list of
key-value pairs: the value of the first pair with the key `k`. -/
def mapGet {α : Type} : List (String × α) → String → Option α
  | [], _ => none
  | (k2, v) :: rest, k => if k2 = k then some v else mapGet rest k

/-- The Go statement `m[k] = v`: the pair of `k` is replaced, or a new pair is
added. -/
def mapSet {α : Type} : List (String × α) → String → α → List (String × α)
  | [], k, v => [(k, v)]
  | (k2, v2) :: rest, k, v =>
    if k2 = k then (k, v) :: rest else (k2, v2) :: mapSet rest k v

/-- The Go expression `m[k]` on a `map[string]string`: the empty string for a
key that is missing. -/
def mapGetString (m : List (String × String)) (k : String) : String :=
  (mapGet m k).getD ""

/-- Go `strings.TrimPrefix(s, "@")`. -/
def goTrimPrefixAt (s : String) : String :=
  match s.data with
  | c :: r => if c = '@' then String.mk r else s
  | [] => s

/-- What `doPage` uses and the sources under study do not define: the helpers
`getFourValues` (the map from `top`, `bottom`, `left`, `right` to the values of
a box shorthand) and `ResolveAttributes` (the property map of a list of
attributes; `doPage` drops its second result). -/
structure PageHelpers where
  getFourValues : String → List (String × String)
  resolveAttributes : List Attribute → List (String × String)

/-- The order in which a `range` loop visits the pairs of the map
`pageareaRules`.  Go leaves it unspecified, so it is an argument of `doPage`;
see `IsRange` for what the language promises about it. -/
abbrev RangeOrder := List (String × List qrule) → List (String × List qrule)

/-- The body of the first loop of `doPage`, for the declaration `v`. -/
def pageRule (ext : Externals) (hp : PageHelpers) (pg : Page) (v : qrule) : Page :=
  if tokenstream.String v.key = "size" then
    { pg with Papersize := tokenstream.String v.value }
  else if tokenstream.String v.key = "margin" then
    { pg with
      MarginTop := mapGetString (hp.getFourValues (tokenstream.String v.value)) "top"
      MarginBottom := mapGetString (hp.getFourValues (tokenstream.String v.value)) "bottom"
      MarginLeft := mapGetString (hp.getFourValues (tokenstream.String v.value)) "left"
      MarginRight := mapGetString (hp.getFourValues (tokenstream.String v.value)) "right" }
  else
    { pg with
      Attributes := pg.Attributes ++
        [⟨"!" ++ tokenstream.String v.key, ext.stringValue v.value⟩] }

/-- The second loop of `doPage`: `pg.pageareaRules[rule.name] = rule.rules` for
each child at-rule. -/
def pageareaRulesLoop (m : List (String × List qrule)) (childAtRules : List sBlock) :
    List (String × List qrule) :=
  childAtRules.foldl (fun m rule => mapSet m rule.name rule.rules) m

/-- The attributes that the last loop of `doPage` makes of the declarations `v`
of a margin box. -/
def areaAttributes (ext : Externals) (v : List qrule) : List Attribute :=
  v.map fun r => ⟨"!" ++ tokenstream.String r.key, ext.stringValue r.value⟩

/-- The last loop of `doPage` over the pairs `k, v` of `pg.pageareaRules`, in
the order `entries`:
`pg.PageArea[strings.TrimPrefix(k, "@")] = a` with `a` the resolved
attributes of `v`. -/
def pageAreaLoop (ext : Externals) (hp : PageHelpers)
    (pageArea : List (String × List (String × String)))
    (entries : List (String × List qrule)) : List (String × List (String × String)) :=
  entries.foldl
    (fun pa kv => mapSet pa (goTrimPrefixAt kv.1) (hp.resolveAttributes (areaAttributes ext kv.2)))
    pageArea

/-- The selector of `doPage`: `strings.Trim(block.componentValues.String(), " ")`. -/
def pageSelector (block : sBlock) : String :=
  goTrimChar (tokenstream.String block.componentValues) ' '

/-- The page `pg` of `doPage` when it is stored, from the page read from the
map (the zero value for a new selector).  A nil map of the page and an empty
one are both the empty list: `doPage` makes the maps before it writes to them. -/
def pageOf (ext : Externals) (hp : PageHelpers) (order : RangeOrder) (pg : Page)
    (block : sBlock) : Page :=
  let pg := block.rules.foldl (pageRule ext hp) pg
  let rules := pageareaRulesLoop pg.pageareaRules block.childAtRules
  { pg with
    pageareaRules := rules
    PageArea := pageAreaLoop ext hp pg.PageArea (order rules) }

/-- The Go method `doPage`.  Its last statement `c.Pages[selector] = pg` panics
when `c.Pages` is the nil map. -/
def doPage (ext : Externals) (hp : PageHelpers) (order : RangeOrder) (c : CSS)
    (block : sBlock) : Run CSS :=
  match c.Pages with
  | none => Run.panic
  | some m =>
    Run.ret
      { c with
        Pages := some (mapSet m (pageSelector block)
          (pageOf ext hp order ((mapGet m (pageSelector block)).getD {}) block)) }

/-- The loop of `processAtRules` over the child at-rules.  The messages that
the source prints are not part of the embedding. -/
def processAtRulesLoop (ext : Externals) (hp : PageHelpers) (order : RangeOrder) :
    CSS → List sBlock → Run (CSS × Option String)
  | c, [] => Run.ret (c, none)
  | c, atrule :: rest =>
    if atrule.name = "font-face" then
      match doFontFace ext c atrule.rules with
      | Run.ret (c2, none) => processAtRulesLoop ext hp order c2 rest
      | other => other
    else if atrule.name = "page" then
      match doPage ext hp order c atrule with
      | Run.ret c2 => processAtRulesLoop ext hp order c2 rest
      | Run.panic => Run.panic
      | Run.fuelOut => Run.fuelOut
    else processAtRulesLoop ext hp order c rest

/-- The Go method `processAtRules`: the engine afterwards and the returned
error.  A nil map `Pages` is made first. -/
def processAtRules (ext : Externals) (hp : PageHelpers) (order : RangeOrder) (c : CSS)
    (stylesheet : sBlock) : Run (CSS × Option String) :=
  processAtRulesLoop ext hp order { c with Pages := some (c.Pages.getD []) }
    stylesheet.childAtRules

/-! ### Definitions used to state the properties -/

/-- The change of brace depth a token makes, in the words of the specification:
`+1` for a delimiter `{`, `-1` for a delimiter `}`, nothing otherwise. -/
def braceDelta (t : Token) : Int :=
  if t.Typ = TokenType.Delim ∧ t.Value = "\x7b" then 1
  else if t.Typ = TokenType.Delim ∧ t.Value = "\x7d" then -1
  else 0

/-- The brace depth after the first `k` tokens, starting at `level`. -/
def braceDepthFrom (level : Int) (toks : tokenstream) (k : Nat) : Int :=
  level + ((toks.take k).map braceDelta).sum

/-- The brace depth after the first `k` tokens of the tokens that follow an
opening brace: it starts at 1. -/
def braceDepth (toks : tokenstream) (k : Nat) : Int :=
  braceDepthFrom 1 toks k

/-- Whether `fixupComponentValues` fuses the pair `t`, `n`: a delimiter `p`
directly followed by an identifier. -/
def fusesWith (p : String) (t n : Token) : Prop :=
  t.Typ = TokenType.Delim ∧ t.Value = p ∧ n.Typ = TokenType.Ident

instance (p : String) (t n : Token) : Decidable (fusesWith p t n) :=
  inferInstanceAs
    (Decidable (t.Typ = TokenType.Delim ∧ t.Value = p ∧ n.Typ = TokenType.Ident))

/-- The effect of the loop of `fixupComponentValues` on the tokens from the
current index on: a fused pair becomes one identifier and the token after it
is passed over unchanged; the last token is never looked at. -/
def fixupTail : tokenstream → tokenstream
  | [] => []
  | [t] => [t]
  | [t, n] =>
    if fusesWith "." t n then [n.prepend "."]
    else if fusesWith ":" t n then [n.prepend ":"]
    else if t.Typ = TokenType.Hash then [t.prepend "#", n]
    else [t, n]
  | t :: n :: v :: rest =>
    if fusesWith "." t n then n.prepend "." :: v :: fixupTail rest
    else if fusesWith ":" t n then n.prepend ":" :: v :: fixupTail rest
    else if t.Typ = TokenType.Hash then t.prepend "#" :: fixupTail (n :: v :: rest)
    else t :: fixupTail (n :: v :: rest)

/-- The pairs of neighbours that a pass of `fixupComponentValues` leaves as
they are: the first is no hash token and the pair is not fused. -/
def settledPair (a b : Token) : Prop :=
  a.Typ ≠ TokenType.Hash ∧ ¬ fusesWith "." a b ∧ ¬ fusesWith ":" a b

instance (a b : Token) : Decidable (settledPair a b) :=
  inferInstanceAs
    (Decidable (a.Typ ≠ TokenType.Hash ∧ ¬ fusesWith "." a b ∧ ¬ fusesWith ":" a b))

/-- Every two neighbours of the token list are a `settledPair`: before its
last token the list has no hash token and no delimiter `.` or `:` directly
followed by an identifier. -/
def settled : tokenstream → Bool
  | [] => true
  | [_] => true
  | a :: b :: rest => decide (settledPair a b) && settled (b :: rest)

/-- A token list does not begin with a whitespace token. -/
def noLeadingSpace (l : tokenstream) : Prop :=
  ∀ t, l.head? = some t → t.Typ ≠ TokenType.S

/-- Neither the key nor the value of a declaration begins with a whitespace
token. -/
def leadTrimmed (q : qrule) : Prop :=
  noLeadingSpace q.key ∧ noLeadingSpace q.value

/-- A loop function `g` extends `f`: it gives the result of `f` wherever `f`
does not run out of budget. -/
def LoopLe (f g : LoopFn) : Prop :=
  ∀ toks inblock b i start colon r,
    f toks inblock b i start colon = r → r ≠ Run.fuelOut → g toks inblock b i start colon = r

/-- A loop function never runs out of budget on streams with fewer than `n`
tokens left. -/
def LoopTotal (f : LoopFn) (n : Nat) : Prop :=
  ∀ toks inblock b i start colon,
    toks.length - i < n → f toks inblock b i start colon ≠ Run.fuelOut

/-- A `src` declaration of a `@font-face` block: its key, as `doFontFace` reads
it (the token values joined, white space trimmed), is `src`. -/
def isSrcRule (rule : qrule) : Bool :=
  decide (goTrimSpace (tokenstream.String rule.key) = "src")

/-- A delimiter token `,`. -/
def isCommaTok (t : Token) : Bool :=
  decide (t.Typ = TokenType.Delim ∧ t.Value = ",")

/-- The number of sources the specification gives a declaration list: for each
`src` declaration, one plus the number of `,` delimiters of its value. -/
def srcCount (ff : List qrule) : Nat :=
  ((ff.filter isSrcRule).map (fun rule => 1 + rule.value.countP isCommaTok)).sum

/-- The delimiter token `:`. -/
def colonTok : Token := ⟨TokenType.Delim, ":"⟩

/-- The delimiter token `;`. -/
def semiTok : Token := ⟨TokenType.Delim, ";"⟩

/-- A list of whitespace tokens. -/
def isSpaces (l : tokenstream) : Prop :=
  ∀ t, t ∈ l → t.Typ = TokenType.S

/-- A token that is none of the delimiters `:`, `;` and `{`. -/
def isPlain (t : Token) : Prop :=
  ¬ (t.Typ = TokenType.Delim ∧ (t.Value = ":" ∨ t.Value = ";" ∨ t.Value = "\x7b"))

/-- A declaration as it stands in a token stream: the key and the value, and
the whitespace tokens around each of them. -/
structure Decl where
  before : tokenstream
  key : tokenstream
  afterKey : tokenstream
  beforeValue : tokenstream
  value : tokenstream
  afterValue : tokenstream

/-- The tokens of a declaration: `key : value` with its whitespace. -/
def Decl.toks (d : Decl) : tokenstream :=
  d.before ++ (d.key ++ (d.afterKey ++ colonTok :: (d.beforeValue ++ (d.value ++ d.afterValue))))

/-- The key and the value are not empty, do not begin with whitespace and
contain no delimiter `:`, `;` or `{`; what surrounds them is whitespace. -/
def Decl.WellFormed (d : Decl) : Prop :=
  isSpaces d.before ∧ isSpaces d.afterKey ∧ isSpaces d.beforeValue ∧ isSpaces d.afterValue ∧
    d.key ≠ [] ∧ d.value ≠ [] ∧ noLeadingSpace d.key ∧ noLeadingSpace d.value ∧
    (∀ t, t ∈ d.key → isPlain t) ∧ (∀ t, t ∈ d.value → isPlain t)

/-- The end of a stream of declarations: nothing, or a last `;` and the
whitespace after it. -/
def closingToks : Option tokenstream → tokenstream
  | none => []
  | some ws => semiTok :: ws

/-- The flat token stream of the declarations `d`, `ds` (one at least),
separated by `;` delimiters, with or without a trailing `;`. -/
def declStream : Decl → List Decl → Option tokenstream → tokenstream
  | d, [], closing => d.toks ++ closingToks closing
  | d, d2 :: ds, closing => d.toks ++ semiTok :: declStream d2 ds closing

/-- The token list `l` is `core` with whitespace tokens around it. -/
def paddedBy (core l : tokenstream) : Prop :=
  ∃ pre post, isSpaces pre ∧ isSpaces post ∧ l = pre ++ (core ++ post)

/-- The parsed declaration `q` has the key and the value of `d`, up to
surrounding whitespace tokens. -/
def declMatches (q : qrule) (d : Decl) : Prop :=
  paddedBy d.key q.key ∧ paddedBy d.value q.value

/-- The loop of `consumeBlock`, started with the given locals, is left with
the locals `e`. -/
def LoopRuns (toks : tokenstream) (inblock : Bool) (b : sBlock) (i start colon : Nat)
    (e : LoopExit) : Prop :=
  ∃ fuel, consumeLoop fuel toks inblock b i start colon = Run.ret e

/-- The node `b` with the declarations `qs` appended. -/
def sBlock.addRules : sBlock → List qrule → sBlock
  | sBlock.mk n cv c bl r, qs => sBlock.mk n cv c bl (r ++ qs)

/-- The delimiter token `{`. -/
def braceOpenTok : Token := ⟨TokenType.Delim, "\x7b"⟩

/-- The delimiter token `}`. -/
def braceCloseTok : Token := ⟨TokenType.Delim, "\x7d"⟩

/-- A token list with balanced braces, as the body of a block: read after an
opening brace, the brace depth stays above 0 and ends at 1. -/
def balanced (body : tokenstream) : Prop :=
  (∀ k, k ≤ body.length → 0 < braceDepth body k) ∧ braceDepth body body.length = 1

/-- An at-rule block as it stands in a token stream: the whitespace before its
at-keyword, the value of the at-keyword, the tokens between the at-keyword and
the opening brace, and the tokens between the braces. -/
structure AtBlock where
  sep : tokenstream
  name : String
  prelude : tokenstream
  body : tokenstream

/-- The tokens of an at-rule block from its at-keyword to its closing brace. -/
def AtBlock.core (a : AtBlock) : tokenstream :=
  ⟨TokenType.AtKeyword, a.name⟩ :: (a.prelude ++ braceOpenTok :: (a.body ++ [braceCloseTok]))

/-- The tokens of an at-rule block, with the whitespace before it. -/
def AtBlock.toks (a : AtBlock) : tokenstream :=
  a.sep ++ a.core

/-- The flag of the recursive call of `consumeBlock` on the body of the
block. -/
def AtBlock.flat (a : AtBlock) : Bool :=
  !(decide (a.name = "media" ∨ a.name = "supports"))

/-- At most one whitespace token stands before the at-keyword, the prelude has
no delimiter `:`, `;` or `{`, and the body is not empty and balanced. -/
def AtBlock.WellFormed (a : AtBlock) : Prop :=
  isSpaces a.sep ∧ a.sep.length ≤ 1 ∧ (∀ t, t ∈ a.prelude → isPlain t) ∧ a.body ≠ [] ∧
    balanced a.body

/-- The node `c` is what `consumeBlock` records for the at-rule block `a`: the
parse of the body, named by the at-keyword, with the normalized prelude. -/
def AtBlock.records (c : sBlock) (a : AtBlock) : Prop :=
  ∃ nb, consumeBlock a.body a.flat = Run.ret nb ∧
    c = (nb.setName a.name).setComponentValues (fixupComponentValues a.prelude)

/-- The tokens of a list of at-rule blocks, one after the other. -/
def blocksStream : List AtBlock → tokenstream
  | [] => []
  | a :: rest => a.toks ++ blocksStream rest

/-- The tokens of a list of declarations, each closed by `;`. -/
def declsStream : List Decl → tokenstream
  | [] => []
  | d :: rest => d.toks ++ semiTok :: declsStream rest

/-- The node `b` with the child at-rules `cs` appended. -/
def sBlock.addChildAtRules : sBlock → List sBlock → sBlock
  | sBlock.mk n cv c bl r, cs => sBlock.mk n cv (c ++ cs) bl r

/-- The body of an at-rule block that holds declarations, each closed by `;`,
then nested at-rule blocks, with whitespace at both ends. -/
def nestedBody (lead : tokenstream) (ds : List Decl) (bs : List AtBlock)
    (trail : tokenstream) : tokenstream :=
  lead ++ (declsStream ds ++ (blocksStream bs ++ trail))

/-- A token stream that consists of one at-rule block: whitespace, the
at-keyword, the prelude, the body between braces, whitespace. -/
def atRuleStream (ws : tokenstream) (name : String) (prelude body wsEnd : tokenstream) :
    tokenstream :=
  ws ++ (AtBlock.core ⟨[], name, prelude, body⟩ ++ wsEnd)

/-- A token that is neither the delimiter `;` nor the delimiter `{`. -/
def isPreludeTok (t : Token) : Prop :=
  ¬ (t.Typ = TokenType.Delim ∧ (t.Value = ";" ∨ t.Value = "\x7b"))

instance (t : Token) : Decidable (isPreludeTok t) :=
  inferInstanceAs
    (Decidable (¬ (t.Typ = TokenType.Delim ∧ (t.Value = ";" ∨ t.Value = "\x7b"))))

/-- The position `i` of the stream holds no delimiter `;`, and no delimiter
`{` other than one that its closing brace follows at once. -/
def passedOver (toks : tokenstream) (i : Nat) : Prop :=
  ∀ t, toks[i]? = some t →
    ¬ (t.Typ = TokenType.Delim ∧ t.Value = ";") ∧
      (t.Typ = TokenType.Delim ∧ t.Value = "\x7b" → findClosingBrace (toks.drop (i + 1)) = 1)

/-- The local `colon` of `consumeBlock` is 0 or the index of a token from
`start` on. -/
def colonOk (toks : tokenstream) (start colon : Nat) : Prop :=
  colon = 0 ∨ (start ≤ colon ∧ colon < toks.length)

/-- The loop of `consumeBlock` on the stream is left with a colon pending
(`colon > 0`): the statement after the loop appends a dangling declaration. -/
def hasDangling (toks : tokenstream) (inblock : Bool) : Prop :=
  ∃ e, LoopRuns toks inblock sBlock.empty (skipSpaceLoop toks 0) (skipSpaceLoop toks 0) 0 e ∧
    0 < e.colon

/-- The flag of the recursive call of `consumeBlock` for the block of an
at-rule named `name`: `false` for `media` and `supports`, whose block holds
rule sets, and `true` otherwise. -/
def atRuleFlag (name : String) : Bool :=
  !(decide (name = "media" ∨ name = "supports"))

mutual

/-- `DeclsTrimmed toks inblock node`, for the node parsed from `toks`: every
declaration of the node is `leadTrimmed`, apart from the dangling declaration
(the last one, when the loop over `toks` is left with a colon pending); and
every node recorded in it has the same property for its own stream, the
tokens of `toks` between the braces of its block: with the flag `atRuleFlag`
of its name for a child at-rule, and with the flag `true` for a block. -/
inductive DeclsTrimmed : tokenstream → Bool → sBlock → Prop where
  | mk (toks : tokenstream) (inblock : Bool) (name : String) (cv : tokenstream)
      (childAtRules blocks : List sBlock) (rules : List qrule)
      (hclosed : ∀ q, q ∈ rules.dropLast → leadTrimmed q)
      (hlast : ¬ hasDangling toks inblock → ∀ q, q ∈ rules → leadTrimmed q)
      (hchild : ∀ c, c ∈ childAtRules → SubTrimmed toks (atRuleFlag c.name) c)
      (hblocks : ∀ c, c ∈ blocks → SubTrimmed toks true c) :
      DeclsTrimmed toks inblock (sBlock.mk name cv childAtRules blocks rules)

/-- `SubTrimmed toks flag c`: the node `c` holds what `consumeBlock` returns,
called with `flag`, for the sub-block of an opening brace of `toks`, the slice
`toks[i+1 : i+l]` with `l` the result of `findClosingBrace(toks[i+1:])`; and
it is `DeclsTrimmed` for that sub-block and flag. -/
inductive SubTrimmed : tokenstream → Bool → sBlock → Prop where
  | mk (toks : tokenstream) (i : Nat) (sub : tokenstream) (flag : Bool) (nb c : sBlock)
      (hbrace : toks[i]? = some braceOpenTok)
      (hsub : goSlice toks (i + 1) (i + findClosingBrace (toks.drop (i + 1))) = some sub)
      (hparse : consumeBlock sub flag = Run.ret nb)
      (hsame : c.rules = nb.rules ∧ c.childAtRules = nb.childAtRules ∧ c.blocks = nb.blocks)
      (hnode : DeclsTrimmed sub flag c) : SubTrimmed toks flag c

end

/-- The invariant of the loop of `consumeBlock` over `toks` for `DeclsTrimmed`:
all the declarations appended so far are `leadTrimmed`, and the recorded nodes
are `SubTrimmed`. -/
def LoopTrimmed (toks : tokenstream) (b : sBlock) : Prop :=
  (∀ q, q ∈ b.rules → leadTrimmed q) ∧
    (∀ c, c ∈ b.childAtRules → SubTrimmed toks (atRuleFlag c.name) c) ∧
    (∀ c, c ∈ b.blocks → SubTrimmed toks true c)

/-- A loop function keeps `LoopTrimmed`; when it is left with a colon pending
so is the loop of `consumeBlock`; and what `consumeBlock` returns around it
is what `consumeBlock` returns. -/
def LoopKeeps (f : LoopFn) : Prop :=
  (∀ toks inblock b i start colon e,
    f toks inblock b i start colon = Run.ret e → LoopTrimmed toks b → LoopTrimmed toks e.b) ∧
  (∀ toks inblock e,
    f toks inblock sBlock.empty (skipSpaceLoop toks 0) (skipSpaceLoop toks 0) 0 = Run.ret e →
    0 < e.colon → hasDangling toks inblock) ∧
  (∀ toks inblock nb,
    consumeBlockWith f toks inblock = Run.ret nb → consumeBlock toks inblock = Run.ret nb)

/-! ### Definitions used to state the properties of the extractors -/

/-- A `font-weight` declaration of a `@font-face` block: its key, as
`doFontFace` reads it, is `font-weight`. -/
def isWeightRule (rule : qrule) : Bool :=
  decide (goTrimSpace (tokenstream.String rule.key) = "font-weight")

/-- The keyword table of the specification for `font-weight`. -/
def specWeightTable : List (String × Int) :=
  [("thin", 100), ("hairline", 100), ("extra light", 200), ("ultra light", 200),
   ("light", 300), ("normal", 400), ("medium", 500), ("semi bold", 600),
   ("demi bold", 600), ("bold", 700), ("extra bold", 800), ("ultra bold", 800),
   ("black", 900), ("heavy", 900)]

/-- The weight after a `font-weight` declaration with the trimmed value `v`, in
the words of the specification: the integer that `v` parses as; otherwise the
entry of the lower-cased `v` in the keyword table; otherwise the weight `w`
there was before. -/
def specWeightFrom (w : Int) (v : String) : Int :=
  match goAtoi v with
  | some n => n
  | none => (mapGet specWeightTable (goToLower v)).getD w

/-- The weight the specification gives a block whose one `font-weight`
declaration has the trimmed value `v`: the default is 400. -/
def specWeight (v : String) : Int :=
  specWeightFrom 400 v

/-- The number that a list of decimal digits writes: each digit with the
weight of its position. -/
def decimalValue : List Char → Nat
  | [] => 0
  | c :: cs => (c.toNat - 48) * 10 ^ cs.length + decimalValue cs

/-- A plain decimal numeral: one to eighteen decimal digits (it fits an `int`),
without sign. -/
def isDecimal (ds : List Char) : Prop :=
  ds ≠ [] ∧ (∀ c, c ∈ ds → isDigitRune c = true) ∧ ds.length ≤ 18

/-- The trimmed value of a declaration, as `doFontFace` reads it. -/
def ruleValue (ext : Externals) (rule : qrule) : String :=
  goTrimSpace (ext.stringValue rule.value)

/-- A token of one of the kinds that the walk over a `src` value handles:
`local()`, URI, `format()`, `tech()`, delimiter or whitespace. -/
def isSrcToken (t : Token) : Bool :=
  decide (t.Typ = TokenType.Local ∨ t.Typ = TokenType.URI ∨ t.Typ = TokenType.Format ∨
    t.Typ = TokenType.Tech ∨ t.Typ = TokenType.Delim ∨ t.Typ = TokenType.S)

/-- A `size-adjust` declaration of a `@font-face` block. -/
def isSizeAdjustRule (rule : qrule) : Bool :=
  decide (goTrimSpace (tokenstream.String rule.key) = "size-adjust")

/-- The `size-adjust` values of the declaration list are numeric: what is left
of the trimmed value without a last `%` parses as a float. -/
def numericSizeAdjust (ext : Externals) (ff : List qrule) : Prop :=
  ∀ rule, rule ∈ ff → isSizeAdjustRule rule = true →
    ext.parsesAsFloat (goTrimSuffixPercent (ruleValue ext rule)) = true

/-- Some `src` declaration of the list has a value with a token of a kind that
the walk does not handle. -/
def hasUnhandledSrc (ff : List qrule) : Prop :=
  ∃ rule, rule ∈ ff ∧ isSrcRule rule = true ∧ ∃ t, t ∈ rule.value ∧ isSrcToken t = false

/-- A child at-rule named `font-face`. -/
def isFontFaceAtRule (a : sBlock) : Bool :=
  decide (a.name = "font-face")

/-- A child at-rule that `processAtRules` acts on: named `font-face` or
`page`. -/
def isKnownAtRule (a : sBlock) : Bool :=
  decide (a.name = "font-face" ∨ a.name = "page")

/-- The font face `f` is the one that `doFontFace` appends for the declaration
list `rules`, whatever the engine holds. -/
def appendsFontFace (ext : Externals) (rules : List qrule) (f : FontFace) : Prop :=
  ∀ c : CSS,
    doFontFace ext c rules = Run.ret ({ c with FontFaces := c.FontFaces ++ [f] }, none)

/-- Stand-ins for the helpers that are not among the sources, for the
examples: `stringValue` joins the token values, every text parses as a
float. -/
def sampleExternals : Externals :=
  ⟨tokenstream.String, fun _ => true⟩

/-- Stand-ins for the helpers of `doPage`, for the examples: no box values,
and the attributes themselves as the resolved property map. -/
def sampleHelpers : PageHelpers :=
  ⟨fun _ => [], fun attrs => attrs.map fun a => (a.Key, a.Val)⟩

/-- A stylesheet root with the child at-rules `@font-face` (`font-style:
italic`), `@foo`, `@page` (`size: a5`) and `@font-face` (`font-weight:
bold`). -/
def sampleRoot : sBlock :=
  sBlock.mk "" []
    [sBlock.mk "font-face" [] [] []
       [⟨[⟨TokenType.Ident, "font-style"⟩], [⟨TokenType.Ident, "italic"⟩]⟩],
     sBlock.mk "foo" [] [] [] [],
     sBlock.mk "page" [] [] [] [⟨[⟨TokenType.Ident, "size"⟩], [⟨TokenType.Ident, "a5"⟩]⟩],
     sBlock.mk "font-face" [] [] []
       [⟨[⟨TokenType.Ident, "font-weight"⟩], [⟨TokenType.Ident, "bold"⟩]⟩]]
    [] []

/-- A `font-feature-settings` declaration of a `@font-face` block. -/
def isFeatureRule (rule : qrule) : Bool :=
  decide (goTrimSpace (tokenstream.String rule.key) = "font-feature-settings")

/-- The trailing match that the specification strips from a value: `on` or
`off` when the value ends with it, otherwise the run of digits at its end;
empty when there is nothing to strip. -/
def strippedSwitch (cs : List Char) : List Char :=
  if ['o', 'n'] <:+ cs then ['o', 'n']
  else if ['o', 'f', 'f'] <:+ cs then ['o', 'f', 'f']
  else cs.rtakeWhile isDigitRune

/-- The value without the trailing match that is stripped. -/
def featureRemainder (cs : List Char) : List Char :=
  cs.take (cs.length - (strippedSwitch cs).length)

/-- The common prefix of the features of a value: `-` exactly when the
stripped match is `off` or `0`. -/
def featurePrefix (cs : List Char) : String :=
  if strippedSwitch cs = ['o', 'f', 'f'] ∨ strippedSwitch cs = ['0'] then "-" else "+"

/-- The features the specification gives a trimmed value: the remainder split
at commas, each piece trimmed and prefixed. -/
def specFeatureSettings (v : String) : List String :=
  (goSplitComma (featureRemainder v.data)).map fun piece =>
    featurePrefix v.data ++ goTrimSpace (String.mk piece)

/-- The list does not end with a character of the class `\s`. -/
def noTrailingSpace (cs : List Char) : Prop :=
  ∀ c, cs.getLast? = some c → isRegexSpace c = false

/-- A character list is one that the pattern `(on|off|\d+)` matches as a
whole. -/
def isSwitch (s : List Char) : Prop :=
  s = ['o', 'n'] ∨ s = ['o', 'f', 'f'] ∨ (s ≠ [] ∧ ∀ c, c ∈ s → isDigitRune c = true)

/-- The keys of a map held as a list of key-value pairs. -/
def mapKeys {α : Type} (m : List (String × α)) : List String :=
  m.map Prod.fst

/-- What Go promises of a `range` loop over the map `m`: the pairs `entries`
that it visits hold each key of `m` once, with the value that `m` has for it. -/
def IsRange {α : Type} (entries m : List (String × α)) : Prop :=
  (mapKeys entries).Nodup ∧ (∀ p, p ∈ entries → mapGet m p.1 = some p.2) ∧
    (∀ p, p ∈ m → p.1 ∈ mapKeys entries)

/-- A `size` declaration of a `@page` block: its key, as `doPage` reads it
(the token values joined), is `size`. -/
def isSizeRule (q : qrule) : Bool :=
  decide (tokenstream.String q.key = "size")

/-- The stringified value of the last `size` declaration of a list, if there
is one. -/
def lastSize (rules : List qrule) : Option String :=
  ((rules.filter isSizeRule).getLast?).map fun q => tokenstream.String q.value

/-- The last child at-rule with the name `n`. -/
def lastNamed (childAtRules : List sBlock) (n : String) : Option sBlock :=
  (childAtRules.filter fun a => decide (a.name = n)).getLast?

/-- No two of the names differ only by a leading `@`: stripping the prefix
`@` keeps them apart. -/
def trimInjective (names : List String) : Prop :=
  ∀ k k2, k ∈ names → k2 ∈ names → goTrimPrefixAt k = goTrimPrefixAt k2 → k = k2

/-- The at-rule of the test `TestNestedAtrule` as `consumeBlock` records it:
`@page` with `size: a5` and three margin boxes. -/
def samplePage : sBlock :=
  sBlock.mk "page" []
    [sBlock.mk "bottom-right-corner" [] [] []
       [⟨[⟨TokenType.Ident, "border"⟩], [⟨TokenType.Dimension, "4pt"⟩]⟩],
     sBlock.mk "top-right-corner" [] [] []
       [⟨[⟨TokenType.Ident, "border"⟩], [⟨TokenType.Dimension, "3pt"⟩]⟩],
     sBlock.mk "bottom-left-corner" [] [] []
       [⟨[⟨TokenType.Ident, "border"⟩], [⟨TokenType.Dimension, "2pt"⟩]⟩]]
    []
    [⟨[⟨TokenType.Ident, "size"⟩], [⟨TokenType.Ident, "a5"⟩]⟩]

/-- A `margin` declaration of a `@page` block. -/
def isMarginRule (q : qrule) : Bool :=
  decide (tokenstream.String q.key = "margin")

/-- The four margins of a page are empty. -/
def emptyMargins (pg : Page) : Prop :=
  pg.MarginTop = "" ∧ pg.MarginRight = "" ∧ pg.MarginBottom = "" ∧ pg.MarginLeft = ""

/-- A later `@page` block with the selector of `samplePage`: no `size`, and
the margin box `top-right-corner` with another border. -/
def samplePageLater : sBlock :=
  sBlock.mk "page" []
    [sBlock.mk "top-right-corner" [] [] []
       [⟨[⟨TokenType.Ident, "border"⟩], [⟨TokenType.Dimension, "1pt"⟩]⟩]]
    [] []

/-- The characters of a stringified token list: the values of the tokens one
after the other. -/
def specStringify (t : tokenstream) : List Char :=
  (t.map fun tok => tok.Value.data).flatten

/-- The string `sel` is the character list `s` without the blanks at its two
ends: `s` is blanks, `sel`, blanks, and `sel` neither begins nor ends with a
blank. -/
def isBlankTrim (sel : String) (s : List Char) : Prop :=
  ∃ lead trail, (∀ c, c ∈ lead → c = ' ') ∧ (∀ c, c ∈ trail → c = ' ') ∧
    s = lead ++ (sel.data ++ trail) ∧ sel.data.head? ≠ some ' ' ∧
    sel.data.getLast? ≠ some ' '

/-- The at-rule `@page :first` with `size: a4` and one margin box; its prelude
as `fixupComponentValues` leaves it, the fused `:first` and the whitespace
before the brace. -/
def samplePageFirst : sBlock :=
  sBlock.mk "page" [⟨TokenType.Ident, ":first"⟩, ⟨TokenType.S, " "⟩]
    [sBlock.mk "top-center" [] [] []
       [⟨[⟨TokenType.Ident, "content"⟩], [⟨TokenType.String, "x"⟩]⟩]]
    []
    [⟨[⟨TokenType.Ident, "size"⟩], [⟨TokenType.Ident, "a4"⟩]⟩]

/-! ### The brace matcher -/

theorem braceDepthFrom_cons (level : Int) (t : Token) (rest : tokenstream) (k : Nat) :
    braceDepthFrom level (t :: rest) (k + 1) = braceDepthFrom (level + braceDelta t) rest k := by
  simp [braceDepthFrom, add_assoc]

theorem findClosingBraceLoop_cons (t : Token) (rest : tokenstream) (level : Int) (i : Nat) :
    findClosingBraceLoop (t :: rest) level i =
      if level + braceDelta t = 0 ∧ braceDelta t = -1 then i + 1
      else findClosingBraceLoop rest (level + braceDelta t) (i + 1) := by
  unfold braceDelta
  rw [findClosingBraceLoop]
  by_cases h1 : t.Typ = TokenType.Delim
  · by_cases h2 : t.Value = "\x7b"
    · simp [h1, h2]
    · by_cases h3 : t.Value = "\x7d"
      · simp [h1, h3, sub_eq_add_neg]
      · simp [h1, h2, h3]
  · simp [h1]

theorem braceDelta_cases (t : Token) :
    braceDelta t = 1 ∨ braceDelta t = -1 ∨ braceDelta t = 0 := by
  unfold braceDelta
  split
  · exact Or.inl rfl
  · split
    · exact Or.inr (Or.inl rfl)
    · exact Or.inr (Or.inr rfl)

theorem findClosingBraceLoop_first (toks : tokenstream) :
    ∀ (level : Int) (i0 i : Nat), 0 < level → i < toks.length →
      braceDepthFrom level toks (i + 1) = 0 →
      (∀ j, j < i → braceDepthFrom level toks (j + 1) ≠ 0) →
      findClosingBraceLoop toks level i0 = i0 + i + 1 := by
  induction toks with
  | nil => intro level i0 i _ hi; simp at hi
  | cons t rest ih =>
    intro level i0 i hl hi hz hfirst
    rw [findClosingBraceLoop_cons]
    cases i with
    | zero =>
      have h0 : level + braceDelta t = 0 := by
        simpa [braceDepthFrom] using hz
      have hd : braceDelta t = -1 := by
        rcases braceDelta_cases t with h | h | h <;> omega
      rw [if_pos ⟨h0, hd⟩]
    | succ i =>
      have h0 : level + braceDelta t ≠ 0 := by
        have := hfirst 0 (Nat.succ_pos i)
        simpa [braceDepthFrom] using this
      have hpos : 0 < level + braceDelta t := by
        rcases braceDelta_cases t with h | h | h <;> omega
      rw [if_neg (fun h => h0 h.1)]
      rw [braceDepthFrom_cons] at hz
      have := ih (level + braceDelta t) (i0 + 1) i hpos (by simpa using hi) hz
        (fun j hj => by
          have := hfirst (j + 1) (Nat.succ_lt_succ hj)
          rwa [braceDepthFrom_cons] at this)
      rw [this]; omega

theorem findClosingBraceLoop_never (toks : tokenstream) :
    ∀ (level : Int) (i0 : Nat), 0 < level →
      (∀ i, i < toks.length → braceDepthFrom level toks (i + 1) ≠ 0) →
      findClosingBraceLoop toks level i0 = i0 + toks.length := by
  induction toks with
  | nil => intro level i0 _ _; simp [findClosingBraceLoop]
  | cons t rest ih =>
    intro level i0 hl hne
    rw [findClosingBraceLoop_cons]
    have h0 : level + braceDelta t ≠ 0 := by
      have := hne 0 (by simp)
      simpa [braceDepthFrom] using this
    have hpos : 0 < level + braceDelta t := by
      rcases braceDelta_cases t with h | h | h <;> omega
    rw [if_neg (fun h => h0 h.1)]
    rw [ih (level + braceDelta t) (i0 + 1) hpos (fun i hi => by
      have := hne (i + 1) (by simpa using hi)
      rwa [braceDepthFrom_cons] at this)]
    simp; omega

theorem findClosingBraceLoop_congr (toks toks2 : tokenstream)
    (h : List.Forall₂ (fun a b => a = b ∨ (a.Typ ≠ TokenType.Delim ∧ b.Typ ≠ TokenType.Delim))
      toks toks2) :
    ∀ (level : Int) (i0 : Nat),
      findClosingBraceLoop toks2 level i0 = findClosingBraceLoop toks level i0 := by
  induction h with
  | nil => intro level i0; rfl
  | cons hab _ ih =>
    intro level i0
    rw [findClosingBraceLoop_cons, findClosingBraceLoop_cons]
    rcases hab with hab | ⟨ha, hb⟩
    · subst hab; simp [ih]
    · simp [braceDelta, ha, hb, ih]

/-- C3: `findClosingBrace` follows the brace depth that starts at 1, goes up at
each delimiter `{` and down at each delimiter `}`: it returns `i + 1` for the
first index `i` at which the depth reaches 0, the length of the stream when the
depth never reaches 0, and it does not depend on tokens that are not
delimiters. -/
theorem findClosingBrace_depth (toks : tokenstream) :
    (∀ i, i < toks.length → braceDepth toks (i + 1) = 0 →
        (∀ j, j < i → braceDepth toks (j + 1) ≠ 0) → findClosingBrace toks = i + 1) ∧
    ((∀ i, i < toks.length → braceDepth toks (i + 1) ≠ 0) →
        findClosingBrace toks = toks.length) ∧
    (∀ toks2 : tokenstream,
        List.Forall₂ (fun a b => a = b ∨ (a.Typ ≠ TokenType.Delim ∧ b.Typ ≠ TokenType.Delim))
          toks toks2 →
        findClosingBrace toks2 = findClosingBrace toks) := by
  refine ⟨fun i hi hz hfirst => ?_, fun hne => ?_, fun toks2 h => ?_⟩
  · have := findClosingBraceLoop_first toks 1 0 i (by decide) hi hz hfirst
    simpa [findClosingBrace] using this
  · have := findClosingBraceLoop_never toks 1 0 (by decide) hne
    simpa [findClosingBrace] using this
  · exact findClosingBraceLoop_congr toks toks2 h 1 0

/-- C3 at a concrete stream: the string token with value `}` is inert, the
second delimiter `}` closes the block. -/
theorem findClosingBrace_depth_witness :
    findClosingBrace
      [⟨TokenType.Ident, "a"⟩, ⟨TokenType.Delim, "\x7b"⟩, ⟨TokenType.String, "\x7d"⟩,
       ⟨TokenType.Delim, "\x7d"⟩, ⟨TokenType.Delim, "\x7d"⟩, ⟨TokenType.Ident, "b"⟩] = 4 + 1 :=
  (findClosingBrace_depth _).1 4 (by decide) (by decide) (by decide)

/-! ### The component-value normalizer -/

theorem fixupLoop_done (fuel : Nat) (toks : tokenstream) (i : Nat)
    (h : toks.length ≤ i + 1) : fixupLoop fuel toks i = toks := by
  cases fuel with
  | zero => rfl
  | succ fuel => rw [fixupLoop, dif_neg (by omega)]

theorem set_erase_pair (pre : tokenstream) (t n m : Token) (rest : tokenstream) :
    ((pre ++ t :: n :: rest).set (pre.length + 1) m).eraseIdx pre.length = pre ++ m :: rest := by
  induction pre with
  | nil => simp
  | cons a pre ih => simpa using ih

theorem set_at_length (pre : tokenstream) (t m : Token) (rest : tokenstream) :
    (pre ++ t :: rest).set pre.length m = pre ++ m :: rest := by
  induction pre with
  | nil => simp
  | cons a pre ih => simp

theorem fixupLoop_eq_tail (fuel : Nat) :
    ∀ (pre suf : tokenstream), suf.length ≤ fuel →
      fixupLoop fuel (pre ++ suf) pre.length = pre ++ fixupTail suf := by
  induction fuel using Nat.strong_induction_on with
  | _ fuel ih =>
    intro pre suf hlen
    match suf, hlen with
    | [], _ => rw [fixupLoop_done _ _ _ (by simp)]; simp [fixupTail]
    | [t], _ => rw [fixupLoop_done _ _ _ (by simp)]; simp [fixupTail]
    | t :: n :: rest, hlen =>
      have hlen2 : rest.length + 2 ≤ fuel := by simpa using hlen
      obtain ⟨fuel, rfl⟩ : ∃ k, fuel = k + 1 := ⟨fuel - 1, by omega⟩
      have hi : pre.length + 1 < (pre ++ t :: n :: rest).length := by
        rw [List.length_append, List.length_cons, List.length_cons]; omega
      have ht : (pre ++ t :: n :: rest)[pre.length] = t := by
        rw [List.getElem_append_right (le_refl _)]; simp
      have hn : (pre ++ t :: n :: rest)[pre.length + 1] = n := by
        rw [List.getElem_append_right (by omega)]; simp
      rw [fixupLoop, dif_pos hi]
      simp only [ht, hn]
      have hscan : ∀ m : Token,
          fixupLoop fuel (pre ++ m :: n :: rest) (pre.length + 1) =
            pre ++ m :: fixupTail (n :: rest) := by
        intro m
        have := ih fuel (Nat.lt_succ_self _) (pre ++ [m]) (n :: rest)
          (by simp at hlen ⊢; omega)
        simpa using this
      match rest, hlen, hscan with
      | [], _, hscan =>
        rw [fixupTail]
        simp only [fusesWith]
        split
        · rw [set_erase_pair, fixupLoop_done _ _ _ (by simp)]
        · split
          · rw [set_erase_pair, fixupLoop_done _ _ _ (by simp)]
          · split
            · rw [set_at_length, hscan]; simp [fixupTail]
            · rw [hscan]; simp [fixupTail]
      | v :: rest2, hlen, hscan =>
        have hfuse : ∀ m : Token,
            fixupLoop fuel (pre ++ m :: v :: rest2) (pre.length + 2) =
              pre ++ m :: v :: fixupTail rest2 := by
          intro m
          have := ih fuel (Nat.lt_succ_self _) (pre ++ [m, v]) rest2
            (by simp at hlen; omega)
          simpa using this
        rw [fixupTail]
        simp only [fusesWith]
        split
        · rw [set_erase_pair, hfuse]
        · split
          · rw [set_erase_pair, hfuse]
          · split
            · rw [set_at_length, hscan]
            · rw [hscan]

theorem fixupComponentValues_eq_tail (toks : tokenstream) :
    fixupComponentValues toks = fixupTail (trimSpace toks) := by
  have := fixupLoop_eq_tail (trimSpace toks).length [] (trimSpace toks) (le_refl _)
  simpa [fixupComponentValues] using this

theorem tokens_induct {P : tokenstream → Prop} (h0 : P []) (h1 : ∀ t, P [t])
    (h2 : ∀ t n, P [t, n])
    (h3 : ∀ t n v rest, P rest → P (n :: v :: rest) → P (t :: n :: v :: rest)) :
    ∀ l, P l := by
  have key : ∀ k (l : tokenstream), l.length = k → P l := by
    intro k
    induction k using Nat.strong_induction_on with
    | _ k ih =>
      intro l hk
      match l, hk with
      | [], _ => exact h0
      | [t], _ => exact h1 t
      | [t, n], _ => exact h2 t n
      | t :: n :: v :: rest, hk =>
        subst hk
        exact h3 t n v rest (ih rest.length (by simp; omega) rest rfl)
          (ih (n :: v :: rest).length (by simp) (n :: v :: rest) rfl)
  exact fun l => key l.length l rfl

theorem fixupTail_length_le (l : tokenstream) : (fixupTail l).length ≤ l.length := by
  induction l using tokens_induct with
  | h0 => simp [fixupTail]
  | h1 t => simp [fixupTail]
  | h2 t n => simp only [fixupTail]; split_ifs <;> simp
  | h3 t n v rest ih1 ih2 =>
    simp only [fixupTail]
    split_ifs <;> simp only [List.length_cons] at * <;> omega

theorem prepend_ne (p : String) (t : Token) (hp : p.length ≠ 0) : t.prepend p ≠ t := by
  intro h
  have h2 : (t.prepend p).Value.length = t.Value.length := by rw [h]
  simp [Token.prepend, String.length_append] at h2
  exact hp h2

theorem fixupTail_fixed_iff (l : tokenstream) :
    fixupTail l = l ↔ settled l = true := by
  induction l using tokens_induct with
  | h0 => simp [fixupTail, settled]
  | h1 t => simp [fixupTail, settled]
  | h2 t n =>
    simp only [fixupTail, settled, Bool.and_true, decide_eq_true_eq, settledPair]
    split_ifs with h1 h2 h3
    · simp [h1]
    · simp [h2]
    · simp [h3, prepend_ne _ _ (show ("#" : String).length ≠ 0 by decide)]
    · simp [h1, h2, h3]
  | h3 t n v rest ih1 ih2 =>
    simp only [fixupTail]
    rw [settled, Bool.and_eq_true, decide_eq_true_eq]
    simp only [settledPair]
    have hlen := fixupTail_length_le rest
    split_ifs with h1 h2 h3
    · simp only [h1, not_true_eq_false, false_and, and_false, iff_false]
      intro h
      have := congrArg List.length h
      simp at this; omega
    · simp only [h2, not_true_eq_false, false_and, and_false, iff_false]
      intro h
      have := congrArg List.length h
      simp at this; omega
    · simp [h3, prepend_ne _ _ (show ("#" : String).length ≠ 0 by decide)]
    · simp only [List.cons.injEq, true_and, ih2]
      simp [h1, h2, h3]

theorem trimSpace_of_head (l : tokenstream)
    (h : ∀ a, l.head? = some a → a.Typ ≠ TokenType.S) : trimSpace l = l := by
  cases l with
  | nil => rfl
  | cons a l => simp [trimSpace, h a rfl]

theorem trimSpace_head (l : tokenstream) :
    ∀ a, (trimSpace l).head? = some a → a.Typ ≠ TokenType.S := by
  induction l with
  | nil => simp [trimSpace]
  | cons t l ih =>
    intro a
    rw [trimSpace]
    split_ifs with h
    · exact ih a
    · intro ha; simp at ha; subst ha; exact h

theorem fixupTail_head (l : tokenstream)
    (h : ∀ a, l.head? = some a → a.Typ ≠ TokenType.S) :
    ∀ a, (fixupTail l).head? = some a → a.Typ ≠ TokenType.S := by
  intro a
  match l, h with
  | [], _ => simp [fixupTail]
  | [t], h => simpa [fixupTail] using h a
  | [t, n], h =>
    have ht := h t rfl
    simp only [fixupTail]
    split_ifs with h1 h2 h3 <;> simp <;> intro ha <;> subst ha <;>
      simp_all [Token.prepend, fusesWith]
  | t :: n :: v :: rest, h =>
    have ht := h t rfl
    simp only [fixupTail]
    split_ifs with h1 h2 h3 <;> simp <;> intro ha <;> subst ha <;>
      simp_all [Token.prepend, fusesWith]

/-- C6, amended: a second pass of `fixupComponentValues` changes nothing
exactly when the first pass left, before its last token, no hash token and no
delimiter `.` or `:` directly followed by an identifier (the result of the first
pass is `settled`). -/
theorem fixupComponentValues_twice_iff (t : tokenstream) :
    fixupComponentValues (fixupComponentValues t) = fixupComponentValues t ↔
      settled (fixupComponentValues t) = true := by
  have hhead : ∀ a, (fixupComponentValues t).head? = some a → a.Typ ≠ TokenType.S := by
    rw [fixupComponentValues_eq_tail]
    exact fixupTail_head _ (trimSpace_head t)
  rw [fixupComponentValues_eq_tail (fixupComponentValues t), trimSpace_of_head _ hhead,
    fixupTail_fixed_iff]

/-- C6, amended, on the tokens of `p.a b`: the first pass gives `p`, `.a`,
whitespace, `b`, which is settled, and the second pass changes nothing. -/
theorem fixupComponentValues_twice_iff_witness :
    fixupComponentValues
        (fixupComponentValues
          [⟨TokenType.Ident, "p"⟩, ⟨TokenType.Delim, "."⟩, ⟨TokenType.Ident, "a"⟩,
           ⟨TokenType.S, " "⟩, ⟨TokenType.Ident, "b"⟩]) =
      fixupComponentValues
        [⟨TokenType.Ident, "p"⟩, ⟨TokenType.Delim, "."⟩, ⟨TokenType.Ident, "a"⟩,
         ⟨TokenType.S, " "⟩, ⟨TokenType.Ident, "b"⟩] :=
  (fixupComponentValues_twice_iff _).2 (by decide)

/-- C6 fails as stated: on a hash token followed by an identifier the second
pass prepends a second `#`. -/
theorem fixupComponentValues_not_idempotent :
    fixupComponentValues
        (fixupComponentValues [⟨TokenType.Hash, "a"⟩, ⟨TokenType.Ident, "x"⟩]) ≠
      fixupComponentValues [⟨TokenType.Hash, "a"⟩, ⟨TokenType.Ident, "x"⟩] := by
  decide

/-- C7 at the failing input `.a.b`: only the first pair is fused, the second
`.` and `b` stay two tokens. -/
theorem fixupComponentValues_second_pair :
    fixupComponentValues
        [⟨TokenType.Delim, "."⟩, ⟨TokenType.Ident, "a"⟩, ⟨TokenType.Delim, "."⟩,
         ⟨TokenType.Ident, "b"⟩] =
      [⟨TokenType.Ident, ".a"⟩, ⟨TokenType.Delim, "."⟩, ⟨TokenType.Ident, "b"⟩] := by
  decide

/-- C8 at the failing input, a hash token in the last position: its value is
not rewritten. -/
theorem fixupComponentValues_last_hash :
    fixupComponentValues [⟨TokenType.Hash, "main"⟩] = [⟨TokenType.Hash, "main"⟩] := by
  decide

/-! ### The budget of the block parser -/

theorem consumeNext_mono {f g : LoopFn} (hfg : LoopLe f g) (toks : tokenstream)
    (inblock : Bool) (b : sBlock) (i start colon : Nat) (r : Run LoopExit)
    (h : consumeNext f toks inblock b i start colon = r) (hr : r ≠ Run.fuelOut) :
    consumeNext g toks inblock b i start colon = r := by
  unfold consumeNext at h ⊢
  split
  · simpa [*] using h
  · rename_i hne
    rw [if_neg hne] at h
    exact hfg _ _ _ _ _ _ _ h hr

theorem consumeBlockWith_mono {f g : LoopFn} (hfg : LoopLe f g) (toks : tokenstream)
    (inblock : Bool) (r : Run sBlock)
    (h : consumeBlockWith f toks inblock = r) (hr : r ≠ Run.fuelOut) :
    consumeBlockWith g toks inblock = r := by
  unfold consumeBlockWith at h ⊢
  split
  · simpa [*] using h
  · rename_i hne
    rw [if_neg hne] at h
    cases hf : f toks inblock sBlock.empty (skipSpaceLoop toks 0) (skipSpaceLoop toks 0) 0 with
    | ret e =>
      rw [hfg _ _ _ _ _ _ _ hf (by simp)]
      simpa [hf] using h
    | panic =>
      rw [hfg _ _ _ _ _ _ _ hf (by simp)]
      simpa [hf] using h
    | fuelOut =>
      rw [hf] at h
      exact absurd h.symm hr

theorem consumeStep_mono {f g : LoopFn} (hfg : LoopLe f g) :
    LoopLe (consumeStep f) (consumeStep g) := by
  intro toks inblock b i start colon r h hr
  unfold consumeStep at h ⊢
  split
  · simpa [*] using h
  · rename_i hne
    rw [if_neg hne] at h
    split
    · simpa [*] using h
    · rename_i t ht
      simp only [ht] at h
      split
      · rename_i hd
        rw [if_pos hd] at h
        split
        · rename_i hv
          rw [if_pos hv] at h
          exact consumeNext_mono hfg _ _ _ _ _ _ _ h hr
        · rename_i hv
          rw [if_neg hv] at h
          split
          · rename_i hv2
            rw [if_pos hv2] at h
            split
            · rename_i key value hk hvv
              simp only [hk, hvv] at h
              split_ifs at h ⊢ <;>
                first
                | exact h
                | exact consumeNext_mono hfg _ _ _ _ _ _ _ h hr
            · rename_i hnone
              split at h
              · rename_i key value hk hvv
                exact absurd hvv (hnone key value hk)
              · exact h
          · rename_i hv2
            rw [if_neg hv2] at h
            split
            · rename_i hv3
              rw [if_pos hv3] at h
              split
              · rename_i hl
                rw [if_pos hl] at h
                exact consumeNext_mono hfg _ _ _ _ _ _ _ h hr
              · rename_i hl
                rw [if_neg hl] at h
                split
                · rename_i subblock starttok hsub hst
                  simp only [hsub, hst] at h
                  cases hnb : consumeBlockWith f subblock
                      (!(decide (starttok.Typ = TokenType.AtKeyword ∧
                        (starttok.Value = "media" ∨ starttok.Value = "supports")))) with
                  | ret nb =>
                    rw [consumeBlockWith_mono hfg _ _ _ hnb (by simp)]
                    rw [hnb] at h
                    simp only at h ⊢
                    split
                    · rename_i b2 hb2
                      simp only [hb2] at h
                      split
                      · rename_i hsp
                        rw [if_pos hsp] at h
                        exact consumeNext_mono hfg _ _ _ _ _ _ _ h hr
                      · rename_i hsp
                        rw [if_neg hsp] at h
                        exact consumeNext_mono hfg _ _ _ _ _ _ _ h hr
                    · rename_i hb2
                      simpa [hb2] using h
                  | panic =>
                    rw [consumeBlockWith_mono hfg _ _ _ hnb (by simp)]
                    rw [hnb] at h
                    exact h
                  | fuelOut =>
                    rw [hnb] at h
                    exact absurd h.symm hr
                · rename_i hnone
                  split at h
                  · rename_i subblock starttok hsub hst
                    exact absurd hst (hnone subblock starttok hsub)
                  · exact h
            · rename_i hv3
              rw [if_neg hv3] at h
              exact consumeNext_mono hfg _ _ _ _ _ _ _ h hr
      · rename_i hd
        rw [if_neg hd] at h
        exact consumeNext_mono hfg _ _ _ _ _ _ _ h hr

theorem consumeLoop_mono (n k : Nat) : LoopLe (consumeLoop n) (consumeLoop (n + k)) := by
  induction n with
  | zero => intro _ _ _ _ _ _ r h hr; exact absurd h.symm hr
  | succ n ih =>
    have : n + 1 + k = (n + k) + 1 := by omega
    rw [this]
    exact consumeStep_mono ih

theorem goSlice_length {toks sub : tokenstream} {lo hi : Nat}
    (h : goSlice toks lo hi = some sub) : sub.length = hi - lo ∧ hi ≤ toks.length := by
  unfold goSlice at h
  split at h
  · rename_i hc
    simp at h
    subst h
    simp [List.length_drop, List.length_take, hc.2]
  · simp at h

theorem consumeFinish_ne_fuelOut (toks : tokenstream) (b : sBlock) (start colon : Nat) :
    consumeFinish toks b start colon ≠ Run.fuelOut := by
  unfold consumeFinish
  split
  · split <;> simp
  · simp

theorem consumeBlockWith_total {f : LoopFn} {n : Nat} (hf : LoopTotal f n)
    (toks : tokenstream) (inblock : Bool) (h : toks.length < n) :
    consumeBlockWith f toks inblock ≠ Run.fuelOut := by
  unfold consumeBlockWith
  split
  · simp
  · have := hf toks inblock sBlock.empty (skipSpaceLoop toks 0) (skipSpaceLoop toks 0) 0
      (by omega)
    split
    · exact consumeFinish_ne_fuelOut _ _ _ _
    · simp
    · rename_i hfo; exact absurd hfo this

theorem consumeNext_total {f : LoopFn} {n : Nat} (hf : LoopTotal f n)
    (toks : tokenstream) (inblock : Bool) (b : sBlock) (i j start colon : Nat)
    (hi : i < toks.length) (hij : i ≤ j) (h : toks.length - i < n + 1) :
    consumeNext f toks inblock b j start colon ≠ Run.fuelOut := by
  unfold consumeNext
  split
  · simp
  · exact hf _ _ _ _ _ _ (by omega)

theorem consumeStep_total {f : LoopFn} {n : Nat} (hf : LoopTotal f n) :
    LoopTotal (consumeStep f) (n + 1) := by
  intro toks inblock b i start colon hlt
  unfold consumeStep
  split
  · simp
  · rename_i hne
    split
    · simp
    · rename_i t ht
      have hi : i < toks.length := by
        rcases List.getElem?_eq_some_iff.1 ht with ⟨h, _⟩
        exact h
      have hnext : ∀ b j start colon, i ≤ j →
          consumeNext f toks inblock b j start colon ≠ Run.fuelOut :=
        fun b j start colon hij => consumeNext_total hf toks inblock b i j start colon hi hij hlt
      split
      · split
        · exact hnext _ _ _ _ (le_refl _)
        · split
          · split
            · split_ifs <;> first | exact hnext _ _ _ _ (le_refl _) | simp
            · simp
          · split
            · split
              · exact hnext _ _ _ _ (le_refl _)
              · split
                · rename_i subblock starttok hsub hst
                  have hlen := goSlice_length hsub
                  have hnb := consumeBlockWith_total hf subblock
                    (!(decide (starttok.Typ = TokenType.AtKeyword ∧
                      (starttok.Value = "media" ∨ starttok.Value = "supports"))))
                    (by omega)
                  split
                  · split
                    · split
                      · exact hnext _ _ _ _ (by omega)
                      · exact hnext _ _ _ _ (by omega)
                    · simp
                  · simp
                  · rename_i hfo; exact absurd hfo hnb
                · simp
            · exact hnext _ _ _ _ (le_refl _)
      · exact hnext _ _ _ _ (le_refl _)

theorem consumeLoop_total (n : Nat) : LoopTotal (consumeLoop n) n := by
  induction n with
  | zero => intro _ _ _ _ _ _ h; exact absurd h (Nat.not_lt_zero _)
  | succ n ih => exact consumeStep_total ih

/-- The budget of `consumeBlock` is never exhausted: every outcome is a
returned node or a panic of the Go code. -/
theorem consumeBlock_ne_fuelOut (toks : tokenstream) (inblock : Bool) :
    consumeBlock toks inblock ≠ Run.fuelOut :=
  consumeBlockWith_total (consumeLoop_total _) toks inblock (Nat.lt_succ_self _)

/-- Any budget that gives an outcome gives the outcome of `consumeBlock`. -/
theorem consumeBlock_eq_of_fuel {fuel : Nat} {toks : tokenstream} {inblock : Bool}
    {r : Run sBlock} (h : consumeBlockFuel fuel toks inblock = r) (hr : r ≠ Run.fuelOut) :
    consumeBlock toks inblock = r := by
  unfold consumeBlock
  rcases Nat.le_total fuel (toks.length + 1) with hle | hle
  · obtain ⟨k, hk⟩ := Nat.exists_eq_add_of_le hle
    rw [hk]
    exact consumeBlockWith_mono (consumeLoop_mono fuel k) _ _ _ h hr
  · obtain ⟨k, hk⟩ := Nat.exists_eq_add_of_le hle
    have h2 := consumeBlockWith_mono (consumeLoop_mono (toks.length + 1) k) toks inblock _ rfl
      (consumeBlock_ne_fuelOut toks inblock)
    rw [← hk] at h2
    unfold consumeBlockFuel at h ⊢
    rw [← h2]
    exact h

/-! ### The block parser at concrete streams -/

/-- C4 at failing inputs: on the tokens of `a{b:c;;}` the second `;` makes
`consumeBlock` take the slice `toks[start:colon]` with `colon = 0 < start`, and
on the tokens of `a{` it takes the slice `toks[i+1:i]`: both runs panic. -/
theorem consumeBlock_panics :
    consumeBlock
        [⟨TokenType.Ident, "a"⟩, ⟨TokenType.Delim, "\x7b"⟩, ⟨TokenType.Ident, "b"⟩,
         ⟨TokenType.Delim, ":"⟩, ⟨TokenType.Ident, "c"⟩, ⟨TokenType.Delim, ";"⟩,
         ⟨TokenType.Delim, ";"⟩, ⟨TokenType.Delim, "\x7d"⟩] false = Run.panic ∧
    consumeBlock [⟨TokenType.Ident, "a"⟩, ⟨TokenType.Delim, "\x7b"⟩] false = Run.panic :=
  ⟨rfl, rfl⟩

/-- C5 at the failing input `a{b:c` (no closing brace): the node recorded for
the block is the parse of `b:` only, the last token `c` of the stream is left
out, while the parse of all the tokens after the brace has the declaration
`b: c`. -/
theorem consumeBlock_unterminated :
    consumeBlock
        [⟨TokenType.Ident, "a"⟩, ⟨TokenType.Delim, "\x7b"⟩, ⟨TokenType.Ident, "b"⟩,
         ⟨TokenType.Delim, ":"⟩, ⟨TokenType.Ident, "c"⟩] false =
      Run.ret (sBlock.mk "" [] []
        [sBlock.mk "" [⟨TokenType.Ident, "a"⟩] [] [] [⟨[⟨TokenType.Ident, "b"⟩], []⟩]] []) ∧
    consumeBlock
        [⟨TokenType.Ident, "b"⟩, ⟨TokenType.Delim, ":"⟩, ⟨TokenType.Ident, "c"⟩] true =
      Run.ret (sBlock.mk "" [] [] []
        [⟨[⟨TokenType.Ident, "b"⟩], [⟨TokenType.Ident, "c"⟩]⟩]) :=
  ⟨rfl, rfl⟩

/-- C9 fails as stated: on the tokens of `a : b ; c: d` the key `a ` and the
value `b ` of the declaration closed by `;` end with a whitespace token, and
the value ` d` of the dangling declaration begins with one. -/
theorem consumeBlock_keeps_space :
    consumeBlock
        [⟨TokenType.Ident, "a"⟩, ⟨TokenType.S, " "⟩, ⟨TokenType.Delim, ":"⟩,
         ⟨TokenType.S, " "⟩, ⟨TokenType.Ident, "b"⟩, ⟨TokenType.S, " "⟩,
         ⟨TokenType.Delim, ";"⟩, ⟨TokenType.S, " "⟩, ⟨TokenType.Ident, "c"⟩,
         ⟨TokenType.Delim, ":"⟩, ⟨TokenType.S, " "⟩, ⟨TokenType.Ident, "d"⟩] true =
      Run.ret (sBlock.mk "" [] [] []
        [⟨[⟨TokenType.Ident, "a"⟩, ⟨TokenType.S, " "⟩],
          [⟨TokenType.Ident, "b"⟩, ⟨TokenType.S, " "⟩]⟩,
         ⟨[⟨TokenType.Ident, "c"⟩], [⟨TokenType.S, " "⟩, ⟨TokenType.Ident, "d"⟩]⟩]) :=
  rfl

/-- C2 at a failing input, the tokens of `@page{@a{x;;}}`: the body `x;;` of
the nested at-rule makes the recursive call panic. -/
theorem consumeBlock_nested_panics :
    consumeBlock
        [⟨TokenType.AtKeyword, "page"⟩, ⟨TokenType.Delim, "\x7b"⟩, ⟨TokenType.AtKeyword, "a"⟩,
         ⟨TokenType.Delim, "\x7b"⟩, ⟨TokenType.Ident, "x"⟩, ⟨TokenType.Delim, ";"⟩,
         ⟨TokenType.Delim, ";"⟩, ⟨TokenType.Delim, "\x7d"⟩, ⟨TokenType.Delim, "\x7d"⟩] false =
      Run.panic :=
  rfl

/-! ### Leading whitespace of declarations -/

theorem LoopTrimmed.addRule {toks : tokenstream} {b : sBlock} (h : LoopTrimmed toks b)
    {q : qrule} (hq : leadTrimmed q) : LoopTrimmed toks (b.addRule q) := by
  cases b with
  | mk n cv c bl r =>
    refine ⟨?_, h.2.1, h.2.2⟩
    intro q2 hq2
    simp only [sBlock.addRule, sBlock.rules, List.mem_append, List.mem_singleton] at hq2
    rcases hq2 with h2 | h2
    · exact h.1 q2 h2
    · subst h2; exact hq

theorem sBlock.name_setName (b : sBlock) (v : String) : (b.setName v).name = v := by
  cases b; rfl

theorem sBlock.name_setComponentValues (b : sBlock) (v : tokenstream) :
    (b.setComponentValues v).name = b.name := by
  cases b; rfl

theorem sBlock.same_setComponentValues (b : sBlock) (v : tokenstream) :
    (b.setComponentValues v).rules = b.rules ∧
      (b.setComponentValues v).childAtRules = b.childAtRules ∧
      (b.setComponentValues v).blocks = b.blocks := by
  cases b; exact ⟨rfl, rfl, rfl⟩

theorem sBlock.same_setName_setComponentValues (b : sBlock) (n : String) (v : tokenstream) :
    ((b.setName n).setComponentValues v).rules = b.rules ∧
      ((b.setName n).setComponentValues v).childAtRules = b.childAtRules ∧
      ((b.setName n).setComponentValues v).blocks = b.blocks := by
  cases b; exact ⟨rfl, rfl, rfl⟩

theorem DeclsTrimmed.setName {toks : tokenstream} {inblock : Bool} {b : sBlock}
    (h : DeclsTrimmed toks inblock b) (v : String) : DeclsTrimmed toks inblock (b.setName v) := by
  cases h with
  | mk _ _ n cv c bl r h1 h2 h3 h4 => exact DeclsTrimmed.mk toks inblock v cv c bl r h1 h2 h3 h4

theorem DeclsTrimmed.setComponentValues {toks : tokenstream} {inblock : Bool} {b : sBlock}
    (h : DeclsTrimmed toks inblock b) (v : tokenstream) :
    DeclsTrimmed toks inblock (b.setComponentValues v) := by
  cases h with
  | mk _ _ n cv c bl r h1 h2 h3 h4 => exact DeclsTrimmed.mk toks inblock n v c bl r h1 h2 h3 h4

theorem LoopTrimmed.addChildAtRule {toks : tokenstream} {b : sBlock} (h : LoopTrimmed toks b)
    {nb : sBlock} (hnb : SubTrimmed toks (atRuleFlag nb.name) nb) : LoopTrimmed toks (b.addChildAtRule nb) := by
  cases b with
  | mk n cv c bl r =>
    refine ⟨h.1, ?_, h.2.2⟩
    intro c2 hc2
    simp only [sBlock.addChildAtRule, sBlock.childAtRules, List.mem_append,
      List.mem_singleton] at hc2
    rcases hc2 with h2 | h2
    · exact h.2.1 c2 h2
    · subst h2; exact hnb

theorem LoopTrimmed.addBlock {toks : tokenstream} {b : sBlock} (h : LoopTrimmed toks b)
    {nb : sBlock} (hnb : SubTrimmed toks true nb) : LoopTrimmed toks (b.addBlock nb) := by
  cases b with
  | mk n cv c bl r =>
    refine ⟨h.1, h.2.1, ?_⟩
    intro c2 hc2
    simp only [sBlock.addBlock, sBlock.blocks, List.mem_append, List.mem_singleton] at hc2
    rcases hc2 with h2 | h2
    · exact h.2.2 c2 h2
    · subst h2; exact hnb

/-- A node all of whose declarations are `leadTrimmed`. -/
theorem LoopTrimmed.decls {toks : tokenstream} {b : sBlock} (h : LoopTrimmed toks b)
    (inblock : Bool) : DeclsTrimmed toks inblock b := by
  cases b with
  | mk n cv c bl r =>
    exact DeclsTrimmed.mk toks inblock n cv c bl r
      (fun q hq => h.1 q (List.mem_of_mem_dropLast hq)) (fun _ q hq => h.1 q hq) h.2.1 h.2.2

/-- A node with a dangling declaration after declarations that are
`leadTrimmed`. -/
theorem LoopTrimmed.decls_addRule {toks : tokenstream} {b : sBlock} (h : LoopTrimmed toks b)
    {inblock : Bool} (hd : hasDangling toks inblock) (q : qrule) :
    DeclsTrimmed toks inblock (b.addRule q) := by
  cases b with
  | mk n cv c bl r =>
    refine DeclsTrimmed.mk toks inblock n cv c bl (r ++ [q]) (fun q2 hq2 => ?_)
      (fun hn => absurd hd hn) h.2.1 h.2.2
    rw [List.dropLast_concat] at hq2
    exact h.1 q2 hq2

theorem consumeFinish_decls {toks : tokenstream} {inblock : Bool} {b nb : sBlock}
    {start colon : Nat} (h : consumeFinish toks b start colon = Run.ret nb)
    (hb : LoopTrimmed toks b) (hd : 0 < colon → hasDangling toks inblock) :
    DeclsTrimmed toks inblock nb := by
  unfold consumeFinish at h
  split at h
  · rename_i hc
    split at h
    · simp only [Run.ret.injEq] at h
      subst h
      exact hb.decls_addRule (hd hc) _
    · simp at h
  · simp only [Run.ret.injEq] at h
    subst h
    exact hb.decls inblock

theorem loopTrimmed_empty (toks : tokenstream) : LoopTrimmed toks sBlock.empty := by
  refine ⟨?_, ?_, ?_⟩ <;> intro x hx <;> simp [sBlock.empty, sBlock.rules,
    sBlock.childAtRules, sBlock.blocks] at hx

theorem consumeBlockWith_decls {f : LoopFn} (hf : LoopKeeps f) {toks : tokenstream}
    {inblock : Bool} {nb : sBlock} (h : consumeBlockWith f toks inblock = Run.ret nb) :
    DeclsTrimmed toks inblock nb := by
  unfold consumeBlockWith at h
  split at h
  · simp only [Run.ret.injEq] at h
    subst h
    exact (loopTrimmed_empty toks).decls inblock
  · split at h
    · rename_i e he
      exact consumeFinish_decls h (hf.1 _ _ _ _ _ _ _ he (loopTrimmed_empty toks))
        (hf.2.1 _ _ _ he)
    · simp at h
    · simp at h

theorem consumeNext_keeps {f : LoopFn} (hf : LoopKeeps f) {toks : tokenstream}
    {inblock : Bool} {b : sBlock} {i start colon : Nat} {e : LoopExit}
    (h : consumeNext f toks inblock b i start colon = Run.ret e) (hb : LoopTrimmed toks b) :
    LoopTrimmed toks e.b := by
  unfold consumeNext at h
  split at h
  · simp only [Run.ret.injEq] at h
    subst h
    exact hb
  · exact hf.1 _ _ _ _ _ _ _ h hb

theorem consumeStep_keeps {f : LoopFn} (hf : LoopKeeps f) {toks : tokenstream}
    {inblock : Bool} {b : sBlock} {i start colon : Nat} {e : LoopExit}
    (h : consumeStep f toks inblock b i start colon = Run.ret e) (hb : LoopTrimmed toks b) :
    LoopTrimmed toks e.b := by
  unfold consumeStep at h
  split at h
  · simp only [Run.ret.injEq] at h
    subst h
    exact hb
  · split at h
    · simp at h
    · rename_i t ht
      split at h
      · rename_i hdelim
        split at h
        · exact consumeNext_keeps hf h hb
        · split at h
          · split at h
            · rename_i key value _ _
              have hb2 : LoopTrimmed toks (b.addRule ⟨trimSpace key, trimSpace value⟩) :=
                hb.addRule ⟨trimSpace_head _, trimSpace_head _⟩
              split_ifs at h <;>
                first
                | exact consumeNext_keeps hf h hb2
                | (simp only [Run.ret.injEq] at h; subst h; exact hb2)
            · simp at h
          · split at h
            · rename_i hbrace
              split at h
              · exact consumeNext_keeps hf h hb
              · split at h
                · rename_i subblock starttok hsub _
                  split at h
                  · rename_i nb hnb
                    have hdecl := consumeBlockWith_decls hf hnb
                    have hparse := hf.2.2 _ _ _ hnb
                    have hopen : toks[i]? = some braceOpenTok := by
                      rw [ht]
                      cases t with
                      | mk ty v =>
                        simp only [] at hdelim hbrace
                        rw [hdelim, hbrace]
                        rfl
                    split at h
                    · rename_i b2 hb2
                      have hb2t : LoopTrimmed toks b2 := by
                        split_ifs at hb2 with hat
                        · rcases Option.map_eq_some'.1 hb2 with ⟨pre, _, hpre⟩
                          rw [← hpre]
                          simp only [hat, true_and] at hparse hdecl
                          refine hb.addChildAtRule ?_
                          rw [sBlock.name_setComponentValues, sBlock.name_setName]
                          exact SubTrimmed.mk toks i subblock _ nb _ hopen hsub hparse
                            (sBlock.same_setName_setComponentValues nb _ _)
                            ((hdecl.setName _).setComponentValues _)
                        · rcases Option.map_eq_some'.1 hb2 with ⟨pre, _, hpre⟩
                          rw [← hpre]
                          simp only [hat, false_and, decide_False, Bool.not_false] at hparse hdecl
                          exact hb.addBlock
                            (SubTrimmed.mk toks i subblock _ nb _ hopen hsub hparse
                              (sBlock.same_setComponentValues nb _)
                              (hdecl.setComponentValues _))
                      split_ifs at h
                      · exact consumeNext_keeps hf h hb2t
                      · exact consumeNext_keeps hf h hb2t
                    · simp at h
                  · simp at h
                  · simp at h
                · simp at h
            · exact consumeNext_keeps hf h hb
      · exact consumeNext_keeps hf h hb

theorem consumeLoop_keeps (n : Nat) : LoopKeeps (consumeLoop n) := by
  induction n with
  | zero =>
    refine ⟨?_, ?_, ?_⟩
    · intro _ _ _ _ _ _ e h; simp [consumeLoop] at h
    · intro _ _ e h; simp [consumeLoop] at h
    · intro toks inblock nb h
      exact consumeBlock_eq_of_fuel h (by simp)
  | succ n ih =>
    refine ⟨?_, ?_, ?_⟩
    · intro toks inblock b i start colon e h hb
      exact consumeStep_keeps ih h hb
    · intro toks inblock e h hc
      exact ⟨e, ⟨n + 1, h⟩, hc⟩
    · intro toks inblock nb h
      exact consumeBlock_eq_of_fuel h (by simp)

/-- The loop has one outcome, whatever the budget that reaches it. -/
theorem loopRuns_unique {toks : tokenstream} {inblock : Bool} {b : sBlock}
    {i start colon : Nat} {e e2 : LoopExit} (h1 : LoopRuns toks inblock b i start colon e)
    (h2 : LoopRuns toks inblock b i start colon e2) : e = e2 := by
  obtain ⟨n1, h1⟩ := h1
  obtain ⟨n2, h2⟩ := h2
  have a1 := consumeLoop_mono n1 n2 _ _ _ _ _ _ _ h1 (by simp)
  have a2 := consumeLoop_mono n2 n1 _ _ _ _ _ _ _ h2 (by simp)
  rw [Nat.add_comm n2 n1, a1] at a2
  exact Run.ret.inj a2

/-- A stream over which the loop is left without a colon pending has no
dangling declaration. -/
theorem not_hasDangling_of_run {toks : tokenstream} {inblock : Bool} {e : LoopExit}
    (h : LoopRuns toks inblock sBlock.empty (skipSpaceLoop toks 0) (skipSpaceLoop toks 0) 0 e)
    (hc : e.colon = 0) : ¬ hasDangling toks inblock := by
  rintro ⟨e2, h2, hpos⟩
  rw [← loopRuns_unique h h2, hc] at hpos
  exact absurd hpos (by decide)

theorem consumeNext_colon_zero {f : LoopFn}
    (hf : ∀ toks b i start e, f toks false b i start 0 = Run.ret e → e.colon = 0)
    {toks : tokenstream} {b : sBlock} {i start : Nat} {e : LoopExit}
    (h : consumeNext f toks false b i start 0 = Run.ret e) : e.colon = 0 := by
  unfold consumeNext at h
  split at h
  · simp only [Run.ret.injEq] at h
    subst h
    rfl
  · exact hf _ _ _ _ _ h

theorem consumeStep_colon_zero {f : LoopFn}
    (hf : ∀ toks b i start e, f toks false b i start 0 = Run.ret e → e.colon = 0)
    {toks : tokenstream} {b : sBlock} {i start : Nat} {e : LoopExit}
    (h : consumeStep f toks false b i start 0 = Run.ret e) : e.colon = 0 := by
  unfold consumeStep at h
  split at h
  · simp only [Run.ret.injEq] at h
    subst h
    rfl
  · split at h
    · simp at h
    · split at h
      · split at h
        · exact consumeNext_colon_zero hf h
        · split at h
          · split at h
            · split_ifs at h <;>
                first
                | exact consumeNext_colon_zero hf h
                | (simp only [Run.ret.injEq] at h; subst h; rfl)
            · simp at h
          · split at h
            · split at h
              · exact consumeNext_colon_zero hf h
              · split at h
                · split at h
                  · split at h
                    · split_ifs at h
                      · exact consumeNext_colon_zero hf h
                      · exact consumeNext_colon_zero hf h
                    · simp at h
                  · simp at h
                  · simp at h
                · simp at h
            · exact consumeNext_colon_zero hf h
      · exact consumeNext_colon_zero hf h

theorem consumeLoop_colon_zero (n : Nat) :
    ∀ toks b i start e, consumeLoop n toks false b i start 0 = Run.ret e → e.colon = 0 := by
  induction n with
  | zero => intro _ _ _ _ e h; simp [consumeLoop] at h
  | succ n ih =>
    intro toks b i start e h
    exact consumeStep_colon_zero ih h

/-- In block-container mode no colon is ever pending: there is no dangling
declaration, and every declaration of the node is closed by `;`. -/
theorem not_hasDangling_false (toks : tokenstream) : ¬ hasDangling toks false := by
  rintro ⟨e, ⟨n, h⟩, hpos⟩
  rw [consumeLoop_colon_zero n _ _ _ _ _ h] at hpos
  exact absurd hpos (by decide)

/-- C9, amended: in the node tree returned by `consumeBlock`, for every token
stream and either flag, every declaration closed by `;` has a key and a value
that do not begin with a whitespace token.  Each node of the tree is what
`consumeBlock` returns for its own stream (for a recorded node the tokens
between the braces of its block, with the flag of the recursive call), and
the only declaration of a node that can begin with whitespace is the dangling
one: the last declaration, when the loop over that stream is left with a
colon pending.  Whitespace at the end of a key or value is kept. -/
theorem consumeBlock_closed_trimmed (toks : tokenstream) (inblock : Bool) (node : sBlock)
    (h : consumeBlock toks inblock = Run.ret node) : DeclsTrimmed toks inblock node :=
  consumeBlockWith_decls (consumeLoop_keeps _) h

/-- C9, amended, on the tokens of `p{ color: red;}` and of `p{a:b;}q{c: d}` in
block-container mode: the nodes that `consumeBlock` returns for them. -/
theorem consumeBlock_closed_trimmed_witness :
    DeclsTrimmed
      [⟨TokenType.Ident, "p"⟩, ⟨TokenType.Delim, "\x7b"⟩, ⟨TokenType.S, " "⟩,
       ⟨TokenType.Ident, "color"⟩, ⟨TokenType.Delim, ":"⟩, ⟨TokenType.S, " "⟩,
       ⟨TokenType.Ident, "red"⟩, ⟨TokenType.Delim, ";"⟩, ⟨TokenType.Delim, "\x7d"⟩] false
      (sBlock.mk "" [] []
        [sBlock.mk "" [⟨TokenType.Ident, "p"⟩] [] []
          [⟨[⟨TokenType.Ident, "color"⟩], [⟨TokenType.Ident, "red"⟩]⟩]] []) ∧
    DeclsTrimmed
      [⟨TokenType.Ident, "p"⟩, ⟨TokenType.Delim, "\x7b"⟩, ⟨TokenType.Ident, "a"⟩,
       ⟨TokenType.Delim, ":"⟩, ⟨TokenType.Ident, "b"⟩, ⟨TokenType.Delim, ";"⟩,
       ⟨TokenType.Delim, "\x7d"⟩, ⟨TokenType.Ident, "q"⟩, ⟨TokenType.Delim, "\x7b"⟩,
       ⟨TokenType.Ident, "c"⟩, ⟨TokenType.Delim, ":"⟩, ⟨TokenType.S, " "⟩,
       ⟨TokenType.Ident, "d"⟩, ⟨TokenType.Delim, "\x7d"⟩] false
      (sBlock.mk "" [] []
        [sBlock.mk "" [⟨TokenType.Ident, "p"⟩] [] []
          [⟨[⟨TokenType.Ident, "a"⟩], [⟨TokenType.Ident, "b"⟩]⟩],
         sBlock.mk "" [⟨TokenType.Ident, "q"⟩] [] []
          [⟨[⟨TokenType.Ident, "c"⟩],
            [⟨TokenType.S, " "⟩, ⟨TokenType.Ident, "d"⟩]⟩]] []) :=
  ⟨consumeBlock_closed_trimmed
      [⟨TokenType.Ident, "p"⟩, ⟨TokenType.Delim, "\x7b"⟩, ⟨TokenType.S, " "⟩,
       ⟨TokenType.Ident, "color"⟩, ⟨TokenType.Delim, ":"⟩, ⟨TokenType.S, " "⟩,
       ⟨TokenType.Ident, "red"⟩, ⟨TokenType.Delim, ";"⟩, ⟨TokenType.Delim, "\x7d"⟩] false _ rfl,
    consumeBlock_closed_trimmed
      [⟨TokenType.Ident, "p"⟩, ⟨TokenType.Delim, "\x7b"⟩, ⟨TokenType.Ident, "a"⟩,
       ⟨TokenType.Delim, ":"⟩, ⟨TokenType.Ident, "b"⟩, ⟨TokenType.Delim, ";"⟩,
       ⟨TokenType.Delim, "\x7d"⟩, ⟨TokenType.Ident, "q"⟩, ⟨TokenType.Delim, "\x7b"⟩,
       ⟨TokenType.Ident, "c"⟩, ⟨TokenType.Delim, ":"⟩, ⟨TokenType.S, " "⟩,
       ⟨TokenType.Ident, "d"⟩, ⟨TokenType.Delim, "\x7d"⟩] false _ rfl⟩

/-- The streams with a dangling declaration of the examples: `a : b ; c: d`
and `c: d` have one when parsed as declarations; ` color: red;` and `a:b;`
have none. -/
theorem hasDangling_examples :
    hasDangling
      [⟨TokenType.Ident, "a"⟩, ⟨TokenType.S, " "⟩, ⟨TokenType.Delim, ":"⟩,
       ⟨TokenType.S, " "⟩, ⟨TokenType.Ident, "b"⟩, ⟨TokenType.S, " "⟩,
       ⟨TokenType.Delim, ";"⟩, ⟨TokenType.S, " "⟩, ⟨TokenType.Ident, "c"⟩,
       ⟨TokenType.Delim, ":"⟩, ⟨TokenType.S, " "⟩, ⟨TokenType.Ident, "d"⟩] true ∧
    hasDangling
      [⟨TokenType.Ident, "c"⟩, ⟨TokenType.Delim, ":"⟩, ⟨TokenType.S, " "⟩,
       ⟨TokenType.Ident, "d"⟩] true ∧
    ¬ hasDangling
      [⟨TokenType.S, " "⟩, ⟨TokenType.Ident, "color"⟩, ⟨TokenType.Delim, ":"⟩,
       ⟨TokenType.S, " "⟩, ⟨TokenType.Ident, "red"⟩, ⟨TokenType.Delim, ";"⟩] true ∧
    ¬ hasDangling
      [⟨TokenType.Ident, "a"⟩, ⟨TokenType.Delim, ":"⟩, ⟨TokenType.Ident, "b"⟩,
       ⟨TokenType.Delim, ";"⟩] true :=
  ⟨⟨_, ⟨13, rfl⟩, by decide⟩, ⟨_, ⟨5, rfl⟩, by decide⟩,
    not_hasDangling_of_run ⟨8, rfl⟩ rfl, not_hasDangling_of_run ⟨6, rfl⟩ rfl⟩

/-- What `DeclsTrimmed` says of a declaration that `;` closes and no other
follows, on the tokens of `p{ color: red;}`: every node with this property
has, in each of its nested blocks, only declarations whose key and value do
not begin with whitespace.  The one opening brace of the stream fixes the
sub-block, ` color: red;`, and the loop over it is left with no colon pending,
so the last declaration is not exempt. -/
theorem declsTrimmed_closed_last (node : sBlock)
    (h : DeclsTrimmed
      [⟨TokenType.Ident, "p"⟩, ⟨TokenType.Delim, "\x7b"⟩, ⟨TokenType.S, " "⟩,
       ⟨TokenType.Ident, "color"⟩, ⟨TokenType.Delim, ":"⟩, ⟨TokenType.S, " "⟩,
       ⟨TokenType.Ident, "red"⟩, ⟨TokenType.Delim, ";"⟩, ⟨TokenType.Delim, "\x7d"⟩] false
      node) :
    ∀ c, c ∈ node.blocks → ∀ q, q ∈ c.rules → leadTrimmed q := by
  cases h with
  | mk _ _ n cv cs bl r h1 h2 h3 h4 =>
    intro c hc q hq
    cases h4 c hc with
    | mk _ i sub _ nb _ hbrace hsub hparse hsame hnode =>
      have hlt := (List.getElem?_eq_some_iff.1 hbrace).1
      simp only [List.length_cons, List.length_nil] at hlt
      have hi : i = 1 := by
        interval_cases i <;> first | rfl | exact absurd hbrace (by decide)
      subst hi
      have hs : sub =
          [⟨TokenType.S, " "⟩, ⟨TokenType.Ident, "color"⟩, ⟨TokenType.Delim, ":"⟩,
           ⟨TokenType.S, " "⟩, ⟨TokenType.Ident, "red"⟩, ⟨TokenType.Delim, ";"⟩] := by
        have : goSlice
            [⟨TokenType.Ident, "p"⟩, ⟨TokenType.Delim, "\x7b"⟩, ⟨TokenType.S, " "⟩,
             ⟨TokenType.Ident, "color"⟩, ⟨TokenType.Delim, ":"⟩, ⟨TokenType.S, " "⟩,
             ⟨TokenType.Ident, "red"⟩, ⟨TokenType.Delim, ";"⟩, ⟨TokenType.Delim, "\x7d"⟩]
            (1 + 1)
            (1 + findClosingBrace (List.drop (1 + 1)
              [⟨TokenType.Ident, "p"⟩, ⟨TokenType.Delim, "\x7b"⟩, ⟨TokenType.S, " "⟩,
               ⟨TokenType.Ident, "color"⟩, ⟨TokenType.Delim, ":"⟩, ⟨TokenType.S, " "⟩,
               ⟨TokenType.Ident, "red"⟩, ⟨TokenType.Delim, ";"⟩,
               ⟨TokenType.Delim, "\x7d"⟩])) =
            some [⟨TokenType.S, " "⟩, ⟨TokenType.Ident, "color"⟩, ⟨TokenType.Delim, ":"⟩,
              ⟨TokenType.S, " "⟩, ⟨TokenType.Ident, "red"⟩, ⟨TokenType.Delim, ";"⟩] := by
          decide
        rw [this] at hsub
        exact (Option.some.inj hsub).symm
      subst hs
      cases hnode with
      | mk _ _ n2 cv2 cs2 bl2 r2 g1 g2 g3 g4 =>
        exact g2 (not_hasDangling_of_run ⟨8, rfl⟩ rfl) q hq

/-- What `DeclsTrimmed` says on the tokens of `p{a:b;}q{c: d}`, where the
second block ends in a dangling declaration and the first does not: in every
node with this property, the only declaration of a nested block that can begin
with whitespace is the dangling `c: d`.  A nested node is what `consumeBlock`
returns for the sub-block of one of the two braces, so the exemption of the
second block does not reach the first. -/
theorem declsTrimmed_two_blocks (node : sBlock)
    (h : DeclsTrimmed
      [⟨TokenType.Ident, "p"⟩, ⟨TokenType.Delim, "\x7b"⟩, ⟨TokenType.Ident, "a"⟩,
       ⟨TokenType.Delim, ":"⟩, ⟨TokenType.Ident, "b"⟩, ⟨TokenType.Delim, ";"⟩,
       ⟨TokenType.Delim, "\x7d"⟩, ⟨TokenType.Ident, "q"⟩, ⟨TokenType.Delim, "\x7b"⟩,
       ⟨TokenType.Ident, "c"⟩, ⟨TokenType.Delim, ":"⟩, ⟨TokenType.S, " "⟩,
       ⟨TokenType.Ident, "d"⟩, ⟨TokenType.Delim, "\x7d"⟩] false
      node) :
    ∀ c, c ∈ node.blocks → ∀ q, q ∈ c.rules →
      leadTrimmed q ∨
        q = ⟨[⟨TokenType.Ident, "c"⟩], [⟨TokenType.S, " "⟩, ⟨TokenType.Ident, "d"⟩]⟩ := by
  cases h with
  | mk _ _ n cv cs bl r h1 h2 h3 h4 =>
    intro c hc q hq
    cases h4 c hc with
    | mk _ i sub _ nb _ hbrace hsub hparse hsame hnode =>
      have hlt := (List.getElem?_eq_some_iff.1 hbrace).1
      simp only [List.length_cons, List.length_nil] at hlt
      have hi : i = 1 ∨ i = 8 := by
        interval_cases i <;>
          first
          | exact Or.inl rfl
          | exact Or.inr rfl
          | exact absurd hbrace (by decide)
      rcases hi with hi | hi
      · subst hi
        have hs : goSlice
            [⟨TokenType.Ident, "p"⟩, ⟨TokenType.Delim, "\x7b"⟩, ⟨TokenType.Ident, "a"⟩,
       ⟨TokenType.Delim, ":"⟩, ⟨TokenType.Ident, "b"⟩, ⟨TokenType.Delim, ";"⟩,
       ⟨TokenType.Delim, "\x7d"⟩, ⟨TokenType.Ident, "q"⟩, ⟨TokenType.Delim, "\x7b"⟩,
       ⟨TokenType.Ident, "c"⟩, ⟨TokenType.Delim, ":"⟩, ⟨TokenType.S, " "⟩,
       ⟨TokenType.Ident, "d"⟩, ⟨TokenType.Delim, "\x7d"⟩]
            (1 + 1)
            (1 + findClosingBrace (List.drop (1 + 1)
              [⟨TokenType.Ident, "p"⟩, ⟨TokenType.Delim, "\x7b"⟩, ⟨TokenType.Ident, "a"⟩,
       ⟨TokenType.Delim, ":"⟩, ⟨TokenType.Ident, "b"⟩, ⟨TokenType.Delim, ";"⟩,
       ⟨TokenType.Delim, "\x7d"⟩, ⟨TokenType.Ident, "q"⟩, ⟨TokenType.Delim, "\x7b"⟩,
       ⟨TokenType.Ident, "c"⟩, ⟨TokenType.Delim, ":"⟩, ⟨TokenType.S, " "⟩,
       ⟨TokenType.Ident, "d"⟩, ⟨TokenType.Delim, "\x7d"⟩])) =
            some [⟨TokenType.Ident, "a"⟩, ⟨TokenType.Delim, ":"⟩, ⟨TokenType.Ident, "b"⟩,
              ⟨TokenType.Delim, ";"⟩] := by
          decide
        rw [hs] at hsub
        cases Option.some.inj hsub
        cases hnode with
        | mk _ _ n2 cv2 cs2 bl2 r2 g1 g2 g3 g4 =>
          exact Or.inl (g2 (not_hasDangling_of_run ⟨6, rfl⟩ rfl) q hq)
      · subst hi
        have hs : goSlice
            [⟨TokenType.Ident, "p"⟩, ⟨TokenType.Delim, "\x7b"⟩, ⟨TokenType.Ident, "a"⟩,
       ⟨TokenType.Delim, ":"⟩, ⟨TokenType.Ident, "b"⟩, ⟨TokenType.Delim, ";"⟩,
       ⟨TokenType.Delim, "\x7d"⟩, ⟨TokenType.Ident, "q"⟩, ⟨TokenType.Delim, "\x7b"⟩,
       ⟨TokenType.Ident, "c"⟩, ⟨TokenType.Delim, ":"⟩, ⟨TokenType.S, " "⟩,
       ⟨TokenType.Ident, "d"⟩, ⟨TokenType.Delim, "\x7d"⟩]
            (8 + 1)
            (8 + findClosingBrace (List.drop (8 + 1)
              [⟨TokenType.Ident, "p"⟩, ⟨TokenType.Delim, "\x7b"⟩, ⟨TokenType.Ident, "a"⟩,
       ⟨TokenType.Delim, ":"⟩, ⟨TokenType.Ident, "b"⟩, ⟨TokenType.Delim, ";"⟩,
       ⟨TokenType.Delim, "\x7d"⟩, ⟨TokenType.Ident, "q"⟩, ⟨TokenType.Delim, "\x7b"⟩,
       ⟨TokenType.Ident, "c"⟩, ⟨TokenType.Delim, ":"⟩, ⟨TokenType.S, " "⟩,
       ⟨TokenType.Ident, "d"⟩, ⟨TokenType.Delim, "\x7d"⟩])) =
            some [⟨TokenType.Ident, "c"⟩, ⟨TokenType.Delim, ":"⟩, ⟨TokenType.S, " "⟩,
              ⟨TokenType.Ident, "d"⟩] := by
          decide
        rw [hs] at hsub
        cases Option.some.inj hsub
        have hp : consumeBlock
            [⟨TokenType.Ident, "c"⟩, ⟨TokenType.Delim, ":"⟩, ⟨TokenType.S, " "⟩,
              ⟨TokenType.Ident, "d"⟩] true =
            Run.ret (sBlock.mk "" [] [] []
              [⟨[⟨TokenType.Ident, "c"⟩],
                [⟨TokenType.S, " "⟩, ⟨TokenType.Ident, "d"⟩]⟩]) := rfl
        rw [hp] at hparse
        cases Run.ret.inj hparse
        rw [hsame.1] at hq
        simp only [sBlock.rules, List.mem_singleton] at hq
        exact Or.inr hq

/-! ### Streams of declarations -/

theorem getElem?_append_cons (A : tokenstream) (t : Token) (B : tokenstream) :
    (A ++ t :: B)[A.length]? = some t := by
  rw [List.getElem?_append_right (le_refl _)]
  simp

theorem goSlice_mid (L M R : tokenstream) :
    goSlice (L ++ (M ++ R)) L.length (L.length + M.length) = some M := by
  unfold goSlice
  rw [if_pos ⟨by omega, by simp [List.length_append]⟩]
  congr 1
  rw [← List.append_assoc, List.take_append_eq_append_take]
  simp [List.length_append, List.take_of_length_le, List.drop_append_eq_append_drop]

theorem goSlice_tail (L R : tokenstream) :
    goSlice (L ++ R) L.length (L ++ R).length = some R := by
  unfold goSlice
  rw [if_pos ⟨by simp [List.length_append], le_refl _⟩]
  simp [List.length_append, List.take_of_length_le, List.drop_append_eq_append_drop]

theorem trimSpace_spaces_append (ws rest : tokenstream) (hws : isSpaces ws)
    (hrest : noLeadingSpace rest) : trimSpace (ws ++ rest) = rest := by
  induction ws with
  | nil => exact trimSpace_of_head rest hrest
  | cons w ws ih =>
    have hw : w.Typ = TokenType.S := hws w (List.mem_cons_self _ _)
    simp only [List.cons_append, trimSpace, hw, if_true]
    exact ih (fun t ht => hws t (List.mem_cons_of_mem _ ht))

theorem skipSpaceLoop_spaces (ws rest : tokenstream) (hws : isSpaces ws)
    (hrest : noLeadingSpace rest) (k : Nat) :
    skipSpaceLoop (ws ++ rest) k = k + ws.length := by
  induction ws generalizing k with
  | nil =>
    cases rest with
    | nil => simp [skipSpaceLoop]
    | cons r rest => simp [skipSpaceLoop, hrest r rfl]
  | cons w ws ih =>
    have hw : w.Typ = TokenType.S := hws w (List.mem_cons_self _ _)
    have := ih (fun t ht => hws t (List.mem_cons_of_mem _ ht)) (k + 1)
    rw [List.cons_append, skipSpaceLoop, if_pos hw, this, List.length_cons]
    omega

theorem isPlain_of_space {t : Token} (h : t.Typ = TokenType.S) : isPlain t := by
  intro hp
  rw [h] at hp
  exact absurd hp.1 (by decide)

theorem consumeStep_plain (f : LoopFn) (toks : tokenstream) (inblock : Bool) (b : sBlock)
    (i start colon : Nat) (t : Token) (ht : toks[i]? = some t) (hp : isPlain t) :
    consumeStep f toks inblock b i start colon = consumeNext f toks inblock b i start colon := by
  have hi : i < toks.length := (List.getElem?_eq_some_iff.1 ht).1
  unfold consumeStep
  rw [if_neg (by omega)]
  simp only [ht]
  unfold isPlain at hp
  by_cases hd : t.Typ = TokenType.Delim
  · have h1 : ¬ t.Value = ":" := fun h => hp ⟨hd, Or.inl h⟩
    have h2 : ¬ t.Value = ";" := fun h => hp ⟨hd, Or.inr (Or.inl h)⟩
    have h3 : ¬ t.Value = "\x7b" := fun h => hp ⟨hd, Or.inr (Or.inr h)⟩
    rw [if_pos hd, if_neg h1, if_neg h2, if_neg h3]
  · rw [if_neg hd]

theorem consumeStep_colon (f : LoopFn) (toks : tokenstream) (b : sBlock)
    (i start colon : Nat) (ht : toks[i]? = some colonTok) :
    consumeStep f toks true b i start colon = consumeNext f toks true b i start i := by
  have hi : i < toks.length := (List.getElem?_eq_some_iff.1 ht).1
  unfold consumeStep
  rw [if_neg (by omega)]
  simp only [ht]
  simp [colonTok]

theorem consumeStep_semi (f : LoopFn) (toks : tokenstream) (inblock : Bool) (b : sBlock)
    (i start colon : Nat) (key value : tokenstream) (ht : toks[i]? = some semiTok)
    (hk : goSlice toks start colon = some key)
    (hv : goSlice toks (colon + 1) i = some value) :
    consumeStep f toks inblock b i start colon =
      if (if isSpaceAt toks (i + 1) then i + 2 else i + 1) = toks.length then
        Run.ret ⟨b.addRule ⟨trimSpace key, trimSpace value⟩,
          if isSpaceAt toks (i + 1) then i + 2 else i + 1, 0⟩
      else
        consumeNext f toks inblock (b.addRule ⟨trimSpace key, trimSpace value⟩) i
          (if isSpaceAt toks (i + 1) then i + 2 else i + 1) 0 := by
  have hi : i < toks.length := (List.getElem?_eq_some_iff.1 ht).1
  unfold consumeStep
  rw [if_neg (by omega)]
  simp only [ht, hk, hv]
  simp [semiTok]

theorem loopRuns_end (toks : tokenstream) (inblock : Bool) (b : sBlock)
    (i start colon : Nat) (hi : i = toks.length) :
    LoopRuns toks inblock b i start colon ⟨b, start, colon⟩ :=
  ⟨1, by simp [consumeLoop, consumeStep, hi]⟩

theorem loopRuns_of_next {toks : tokenstream} {inblock : Bool} {b b2 : sBlock}
    {i i2 start start2 colon colon2 : Nat} {e : LoopExit}
    (hstep : ∀ f, consumeStep f toks inblock b i start colon =
      consumeNext f toks inblock b2 i2 start2 colon2)
    (hi : i2 + 1 < toks.length)
    (h : LoopRuns toks inblock b2 (i2 + 1) start2 colon2 e) :
    LoopRuns toks inblock b i start colon e := by
  obtain ⟨fuel, hf⟩ := h
  refine ⟨fuel + 1, ?_⟩
  show consumeStep (consumeLoop fuel) _ _ _ _ _ _ = _
  rw [hstep, consumeNext, if_neg (by omega)]
  exact hf

theorem loopRuns_of_last {toks : tokenstream} {inblock : Bool} {b b2 : sBlock}
    {i i2 start start2 colon colon2 : Nat}
    (hstep : ∀ f, consumeStep f toks inblock b i start colon =
      consumeNext f toks inblock b2 i2 start2 colon2)
    (hi : i2 + 1 = toks.length) :
    LoopRuns toks inblock b i start colon ⟨b2, start2, colon2⟩ := by
  refine ⟨1, ?_⟩
  show consumeStep (consumeLoop 0) _ _ _ _ _ _ = _
  rw [hstep, consumeNext, if_pos hi]

/-- The loop passes over a segment of plain tokens that something follows. -/
theorem loopRuns_scan (seg : tokenstream) :
    ∀ (A B : tokenstream) (inblock : Bool) (b : sBlock) (start colon : Nat) (e : LoopExit),
      (∀ t, t ∈ seg → isPlain t) → B ≠ [] →
      LoopRuns (A ++ (seg ++ B)) inblock b (A.length + seg.length) start colon e →
      LoopRuns (A ++ (seg ++ B)) inblock b A.length start colon e := by
  induction seg with
  | nil => intro A B inblock b start colon e _ _ h; simpa using h
  | cons t seg ih =>
    intro A B inblock b start colon e hp hB h
    have hlen : A.length + 1 < (A ++ (t :: seg ++ B)).length := by
      cases B with
      | nil => exact absurd rfl hB
      | cons x B => simp [List.length_append]
    refine loopRuns_of_next
      (fun f => consumeStep_plain f _ inblock b A.length start colon t
        (getElem?_append_cons A t (seg ++ B)) (hp t (List.mem_cons_self _ _)))
      hlen ?_
    have h2 := ih (A ++ [t]) B inblock b start colon e
      (fun x hx => hp x (List.mem_cons_of_mem _ hx)) hB
    simp only [List.append_assoc, List.singleton_append, List.length_append,
      List.length_singleton] at h2
    apply h2
    simpa [Nat.add_assoc, Nat.add_comm 1] using h

/-- The loop passes over a segment of plain tokens that ends the stream. -/
theorem loopRuns_scan_end (seg : tokenstream) :
    ∀ (A : tokenstream) (inblock : Bool) (b : sBlock) (start colon : Nat),
      (∀ t, t ∈ seg → isPlain t) →
      LoopRuns (A ++ seg) inblock b A.length start colon ⟨b, start, colon⟩ := by
  induction seg with
  | nil => intro A inblock b start colon _; exact loopRuns_end _ _ _ _ _ _ (by simp)
  | cons t seg ih =>
    intro A inblock b start colon hp
    have hstep := fun f => consumeStep_plain f (A ++ t :: seg) inblock b A.length start colon t
      (getElem?_append_cons A t seg) (hp t (List.mem_cons_self _ _))
    cases seg with
    | nil => exact loopRuns_of_last hstep (by simp)
    | cons u seg =>
      refine loopRuns_of_next hstep (by simp [List.length_append]) ?_
      have h2 := ih (A ++ [t]) inblock b start colon
        (fun x hx => hp x (List.mem_cons_of_mem _ hx))
      simpa using h2

theorem isSpaceAt_append_cons (P : tokenstream) (t s : Token) (R : tokenstream) :
    isSpaceAt (P ++ t :: s :: R) (P.length + 1) = decide (s.Typ = TokenType.S) := by
  unfold isSpaceAt
  have : (P ++ t :: s :: R)[P.length + 1]? = some s := by
    have := getElem?_append_cons (P ++ [t]) s R
    simpa using this
  rw [this]

theorem isSpaceAt_append_last (P : tokenstream) (t : Token) :
    isSpaceAt (P ++ [t]) (P.length + 1) = false := by
  unfold isSpaceAt
  have : (P ++ [t])[P.length + 1]? = none := by
    apply List.getElem?_eq_none
    simp
  rw [this]

theorem sBlock.addRules_nil (b : sBlock) : b.addRules [] = b := by
  cases b; simp [sBlock.addRules]

theorem sBlock.addRule_eq (b : sBlock) (q : qrule) : b.addRule q = b.addRules [q] := by
  cases b; rfl

theorem sBlock.addRules_addRules (b : sBlock) (xs ys : List qrule) :
    (b.addRules xs).addRules ys = b.addRules (xs ++ ys) := by
  cases b; simp [sBlock.addRules]

theorem consumeFinish_zero (toks : tokenstream) (b : sBlock) (start : Nat) :
    consumeFinish toks b start 0 = Run.ret b := by
  simp [consumeFinish]

/-- The loop at a `;` that ends the stream, alone or with one whitespace
token after it. -/
theorem loopRuns_semi_end (toks P R : tokenstream) (inblock : Bool) (b : sBlock)
    (start colon : Nat) (key value : tokenstream) (htoks : toks = P ++ semiTok :: R)
    (hk : goSlice toks start colon = some key)
    (hv : goSlice toks (colon + 1) P.length = some value)
    (hR : R = [] ∨ ∃ s, R = [s] ∧ s.Typ = TokenType.S) :
    ∃ st, LoopRuns toks inblock b P.length start colon
      ⟨b.addRule ⟨trimSpace key, trimSpace value⟩, st, 0⟩ := by
  have ht : toks[P.length]? = some semiTok := by rw [htoks]; exact getElem?_append_cons _ _ _
  rcases hR with hR | ⟨s, hR, hs⟩
  · subst hR
    refine ⟨P.length + 1, 1, ?_⟩
    show consumeStep (consumeLoop 0) _ _ _ _ _ _ = _
    rw [consumeStep_semi _ _ _ _ _ _ _ key value ht hk hv]
    have hsp : isSpaceAt toks (P.length + 1) = false := by
      rw [htoks]; exact isSpaceAt_append_last _ _
    have hlen : toks.length = P.length + 1 := by rw [htoks]; simp
    rw [hsp, hlen]
    simp
  · subst hR
    refine ⟨P.length + 2, 1, ?_⟩
    show consumeStep (consumeLoop 0) _ _ _ _ _ _ = _
    rw [consumeStep_semi _ _ _ _ _ _ _ key value ht hk hv]
    have hsp : isSpaceAt toks (P.length + 1) = true := by
      rw [htoks, isSpaceAt_append_cons]; simp [hs]
    have hlen : toks.length = P.length + 2 := by rw [htoks]; simp
    rw [hsp, hlen]
    simp

/-- The loop at a `;` that more than the stream's last whitespace token
follows: the next iteration starts at the token after the `;`. -/
theorem loopRuns_semi_next (toks P R : tokenstream) (s : Token) (inblock : Bool)
    (b : sBlock) (start colon : Nat) (key value : tokenstream) (e : LoopExit)
    (htoks : toks = P ++ semiTok :: s :: R)
    (hk : goSlice toks start colon = some key)
    (hv : goSlice toks (colon + 1) P.length = some value)
    (hR : s.Typ = TokenType.S → R ≠ [])
    (h : LoopRuns toks inblock (b.addRule ⟨trimSpace key, trimSpace value⟩) (P.length + 1)
      (if s.Typ = TokenType.S then P.length + 2 else P.length + 1) 0 e) :
    LoopRuns toks inblock b P.length start colon e := by
  have ht : toks[P.length]? = some semiTok := by rw [htoks]; exact getElem?_append_cons _ _ _
  have hsp : isSpaceAt toks (P.length + 1) = decide (s.Typ = TokenType.S) := by
    rw [htoks]; exact isSpaceAt_append_cons _ _ _ _
  have hlen : toks.length = P.length + 2 + R.length := by
    rw [htoks]; simp [List.length_append]; omega
  obtain ⟨fuel, hf⟩ := h
  refine ⟨fuel + 1, ?_⟩
  show consumeStep (consumeLoop fuel) _ _ _ _ _ _ = _
  rw [consumeStep_semi _ _ _ _ _ _ _ key value ht hk hv, hsp]
  by_cases hs : s.Typ = TokenType.S
  · have hR2 : R.length ≠ 0 := fun h0 => hR hs (List.length_eq_zero.1 h0)
    simp only [hs, decide_True, if_true] at hf ⊢
    rw [if_neg (by omega), consumeNext, if_neg (by omega)]
    exact hf
  · simp only [hs, decide_False, if_false, Bool.false_eq_true] at hf ⊢
    rw [if_neg (by omega), consumeNext, if_neg (by omega)]
    exact hf

/-- The loop passes over `key : value` (with their whitespace) when something
follows: it arrives at the next token with `colon` at the `:`. -/
theorem loopRuns_keyValue (A X Y REST : tokenstream) (b : sBlock) (start colon0 : Nat)
    (e : LoopExit) (hX : ∀ t, t ∈ X → isPlain t) (hY : ∀ t, t ∈ Y → isPlain t)
    (hREST : REST ≠ [])
    (h : LoopRuns (A ++ (X ++ colonTok :: (Y ++ REST))) true b
      (A.length + X.length + 1 + Y.length) start (A.length + X.length) e) :
    LoopRuns (A ++ (X ++ colonTok :: (Y ++ REST))) true b A.length start colon0 e := by
  apply loopRuns_scan X A (colonTok :: (Y ++ REST)) true b start colon0 e hX (by simp)
  have ht : (A ++ (X ++ colonTok :: (Y ++ REST)))[A.length + X.length]? = some colonTok := by
    have := getElem?_append_cons (A ++ X) colonTok (Y ++ REST)
    simpa [List.length_append] using this
  have hlen : (A ++ (X ++ colonTok :: (Y ++ REST))).length =
      A.length + X.length + 1 + Y.length + REST.length := by
    simp [List.length_append]; omega
  have hR : REST.length ≠ 0 := fun h0 => hREST (List.length_eq_zero.1 h0)
  refine loopRuns_of_next (fun f => consumeStep_colon f _ b _ start colon0 ht) (by omega) ?_
  have e2 : A ++ (X ++ colonTok :: (Y ++ REST)) = (A ++ (X ++ [colonTok])) ++ (Y ++ REST) := by
    simp
  have hA : (A ++ (X ++ [colonTok])).length = A.length + X.length + 1 := by
    simp [List.length_append]; omega
  rw [e2, ← hA]
  apply loopRuns_scan Y (A ++ (X ++ [colonTok])) REST true b start _ e hY hREST
  rw [hA, ← e2]
  exact h

/-- The loop passes over `key : value` at the end of the stream: it is left
with `colon` at the `:`. -/
theorem loopRuns_keyValue_end (A X Y : tokenstream) (b : sBlock) (start colon0 : Nat)
    (hX : ∀ t, t ∈ X → isPlain t) (hY : ∀ t, t ∈ Y → isPlain t) (hYne : Y ≠ []) :
    LoopRuns (A ++ (X ++ colonTok :: Y)) true b A.length start colon0
      ⟨b, start, A.length + X.length⟩ := by
  have e1 : A ++ (X ++ colonTok :: Y) = A ++ (X ++ colonTok :: (Y ++ [])) := by simp
  apply loopRuns_scan X A (colonTok :: Y) true b start colon0 _ hX (by simp)
  have ht : (A ++ (X ++ colonTok :: Y))[A.length + X.length]? = some colonTok := by
    have := getElem?_append_cons (A ++ X) colonTok Y
    simpa [List.length_append] using this
  have hlen : (A ++ (X ++ colonTok :: Y)).length = A.length + X.length + 1 + Y.length := by
    simp [List.length_append]; omega
  have hR : Y.length ≠ 0 := fun h0 => hYne (List.length_eq_zero.1 h0)
  refine loopRuns_of_next (fun f => consumeStep_colon f _ b _ start colon0 ht) (by omega) ?_
  have e2 : A ++ (X ++ colonTok :: Y) = (A ++ (X ++ [colonTok])) ++ Y := by simp
  have hA : (A ++ (X ++ [colonTok])).length = A.length + X.length + 1 := by
    simp [List.length_append]; omega
  rw [e2, ← hA]
  exact loopRuns_scan_end Y (A ++ (X ++ [colonTok])) true b start _ hY

theorem goSlice_key (A bf K R : tokenstream) (start : Nat) (h1 : A.length ≤ start)
    (h2 : start ≤ A.length + bf.length) :
    goSlice (A ++ ((bf ++ K) ++ R)) start (A.length + (bf ++ K).length) =
      some (bf.drop (start - A.length) ++ K) := by
  have e1 : A ++ ((bf ++ K) ++ R) =
      (A ++ bf.take (start - A.length)) ++ ((bf.drop (start - A.length) ++ K) ++ R) := by
    simp only [List.append_assoc]
    rw [← List.append_assoc (bf.take _), List.take_append_drop]
  have hL : (A ++ bf.take (start - A.length)).length = start := by
    rw [List.length_append, List.length_take]; omega
  have hM : start + (bf.drop (start - A.length) ++ K).length = A.length + (bf ++ K).length := by
    simp only [List.length_append, List.length_drop]; omega
  have := goSlice_mid (A ++ bf.take (start - A.length)) (bf.drop (start - A.length) ++ K) R
  rw [hL] at this
  rw [e1, ← hM]
  exact this

theorem noLeadingSpace_append (k rest : tokenstream) (hk : k ≠ []) (h : noLeadingSpace k) :
    noLeadingSpace (k ++ rest) := by
  cases k with
  | nil => exact absurd rfl hk
  | cons a k => exact fun t ht => h t (by simpa using ht)

theorem isSpaces_drop (ws : tokenstream) (n : Nat) (h : isSpaces ws) : isSpaces (ws.drop n) :=
  fun t ht => h t (List.mem_of_mem_drop ht)

theorem Decl.plain_key (d : Decl) (hwf : d.WellFormed) :
    ∀ t, t ∈ d.before ++ (d.key ++ d.afterKey) → isPlain t := by
  intro t ht
  simp only [List.mem_append] at ht
  rcases ht with h | h | h
  · exact isPlain_of_space (hwf.1 t h)
  · exact hwf.2.2.2.2.2.2.2.2.1 t h
  · exact isPlain_of_space (hwf.2.1 t h)

theorem Decl.plain_value (d : Decl) (hwf : d.WellFormed) :
    ∀ t, t ∈ d.beforeValue ++ (d.value ++ d.afterValue) → isPlain t := by
  intro t ht
  simp only [List.mem_append] at ht
  rcases ht with h | h | h
  · exact isPlain_of_space (hwf.2.2.1 t h)
  · exact hwf.2.2.2.2.2.2.2.2.2 t h
  · exact isPlain_of_space (hwf.2.2.2.1 t h)

theorem Decl.toks_eq (d : Decl) (REST : tokenstream) :
    d.toks ++ REST =
      (d.before ++ (d.key ++ d.afterKey)) ++
        colonTok :: ((d.beforeValue ++ (d.value ++ d.afterValue)) ++ REST) := by
  simp [Decl.toks]

/-- The tokens of a declaration, followed by anything, are at least two, and
when the first is whitespace the declaration has whitespace before its key. -/
theorem Decl.toks_head (d : Decl) (hwf : d.WellFormed) (REST : tokenstream) :
    ∃ s R, d.toks ++ REST = s :: R ∧ R ≠ [] ∧
      (s.Typ = TokenType.S → 1 ≤ d.before.length) := by
  have hk : d.key ≠ [] := hwf.2.2.2.2.1
  have hnl : noLeadingSpace d.key := hwf.2.2.2.2.2.2.1
  cases hb : d.before with
  | nil =>
    cases hkey : d.key with
    | nil => exact absurd hkey hk
    | cons k0 ks =>
      refine ⟨k0, _, by simp [Decl.toks, hb, hkey]; rfl, by simp, ?_⟩
      intro hs
      exact absurd hs (hnl k0 (by simp [hkey]))
  | cons w ws =>
    cases hkey : d.key with
    | nil => exact absurd hkey hk
    | cons k0 ks =>
      exact ⟨w, _, by simp [Decl.toks, hb, hkey]; rfl, by simp, fun _ => by simp⟩

/-- A stream of declarations has at least two tokens, and when its first token
is whitespace the first declaration has whitespace before its key. -/
theorem declStream_head (d : Decl) (ds : List Decl) (closing : Option tokenstream)
    (hwf : d.WellFormed) :
    ∃ s R, declStream d ds closing = s :: R ∧ R ≠ [] ∧
      (s.Typ = TokenType.S → 1 ≤ d.before.length) := by
  cases ds with
  | nil => exact d.toks_head hwf _
  | cons d2 ds => exact d.toks_head hwf _

theorem goSlice_value (A X Y REST : tokenstream) :
    goSlice (A ++ (X ++ colonTok :: (Y ++ REST))) (A.length + X.length + 1)
      (A.length + X.length + 1 + Y.length) = some Y := by
  have e2 : A ++ (X ++ colonTok :: (Y ++ REST)) = (A ++ (X ++ [colonTok])) ++ (Y ++ REST) := by
    simp
  have hA : (A ++ (X ++ [colonTok])).length = A.length + X.length + 1 := by
    simp [List.length_append]; omega
  have := goSlice_mid (A ++ (X ++ [colonTok])) Y REST
  rw [hA, ← e2] at this
  exact this

/-- The loop over a declaration closed by a `;` that more than one last
whitespace token follows. -/
theorem loopRuns_decl_semi_next (A bf K Y R2 : tokenstream) (s : Token) (b : sBlock)
    (start colon0 : Nat) (e : LoopExit) (hX : ∀ t, t ∈ bf ++ K → isPlain t)
    (hY : ∀ t, t ∈ Y → isPlain t) (h1 : A.length ≤ start)
    (h2 : start ≤ A.length + bf.length) (hR : s.Typ = TokenType.S → R2 ≠ [])
    (h : LoopRuns (A ++ ((bf ++ K) ++ colonTok :: (Y ++ semiTok :: s :: R2))) true
      (b.addRule ⟨trimSpace (bf.drop (start - A.length) ++ K), trimSpace Y⟩)
      (A.length + (bf ++ K).length + 1 + Y.length + 1)
      (if s.Typ = TokenType.S then A.length + (bf ++ K).length + 1 + Y.length + 2
        else A.length + (bf ++ K).length + 1 + Y.length + 1) 0 e) :
    LoopRuns (A ++ ((bf ++ K) ++ colonTok :: (Y ++ semiTok :: s :: R2))) true b A.length start
      colon0 e := by
  apply loopRuns_keyValue A (bf ++ K) Y (semiTok :: s :: R2) b start colon0 e hX hY (by simp)
  have hP : (A ++ ((bf ++ K) ++ colonTok :: Y)).length =
      A.length + (bf ++ K).length + 1 + Y.length := by
    simp [List.length_append]; omega
  have htoks : A ++ ((bf ++ K) ++ colonTok :: (Y ++ semiTok :: s :: R2)) =
      (A ++ ((bf ++ K) ++ colonTok :: Y)) ++ semiTok :: s :: R2 := by simp
  have hk := goSlice_key A bf K (colonTok :: (Y ++ semiTok :: s :: R2)) start h1 h2
  have hv := goSlice_value A (bf ++ K) Y (semiTok :: s :: R2)
  have := loopRuns_semi_next _ (A ++ ((bf ++ K) ++ colonTok :: Y)) R2 s true b start
    (A.length + (bf ++ K).length) _ _ e htoks hk (by rw [hP]; exact hv) hR
    (by rw [hP]; exact h)
  rw [hP] at this
  exact this

/-- The loop over a declaration closed by a `;` that ends the stream, alone or
with one whitespace token after it. -/
theorem loopRuns_decl_semi_end (A bf K Y R : tokenstream) (b : sBlock)
    (start colon0 : Nat) (hX : ∀ t, t ∈ bf ++ K → isPlain t)
    (hY : ∀ t, t ∈ Y → isPlain t) (h1 : A.length ≤ start)
    (h2 : start ≤ A.length + bf.length)
    (hR : R = [] ∨ ∃ s, R = [s] ∧ s.Typ = TokenType.S) :
    ∃ st, LoopRuns (A ++ ((bf ++ K) ++ colonTok :: (Y ++ semiTok :: R))) true b A.length start
      colon0 ⟨b.addRule ⟨trimSpace (bf.drop (start - A.length) ++ K), trimSpace Y⟩, st, 0⟩ := by
  have hP : (A ++ ((bf ++ K) ++ colonTok :: Y)).length =
      A.length + (bf ++ K).length + 1 + Y.length := by
    simp [List.length_append]; omega
  have htoks : A ++ ((bf ++ K) ++ colonTok :: (Y ++ semiTok :: R)) =
      (A ++ ((bf ++ K) ++ colonTok :: Y)) ++ semiTok :: R := by simp
  have hk := goSlice_key A bf K (colonTok :: (Y ++ semiTok :: R)) start h1 h2
  have hv := goSlice_value A (bf ++ K) Y (semiTok :: R)
  obtain ⟨st, hst⟩ := loopRuns_semi_end _ (A ++ ((bf ++ K) ++ colonTok :: Y)) R true b start
    (A.length + (bf ++ K).length) _ _ htoks hk (by rw [hP]; exact hv) hR
  rw [hP] at hst
  exact ⟨st, loopRuns_keyValue A (bf ++ K) Y (semiTok :: R) b start colon0 _ hX hY (by simp) hst⟩

theorem Decl.trim_key (d : Decl) (hwf : d.WellFormed) (n : Nat) :
    trimSpace (d.before.drop n ++ (d.key ++ d.afterKey)) = d.key ++ d.afterKey :=
  trimSpace_spaces_append _ _ (isSpaces_drop _ n hwf.1)
    (noLeadingSpace_append _ _ hwf.2.2.2.2.1 hwf.2.2.2.2.2.2.1)

theorem Decl.trim_value (d : Decl) (hwf : d.WellFormed) :
    trimSpace (d.beforeValue ++ (d.value ++ d.afterValue)) = d.value ++ d.afterValue :=
  trimSpace_spaces_append _ _ hwf.2.2.1
    (noLeadingSpace_append _ _ hwf.2.2.2.2.2.1 hwf.2.2.2.2.2.2.2.1)

theorem Decl.matches_closed (d : Decl) (hwf : d.WellFormed) :
    declMatches ⟨d.key ++ d.afterKey, d.value ++ d.afterValue⟩ d :=
  ⟨⟨[], d.afterKey, by intro t ht; simp at ht, hwf.2.1, by simp⟩,
   ⟨[], d.afterValue, by intro t ht; simp at ht, hwf.2.2.2.1, by simp⟩⟩

theorem Decl.matches_dangling (d : Decl) (hwf : d.WellFormed) (n : Nat) :
    declMatches ⟨d.before.drop n ++ (d.key ++ d.afterKey),
      d.beforeValue ++ (d.value ++ d.afterValue)⟩ d :=
  ⟨⟨d.before.drop n, d.afterKey, isSpaces_drop _ n hwf.1, hwf.2.1, rfl⟩,
   ⟨d.beforeValue, d.afterValue, hwf.2.2.1, hwf.2.2.2.1, rfl⟩⟩

/-- The loop of `consumeBlock` over a stream of declarations, entered at the
first token of a declaration (or at the whitespace before it), records one
declaration for each. -/
theorem loopRuns_declStream (ds : List Decl) :
    ∀ (d : Decl) (A : tokenstream) (b : sBlock) (start colon0 : Nat)
      (closing : Option tokenstream),
      (∀ x, x ∈ d :: ds → x.WellFormed) → (∀ ws, closing = some ws → isSpaces ws) →
      A.length ≤ start → start ≤ A.length + d.before.length →
      ∃ e qs, LoopRuns (A ++ declStream d ds closing) true b A.length start colon0 e ∧
        consumeFinish (A ++ declStream d ds closing) e.b e.start e.colon =
          Run.ret (b.addRules qs) ∧
        List.Forall₂ declMatches qs (d :: ds) := by
  induction ds with
  | nil =>
    intro d A b start colon0 closing hwfs hcl h1 h2
    have hwf : d.WellFormed := hwfs d (List.mem_cons_self _ _)
    have hX := d.plain_key hwf
    have hY := d.plain_value hwf
    have hYne : d.beforeValue ++ (d.value ++ d.afterValue) ≠ [] := by
      have := hwf.2.2.2.2.2.1
      simp [this]
    cases closing with
    | none =>
      have hs : A ++ declStream d [] none =
          A ++ ((d.before ++ (d.key ++ d.afterKey)) ++
            colonTok :: (d.beforeValue ++ (d.value ++ d.afterValue))) := by
        simp [declStream, closingToks, Decl.toks]
      rw [hs]
      refine ⟨_, [_], loopRuns_keyValue_end A _ _ b start colon0 hX hY hYne,
        ?_, List.Forall₂.cons (d.matches_dangling hwf (start - A.length)) List.Forall₂.nil⟩
      have hk := goSlice_key A d.before (d.key ++ d.afterKey)
        (colonTok :: (d.beforeValue ++ (d.value ++ d.afterValue))) start h1 h2
      have hv := goSlice_value A (d.before ++ (d.key ++ d.afterKey))
        (d.beforeValue ++ (d.value ++ d.afterValue)) []
      have hlen : (A ++ ((d.before ++ (d.key ++ d.afterKey)) ++
            colonTok :: (d.beforeValue ++ (d.value ++ d.afterValue)))).length =
          A.length + (d.before ++ (d.key ++ d.afterKey)).length + 1 +
            (d.beforeValue ++ (d.value ++ d.afterValue)).length := by
        simp [List.length_append]; omega
      rw [List.append_nil] at hv
      have hkpos : 0 < A.length + (d.before ++ (d.key ++ d.afterKey)).length := by
        have := List.length_pos.2 hwf.2.2.2.2.1
        simp [List.length_append]; omega
      unfold consumeFinish
      simp only [gt_iff_lt, hkpos, if_true, hk, hlen, hv, sBlock.addRule_eq]
    | some ws =>
      have hws : isSpaces ws := hcl ws rfl
      have hs : A ++ declStream d [] (some ws) =
          A ++ ((d.before ++ (d.key ++ d.afterKey)) ++
            colonTok :: ((d.beforeValue ++ (d.value ++ d.afterValue)) ++ semiTok :: ws)) := by
        simp [declStream, closingToks, Decl.toks]
      rw [hs]
      have hend : ∀ e : LoopExit,
          e.b = b.addRule ⟨trimSpace (d.before.drop (start - A.length) ++ (d.key ++ d.afterKey)),
            trimSpace (d.beforeValue ++ (d.value ++ d.afterValue))⟩ → e.colon = 0 →
          ∀ toks, consumeFinish toks e.b e.start e.colon =
            Run.ret (b.addRules [⟨d.key ++ d.afterKey, d.value ++ d.afterValue⟩]) := by
        intro e hb hc toks
        rw [hc, consumeFinish_zero, hb, d.trim_key hwf, d.trim_value hwf, sBlock.addRule_eq]
      match ws, hws with
      | [], _ =>
        obtain ⟨st, hst⟩ := loopRuns_decl_semi_end A d.before (d.key ++ d.afterKey)
          (d.beforeValue ++ (d.value ++ d.afterValue)) [] b start colon0 hX hY h1 h2
          (Or.inl rfl)
        exact ⟨_, _, hst, hend _ rfl rfl _,
          List.Forall₂.cons (d.matches_closed hwf) List.Forall₂.nil⟩
      | [s], hws =>
        obtain ⟨st, hst⟩ := loopRuns_decl_semi_end A d.before (d.key ++ d.afterKey)
          (d.beforeValue ++ (d.value ++ d.afterValue)) [s] b start colon0 hX hY h1 h2
          (Or.inr ⟨s, rfl, hws s (List.mem_cons_self _ _)⟩)
        exact ⟨_, _, hst, hend _ rfl rfl _,
          List.Forall₂.cons (d.matches_closed hwf) List.Forall₂.nil⟩
      | s :: u :: ws2, hws =>
        have hsS : s.Typ = TokenType.S := hws s (List.mem_cons_self _ _)
        have e3 : A ++ ((d.before ++ (d.key ++ d.afterKey)) ++
            colonTok :: ((d.beforeValue ++ (d.value ++ d.afterValue)) ++
              semiTok :: s :: u :: ws2)) =
            (A ++ ((d.before ++ (d.key ++ d.afterKey)) ++
              colonTok :: ((d.beforeValue ++ (d.value ++ d.afterValue)) ++ [semiTok]))) ++
              (s :: u :: ws2) := by simp
        have hA3 : (A ++ ((d.before ++ (d.key ++ d.afterKey)) ++
              colonTok :: ((d.beforeValue ++ (d.value ++ d.afterValue)) ++ [semiTok]))).length =
            A.length + (d.before ++ (d.key ++ d.afterKey)).length + 1 +
              (d.beforeValue ++ (d.value ++ d.afterValue)).length + 1 := by
          simp [List.length_append]; omega
        have hscan := loopRuns_scan_end (s :: u :: ws2)
          (A ++ ((d.before ++ (d.key ++ d.afterKey)) ++
              colonTok :: ((d.beforeValue ++ (d.value ++ d.afterValue)) ++ [semiTok]))) true
          (b.addRule ⟨trimSpace (d.before.drop (start - A.length) ++ (d.key ++ d.afterKey)),
            trimSpace (d.beforeValue ++ (d.value ++ d.afterValue))⟩)
          (A.length + (d.before ++ (d.key ++ d.afterKey)).length + 1 +
              (d.beforeValue ++ (d.value ++ d.afterValue)).length + 2) 0
          (fun t ht => isPlain_of_space (hws t ht))
        rw [hA3, ← e3] at hscan
        have := loopRuns_decl_semi_next A d.before (d.key ++ d.afterKey)
          (d.beforeValue ++ (d.value ++ d.afterValue)) (u :: ws2) s b start colon0 _ hX hY h1 h2
          (fun _ => by simp) (by rw [if_pos hsS]; exact hscan)
        exact ⟨_, _, this, hend _ rfl rfl _,
          List.Forall₂.cons (d.matches_closed hwf) List.Forall₂.nil⟩
  | cons d2 ds ih =>
    intro d A b start colon0 closing hwfs hcl h1 h2
    have hwf : d.WellFormed := hwfs d (List.mem_cons_self _ _)
    have hwf2 : d2.WellFormed := hwfs d2 (List.mem_cons_of_mem _ (List.mem_cons_self _ _))
    have hX := d.plain_key hwf
    have hY := d.plain_value hwf
    obtain ⟨s, R2, hsR, hR2, hsb⟩ := declStream_head d2 ds closing hwf2
    have hs : A ++ declStream d (d2 :: ds) closing =
        A ++ ((d.before ++ (d.key ++ d.afterKey)) ++
          colonTok :: ((d.beforeValue ++ (d.value ++ d.afterValue)) ++ semiTok :: s :: R2)) := by
      rw [← hsR]
      simp [declStream, Decl.toks]
    have e3 : A ++ ((d.before ++ (d.key ++ d.afterKey)) ++
        colonTok :: ((d.beforeValue ++ (d.value ++ d.afterValue)) ++ semiTok :: s :: R2)) =
        (A ++ ((d.before ++ (d.key ++ d.afterKey)) ++
          colonTok :: ((d.beforeValue ++ (d.value ++ d.afterValue)) ++ [semiTok]))) ++
          declStream d2 ds closing := by
      rw [hsR]; simp
    have hA3 : (A ++ ((d.before ++ (d.key ++ d.afterKey)) ++
          colonTok :: ((d.beforeValue ++ (d.value ++ d.afterValue)) ++ [semiTok]))).length =
        A.length + (d.before ++ (d.key ++ d.afterKey)).length + 1 +
          (d.beforeValue ++ (d.value ++ d.afterValue)).length + 1 := by
      simp [List.length_append]; omega
    obtain ⟨e, qs, hrun, hfin, hall⟩ := ih d2
      (A ++ ((d.before ++ (d.key ++ d.afterKey)) ++
          colonTok :: ((d.beforeValue ++ (d.value ++ d.afterValue)) ++ [semiTok])))
      (b.addRule ⟨trimSpace (d.before.drop (start - A.length) ++ (d.key ++ d.afterKey)),
        trimSpace (d.beforeValue ++ (d.value ++ d.afterValue))⟩)
      (if s.Typ = TokenType.S then
          A.length + (d.before ++ (d.key ++ d.afterKey)).length + 1 +
            (d.beforeValue ++ (d.value ++ d.afterValue)).length + 2
        else A.length + (d.before ++ (d.key ++ d.afterKey)).length + 1 +
            (d.beforeValue ++ (d.value ++ d.afterValue)).length + 1)
      0 closing (fun x hx => hwfs x (List.mem_cons_of_mem _ hx)) hcl
      (by rw [hA3]; split_ifs <;> omega)
      (by
        rw [hA3]
        split_ifs with hsS
        · have := hsb hsS
          omega
        · omega)
    rw [hA3, ← e3] at hrun
    rw [← e3] at hfin
    rw [hs]
    have := loopRuns_decl_semi_next A d.before (d.key ++ d.afterKey)
      (d.beforeValue ++ (d.value ++ d.afterValue)) R2 s b start colon0 e hX hY h1 h2
      (fun _ => hR2) hrun
    refine ⟨e, ⟨d.key ++ d.afterKey, d.value ++ d.afterValue⟩ :: qs, this, ?_,
      List.Forall₂.cons (d.matches_closed hwf) hall⟩
    rw [hfin, d.trim_key hwf, d.trim_value hwf, sBlock.addRule_eq, sBlock.addRules_addRules]
    rfl

theorem declStream_before (d : Decl) (ds : List Decl) (closing : Option tokenstream) :
    declStream d ds closing =
      d.before ++ declStream { d with before := [] } ds closing := by
  cases ds <;> simp [declStream, Decl.toks]

/-- The run of `consumeBlock` on a flat stream of declarations, from the loop
entered after the leading whitespace to the declaration added after the loop. -/
theorem declStream_run (d : Decl) (ds : List Decl) (closing : Option tokenstream)
    (hwf : ∀ x, x ∈ d :: ds → x.WellFormed) (hcl : ∀ ws, closing = some ws → isSpaces ws) :
    ∃ e qs, ¬ (declStream d ds closing).length ≤ 1 ∧
      LoopRuns (declStream d ds closing) true sBlock.empty
        (skipSpaceLoop (declStream d ds closing) 0) (skipSpaceLoop (declStream d ds closing) 0)
        0 e ∧
      consumeFinish (declStream d ds closing) e.b e.start e.colon =
        Run.ret (sBlock.empty.addRules qs) ∧
      List.Forall₂ declMatches qs (d :: ds) := by
  have hd : d.WellFormed := hwf d (List.mem_cons_self _ _)
  have hd2 : Decl.WellFormed { d with before := [] } :=
    ⟨by intro t ht; simp at ht, hd.2⟩
  obtain ⟨e, qs, hrun, hfin, hall⟩ := loopRuns_declStream ds { d with before := [] }
    d.before sBlock.empty d.before.length 0 closing
    (by
      intro x hx
      rcases List.mem_cons.1 hx with h | h
      · rw [h]; exact hd2
      · exact hwf x (List.mem_cons_of_mem _ h))
    hcl (le_refl _) (by simp)
  rw [← declStream_before] at hrun hfin
  obtain ⟨s, R, hsR, hR, hsb⟩ := declStream_head { d with before := [] } ds closing hd2
  have hskip : skipSpaceLoop (declStream d ds closing) 0 = d.before.length := by
    rw [declStream_before, skipSpaceLoop_spaces _ _ hd.1]
    · simp
    · intro t ht
      rw [hsR] at ht
      simp only [List.head?_cons, Option.some.injEq] at ht
      subst ht
      intro hS
      have := hsb hS
      simp at this
  have hlen : ¬ (declStream d ds closing).length ≤ 1 := by
    rw [declStream_before, hsR]
    have := List.length_pos.2 hR
    simp [List.length_append]
    omega
  refine ⟨e, qs, hlen, by rw [hskip]; exact hrun, hfin, ?_⟩
  cases hall with
  | cons h1 h2 => exact List.Forall₂.cons h1 h2

/-- C1: on a flat stream of one or more declarations `key : value` separated
by `;` (with or without a trailing `;`, with whitespace tokens around keys and
values, the keys and values not empty and free of the delimiters `:`, `;` and
`{`), `consumeBlock(toks, true)` returns a node whose declarations are, in
order, those of the stream up to surrounding whitespace tokens, and which has
no child at-rule and no nested block. -/
theorem consumeBlock_declarations (d : Decl) (ds : List Decl) (closing : Option tokenstream)
    (hwf : ∀ x, x ∈ d :: ds → x.WellFormed) (hcl : ∀ ws, closing = some ws → isSpaces ws) :
    ∃ node, consumeBlock (declStream d ds closing) true = Run.ret node ∧
      List.Forall₂ declMatches node.rules (d :: ds) ∧ node.childAtRules = [] ∧
      node.blocks = [] := by
  obtain ⟨e, qs, hlen, ⟨fuel, hrun⟩, hfin, hall⟩ := declStream_run d ds closing hwf hcl
  refine ⟨sBlock.empty.addRules qs, ?_, hall, rfl, rfl⟩
  have hfuel : consumeBlockFuel fuel (declStream d ds closing) true =
      Run.ret (sBlock.empty.addRules qs) := by
    unfold consumeBlockFuel consumeBlockWith
    rw [if_neg hlen, hrun]
    exact hfin
  exact consumeBlock_eq_of_fuel hfuel (by simp)

/-- C1 on the tokens of `a: b; c : d` (no trailing `;`). -/
theorem consumeBlock_declarations_witness :
    ∃ node,
      consumeBlock
          (declStream
            ⟨[], [⟨TokenType.Ident, "a"⟩], [], [⟨TokenType.S, " "⟩], [⟨TokenType.Ident, "b"⟩], []⟩
            [⟨[⟨TokenType.S, " "⟩], [⟨TokenType.Ident, "c"⟩], [⟨TokenType.S, " "⟩],
              [⟨TokenType.S, " "⟩], [⟨TokenType.Ident, "d"⟩], []⟩]
            none) true = Run.ret node ∧
        List.Forall₂ declMatches node.rules
          [⟨[], [⟨TokenType.Ident, "a"⟩], [], [⟨TokenType.S, " "⟩], [⟨TokenType.Ident, "b"⟩], []⟩,
           ⟨[⟨TokenType.S, " "⟩], [⟨TokenType.Ident, "c"⟩], [⟨TokenType.S, " "⟩],
              [⟨TokenType.S, " "⟩], [⟨TokenType.Ident, "d"⟩], []⟩] ∧
        node.childAtRules = [] ∧ node.blocks = [] :=
  consumeBlock_declarations _ _ none
    (by
      intro x hx
      simp only [List.mem_cons, List.mem_singleton, List.not_mem_nil, or_false] at hx
      rcases hx with h | h <;> subst h <;>
        simp [Decl.WellFormed, isSpaces, noLeadingSpace, isPlain])
    (by intro ws h; cases h)

/-! ### Streams of nested at-rule blocks -/

theorem braceDepthFrom_append_le (body R : tokenstream) (level : Int) (k : Nat)
    (hk : k ≤ body.length) :
    braceDepthFrom level (body ++ R) k = braceDepthFrom level body k := by
  unfold braceDepthFrom
  rw [List.take_append_of_le_length hk]

theorem findClosingBrace_balanced (body R : tokenstream) (hb : balanced body) :
    findClosingBrace (body ++ braceCloseTok :: R) = body.length + 1 := by
  have h := findClosingBraceLoop_first (body ++ braceCloseTok :: R) 1 0 body.length
    (by decide) (by simp [List.length_append])
    (by
      have h1 : braceDepthFrom 1 body body.length = 1 := hb.2
      unfold braceDepthFrom at h1 ⊢
      have e : List.take (body.length + 1) (body ++ braceCloseTok :: R) =
          body ++ [braceCloseTok] := by
        rw [List.take_append_eq_append_take]
        simp
      rw [e, List.map_append, List.sum_append]
      rw [List.take_length] at h1
      have hd : braceDelta braceCloseTok = -1 := by decide
      simp only [List.map_cons, List.map_nil, List.sum_cons, List.sum_nil, hd]
      omega)
    (by
      intro j hj
      have := hb.1 (j + 1) (by omega)
      unfold braceDepth at this
      rw [braceDepthFrom_append_le _ _ _ _ (by omega)]
      omega)
  simpa [findClosingBrace] using h

theorem consumeStep_brace (f : LoopFn) (toks : tokenstream) (inblock : Bool) (b : sBlock)
    (g start colon : Nat) (body pre : tokenstream) (starttok : Token) (nb : sBlock)
    (ht : toks[g]? = some braceOpenTok)
    (hl : findClosingBrace (toks.drop (g + 1)) = body.length + 1) (hbody : body ≠ [])
    (hsub : goSlice toks (g + 1) (g + (body.length + 1)) = some body)
    (hst : toks[start]? = some starttok) (hat : starttok.Typ = TokenType.AtKeyword)
    (hnb : consumeBlockWith f body
      (!(decide (starttok.Typ = TokenType.AtKeyword ∧
        (starttok.Value = "media" ∨ starttok.Value = "supports")))) = Run.ret nb)
    (hpre : goSlice toks (start + 1) g = some pre) :
    consumeStep f toks inblock b g start colon =
      if isSpaceAt toks (g + (body.length + 1) + 1) then
        consumeNext f toks inblock
          (b.addChildAtRule
            ((nb.setName starttok.Value).setComponentValues (fixupComponentValues pre)))
          (g + (body.length + 1) + 1) (g + (body.length + 1) + 2) colon
      else
        consumeNext f toks inblock
          (b.addChildAtRule
            ((nb.setName starttok.Value).setComponentValues (fixupComponentValues pre)))
          (g + (body.length + 1)) (g + (body.length + 1) + 1) colon := by
  have hi : g < toks.length := (List.getElem?_eq_some_iff.1 ht).1
  have hlen : body.length ≠ 0 := fun h0 => hbody (List.length_eq_zero.1 h0)
  unfold consumeStep
  rw [if_neg (by omega)]
  simp only [ht]
  rw [if_pos (by decide), if_neg (by decide), if_neg (by decide), if_pos (by decide), hl,
    if_neg (by omega)]
  simp only [hsub, hst]
  rw [hnb]
  simp only [hat, if_true, hpre, Option.map_some']

theorem loopRuns_mono {toks : tokenstream} {inblock : Bool} {b : sBlock}
    {i start colon : Nat} {e : LoopExit} {fuel : Nat}
    (h : consumeLoop fuel toks inblock b i start colon = Run.ret e) (k : Nat) :
    consumeLoop (fuel + k) toks inblock b i start colon = Run.ret e :=
  consumeLoop_mono fuel k _ _ _ _ _ _ _ h (by simp)

theorem consumeBlockWith_of_consumeBlock {body : tokenstream} {inblock : Bool} {nb : sBlock}
    (h : consumeBlock body inblock = Run.ret nb) (k : Nat) :
    consumeBlockWith (consumeLoop (body.length + 1 + k)) body inblock = Run.ret nb :=
  consumeBlockWith_mono (consumeLoop_mono _ k) _ _ _ h (by simp)

/-- What the stream of an at-rule block gives the statements of the case `{`:
the position of the brace, the token at `start`, the sub-block, the prelude and
the result of `findClosingBrace`. -/
theorem block_facts (A prelude body R : tokenstream) (name : String) (hbal : balanced body) :
    (A ++ (⟨TokenType.AtKeyword, name⟩ ::
        (prelude ++ braceOpenTok :: (body ++ braceCloseTok :: R))))[A.length + 1 +
          prelude.length]? = some braceOpenTok ∧
    findClosingBrace ((A ++ (⟨TokenType.AtKeyword, name⟩ ::
        (prelude ++ braceOpenTok :: (body ++ braceCloseTok :: R)))).drop
          (A.length + 1 + prelude.length + 1)) = body.length + 1 ∧
    goSlice (A ++ (⟨TokenType.AtKeyword, name⟩ ::
        (prelude ++ braceOpenTok :: (body ++ braceCloseTok :: R))))
        (A.length + 1 + prelude.length + 1)
        (A.length + 1 + prelude.length + (body.length + 1)) = some body ∧
    (A ++ (⟨TokenType.AtKeyword, name⟩ ::
        (prelude ++ braceOpenTok :: (body ++ braceCloseTok :: R))))[A.length]? =
      some ⟨TokenType.AtKeyword, name⟩ ∧
    goSlice (A ++ (⟨TokenType.AtKeyword, name⟩ ::
        (prelude ++ braceOpenTok :: (body ++ braceCloseTok :: R))))
        (A.length + 1) (A.length + 1 + prelude.length) = some prelude := by
  have e1 : A ++ (⟨TokenType.AtKeyword, name⟩ ::
        (prelude ++ braceOpenTok :: (body ++ braceCloseTok :: R))) =
      (A ++ (⟨TokenType.AtKeyword, name⟩ :: prelude)) ++
        braceOpenTok :: (body ++ braceCloseTok :: R) := by simp
  have h1 : (A ++ (⟨TokenType.AtKeyword, name⟩ :: prelude)).length =
      A.length + 1 + prelude.length := by simp [List.length_append]; omega
  have e2 : A ++ (⟨TokenType.AtKeyword, name⟩ ::
        (prelude ++ braceOpenTok :: (body ++ braceCloseTok :: R))) =
      (A ++ (⟨TokenType.AtKeyword, name⟩ :: (prelude ++ [braceOpenTok]))) ++
        (body ++ braceCloseTok :: R) := by simp
  have h2 : (A ++ (⟨TokenType.AtKeyword, name⟩ :: (prelude ++ [braceOpenTok]))).length =
      A.length + 1 + prelude.length + 1 := by simp [List.length_append]; omega
  have e3 : A ++ (⟨TokenType.AtKeyword, name⟩ ::
        (prelude ++ braceOpenTok :: (body ++ braceCloseTok :: R))) =
      (A ++ [⟨TokenType.AtKeyword, name⟩]) ++
        (prelude ++ braceOpenTok :: (body ++ braceCloseTok :: R)) := by simp
  have h3 : (A ++ [(⟨TokenType.AtKeyword, name⟩ : Token)]).length = A.length + 1 := by simp
  refine ⟨?_, ?_, ?_, getElem?_append_cons A _ _, ?_⟩
  · have := getElem?_append_cons (A ++ (⟨TokenType.AtKeyword, name⟩ :: prelude)) braceOpenTok
      (body ++ braceCloseTok :: R)
    rw [h1, ← e1] at this
    exact this
  · rw [e2, ← h2, List.drop_left]
    exact findClosingBrace_balanced body R hbal
  · have := goSlice_mid (A ++ (⟨TokenType.AtKeyword, name⟩ :: (prelude ++ [braceOpenTok])))
      body (braceCloseTok :: R)
    rw [h2, ← e2] at this
    have e : A.length + 1 + prelude.length + (body.length + 1) =
        A.length + 1 + prelude.length + 1 + body.length := by omega
    rw [e]
    exact this
  · have := goSlice_mid (A ++ [⟨TokenType.AtKeyword, name⟩]) prelude
      (braceOpenTok :: (body ++ braceCloseTok :: R))
    rw [h3, ← e3] at this
    exact this

theorem isPlain_atKeyword (name : String) : isPlain ⟨TokenType.AtKeyword, name⟩ := by
  intro h
  exact TokenType.noConfusion h.1

/-- The loop at the opening brace of an at-rule block whose at-keyword is at
`start`: the block is recorded as a child at-rule and the loop goes on after
the closing brace, one whitespace token skipped. -/
theorem loopRuns_brace (A prelude body R : tokenstream) (name : String) (inblock : Bool)
    (b : sBlock) (colon : Nat) (nb : sBlock) (fuel : Nat) (hbody : body ≠ [])
    (hbal : balanced body)
    (hnb : consumeBlock body (!(decide (name = "media" ∨ name = "supports"))) = Run.ret nb) :
    consumeLoop (fuel + (body.length + 1) + 1)
        (A ++ (⟨TokenType.AtKeyword, name⟩ ::
          (prelude ++ braceOpenTok :: (body ++ braceCloseTok :: R)))) inblock b
        (A.length + 1 + prelude.length) A.length colon =
      if isSpaceAt (A ++ (⟨TokenType.AtKeyword, name⟩ ::
          (prelude ++ braceOpenTok :: (body ++ braceCloseTok :: R))))
          (A.length + 1 + prelude.length + (body.length + 1) + 1) then
        consumeNext (consumeLoop (fuel + (body.length + 1)))
          (A ++ (⟨TokenType.AtKeyword, name⟩ ::
            (prelude ++ braceOpenTok :: (body ++ braceCloseTok :: R)))) inblock
          (b.addChildAtRule
            ((nb.setName name).setComponentValues (fixupComponentValues prelude)))
          (A.length + 1 + prelude.length + (body.length + 1) + 1)
          (A.length + 1 + prelude.length + (body.length + 1) + 2) colon
      else
        consumeNext (consumeLoop (fuel + (body.length + 1)))
          (A ++ (⟨TokenType.AtKeyword, name⟩ ::
            (prelude ++ braceOpenTok :: (body ++ braceCloseTok :: R)))) inblock
          (b.addChildAtRule
            ((nb.setName name).setComponentValues (fixupComponentValues prelude)))
          (A.length + 1 + prelude.length + (body.length + 1))
          (A.length + 1 + prelude.length + (body.length + 1) + 1) colon := by
  obtain ⟨f1, f2, f3, f4, f5⟩ := block_facts A prelude body R name hbal
  have hnb2 : consumeBlockWith (consumeLoop (fuel + (body.length + 1))) body
      (!(decide ((⟨TokenType.AtKeyword, name⟩ : Token).Typ = TokenType.AtKeyword ∧
        ((⟨TokenType.AtKeyword, name⟩ : Token).Value = "media" ∨
          (⟨TokenType.AtKeyword, name⟩ : Token).Value = "supports")))) = Run.ret nb := by
    have := consumeBlockWith_of_consumeBlock hnb fuel
    rw [Nat.add_comm] at this
    simpa using this
  show consumeStep (consumeLoop (fuel + (body.length + 1))) _ _ _ _ _ _ = _
  rw [consumeStep_brace _ _ inblock b _ A.length colon body prelude _ nb f1 f2 hbody f3 f4 rfl
    hnb2 f5]

theorem block_length (A prelude body R : tokenstream) (name : String) :
    (A ++ (⟨TokenType.AtKeyword, name⟩ ::
        (prelude ++ braceOpenTok :: (body ++ braceCloseTok :: R)))).length =
      A.length + 1 + prelude.length + (body.length + 1) + 1 + R.length := by
  simp [List.length_append]; omega

theorem block_isSpaceAt (A prelude body R2 : tokenstream) (name : String) (s : Token) :
    isSpaceAt (A ++ (⟨TokenType.AtKeyword, name⟩ ::
        (prelude ++ braceOpenTok :: (body ++ braceCloseTok :: s :: R2))))
        (A.length + 1 + prelude.length + (body.length + 1) + 1) =
      decide (s.Typ = TokenType.S) := by
  have e : A ++ (⟨TokenType.AtKeyword, name⟩ ::
        (prelude ++ braceOpenTok :: (body ++ braceCloseTok :: s :: R2))) =
      (A ++ (⟨TokenType.AtKeyword, name⟩ :: (prelude ++ braceOpenTok :: body))) ++
        braceCloseTok :: s :: R2 := by simp
  have h : (A ++ (⟨TokenType.AtKeyword, name⟩ :: (prelude ++ braceOpenTok :: body))).length =
      A.length + 1 + prelude.length + (body.length + 1) := by
    simp [List.length_append]; omega
  rw [e, ← h]
  exact isSpaceAt_append_cons _ _ _ _

theorem block_isSpaceAt_last (A prelude body : tokenstream) (name : String) :
    isSpaceAt (A ++ (⟨TokenType.AtKeyword, name⟩ ::
        (prelude ++ braceOpenTok :: (body ++ [braceCloseTok]))))
        (A.length + 1 + prelude.length + (body.length + 1) + 1) = false := by
  have e : A ++ (⟨TokenType.AtKeyword, name⟩ ::
        (prelude ++ braceOpenTok :: (body ++ [braceCloseTok]))) =
      (A ++ (⟨TokenType.AtKeyword, name⟩ :: (prelude ++ braceOpenTok :: body))) ++
        [braceCloseTok] := by simp
  have h : (A ++ (⟨TokenType.AtKeyword, name⟩ :: (prelude ++ braceOpenTok :: body))).length =
      A.length + 1 + prelude.length + (body.length + 1) := by
    simp [List.length_append]; omega
  rw [e, ← h]
  exact isSpaceAt_append_last _ _

/-- The loop over an at-rule block, entered at its at-keyword with `start`
there: the scan of the prelude up to the opening brace. -/
theorem loopRuns_block_scan (A prelude body R : tokenstream) (name : String)
    (inblock : Bool) (b : sBlock) (colon : Nat) (e : LoopExit)
    (hpl : ∀ t, t ∈ prelude → isPlain t)
    (h : LoopRuns (A ++ (⟨TokenType.AtKeyword, name⟩ ::
          (prelude ++ braceOpenTok :: (body ++ braceCloseTok :: R)))) inblock b
        (A.length + 1 + prelude.length) A.length colon e) :
    LoopRuns (A ++ (⟨TokenType.AtKeyword, name⟩ ::
          (prelude ++ braceOpenTok :: (body ++ braceCloseTok :: R)))) inblock b
        A.length A.length colon e := by
  have e1 : A ++ (⟨TokenType.AtKeyword, name⟩ ::
        (prelude ++ braceOpenTok :: (body ++ braceCloseTok :: R))) =
      A ++ ((⟨TokenType.AtKeyword, name⟩ :: prelude) ++
        braceOpenTok :: (body ++ braceCloseTok :: R)) := by simp
  rw [e1] at h ⊢
  apply loopRuns_scan (⟨TokenType.AtKeyword, name⟩ :: prelude) A _ inblock b A.length colon e
    _ (by simp)
  · have e2 : A.length + (⟨TokenType.AtKeyword, name⟩ :: prelude : tokenstream).length =
        A.length + 1 + prelude.length := by simp; omega
    rw [e2]
    exact h
  · intro t ht
    rcases List.mem_cons.1 ht with h1 | h1
    · rw [h1]; exact isPlain_atKeyword name
    · exact hpl t h1

/-- The loop over an at-rule block that more than one last whitespace token
follows. -/
theorem loopRuns_block_next (A prelude body R2 : tokenstream) (s : Token) (name : String)
    (inblock : Bool) (b : sBlock) (colon : Nat) (e : LoopExit) (nb : sBlock)
    (hpl : ∀ t, t ∈ prelude → isPlain t) (hbody : body ≠ []) (hbal : balanced body)
    (hnb : consumeBlock body (!(decide (name = "media" ∨ name = "supports"))) = Run.ret nb)
    (hR : s.Typ = TokenType.S → R2 ≠ [])
    (h : LoopRuns (A ++ (⟨TokenType.AtKeyword, name⟩ ::
          (prelude ++ braceOpenTok :: (body ++ braceCloseTok :: s :: R2)))) inblock
        (b.addChildAtRule
          ((nb.setName name).setComponentValues (fixupComponentValues prelude)))
        (if s.Typ = TokenType.S then A.length + 1 + prelude.length + (body.length + 1) + 2
          else A.length + 1 + prelude.length + (body.length + 1) + 1)
        (if s.Typ = TokenType.S then A.length + 1 + prelude.length + (body.length + 1) + 2
          else A.length + 1 + prelude.length + (body.length + 1) + 1) colon e) :
    LoopRuns (A ++ (⟨TokenType.AtKeyword, name⟩ ::
          (prelude ++ braceOpenTok :: (body ++ braceCloseTok :: s :: R2)))) inblock b
        A.length A.length colon e := by
  apply loopRuns_block_scan A prelude body (s :: R2) name inblock b colon e hpl
  obtain ⟨fuel, hf⟩ := h
  refine ⟨fuel + (body.length + 1) + 1, ?_⟩
  rw [loopRuns_brace A prelude body (s :: R2) name inblock b colon nb fuel hbody hbal hnb,
    block_isSpaceAt]
  have hlen := block_length A prelude body (s :: R2) name
  simp only [List.length_cons] at hlen
  have hf2 := loopRuns_mono hf (body.length + 1)
  by_cases hs : s.Typ = TokenType.S
  · have hR2 : R2.length ≠ 0 := fun h0 => hR hs (List.length_eq_zero.1 h0)
    simp only [hs, decide_True, if_true] at hf2 ⊢
    rw [consumeNext, if_neg (by omega)]
    exact hf2
  · simp only [hs, decide_False, if_false, Bool.false_eq_true] at hf2 ⊢
    rw [consumeNext, if_neg (by omega)]
    exact hf2

/-- The loop over an at-rule block that ends the stream, alone or with one
whitespace token after it. -/
theorem loopRuns_block_end (A prelude body R : tokenstream) (name : String)
    (inblock : Bool) (b : sBlock) (colon : Nat) (nb : sBlock)
    (hpl : ∀ t, t ∈ prelude → isPlain t) (hbody : body ≠ []) (hbal : balanced body)
    (hnb : consumeBlock body (!(decide (name = "media" ∨ name = "supports"))) = Run.ret nb)
    (hR : R = [] ∨ ∃ s, R = [s] ∧ s.Typ = TokenType.S) :
    ∃ st, LoopRuns (A ++ (⟨TokenType.AtKeyword, name⟩ ::
          (prelude ++ braceOpenTok :: (body ++ braceCloseTok :: R)))) inblock b
        A.length A.length colon
        ⟨b.addChildAtRule
          ((nb.setName name).setComponentValues (fixupComponentValues prelude)), st, colon⟩ := by
  have hlen := block_length A prelude body R name
  rcases hR with hR | ⟨s, hR, hs⟩
  · subst hR
    refine ⟨A.length + 1 + prelude.length + (body.length + 1) + 1,
      loopRuns_block_scan A prelude body [] name inblock b colon _ hpl
        ⟨0 + (body.length + 1) + 1, ?_⟩⟩
    rw [loopRuns_brace A prelude body [] name inblock b colon nb 0 hbody hbal hnb,
      block_isSpaceAt_last]
    simp only [List.length_nil] at hlen
    simp only [Bool.false_eq_true, if_false]
    rw [consumeNext, if_pos (by omega)]
  · subst hR
    refine ⟨A.length + 1 + prelude.length + (body.length + 1) + 2,
      loopRuns_block_scan A prelude body [s] name inblock b colon _ hpl
        ⟨0 + (body.length + 1) + 1, ?_⟩⟩
    rw [loopRuns_brace A prelude body [s] name inblock b colon nb 0 hbody hbal hnb,
      block_isSpaceAt]
    simp only [List.length_singleton] at hlen
    simp only [hs, decide_True, if_true]
    rw [consumeNext, if_pos (by omega)]

theorem sBlock.addChildAtRule_eq (b nb : sBlock) :
    b.addChildAtRule nb = b.addChildAtRules [nb] := by
  cases b; rfl

theorem sBlock.addChildAtRules_append (b : sBlock) (xs ys : List sBlock) :
    (b.addChildAtRules xs).addChildAtRules ys = b.addChildAtRules (xs ++ ys) := by
  cases b; simp [sBlock.addChildAtRules]

theorem AtBlock.core_append (a : AtBlock) (REST : tokenstream) :
    a.core ++ REST =
      ⟨TokenType.AtKeyword, a.name⟩ ::
        (a.prelude ++ braceOpenTok :: (a.body ++ braceCloseTok :: REST)) := by
  simp [AtBlock.core]

theorem AtBlock.core_length (a : AtBlock) :
    a.core.length = 1 + a.prelude.length + (a.body.length + 1) + 1 := by
  simp [AtBlock.core, List.length_append]; omega

/-- The loop of `consumeBlock` over at-rule blocks, entered at the first
at-keyword with `start` there, records one child at-rule for each block whose
body `consumeBlock` parses. -/
theorem loopRuns_blocks (rest : List AtBlock) :
    ∀ (a : AtBlock) (A trail : tokenstream) (inblock : Bool) (b : sBlock) (colon : Nat),
      (a.WellFormed) → (∀ x, x ∈ rest → x.WellFormed) → isSpaces trail →
      (∀ x, x ∈ a :: rest → ∃ nb, consumeBlock x.body x.flat = Run.ret nb) →
      ∃ e cs, LoopRuns (A ++ (a.core ++ (blocksStream rest ++ trail))) inblock b
          A.length A.length colon e ∧
        e.b = b.addChildAtRules cs ∧ e.colon = colon ∧
        List.Forall₂ AtBlock.records cs (a :: rest) := by
  induction rest with
  | nil =>
    intro a A trail inblock b colon hwf _ htrail hparse
    obtain ⟨nb, hnb⟩ := hparse a (List.mem_cons_self _ _)
    have hrec : AtBlock.records
        ((nb.setName a.name).setComponentValues (fixupComponentValues a.prelude)) a :=
      ⟨nb, hnb, rfl⟩
    simp only [blocksStream, List.nil_append]
    rw [a.core_append]
    match trail, htrail with
    | [], _ =>
      obtain ⟨st, hst⟩ := loopRuns_block_end A a.prelude a.body [] a.name inblock b colon nb
        hwf.2.2.1 hwf.2.2.2.1 hwf.2.2.2.2 hnb (Or.inl rfl)
      exact ⟨_, [_], hst, sBlock.addChildAtRule_eq _ _, rfl,
        List.Forall₂.cons hrec List.Forall₂.nil⟩
    | [w], htrail =>
      obtain ⟨st, hst⟩ := loopRuns_block_end A a.prelude a.body [w] a.name inblock b colon nb
        hwf.2.2.1 hwf.2.2.2.1 hwf.2.2.2.2 hnb
        (Or.inr ⟨w, rfl, htrail w (List.mem_cons_self _ _)⟩)
      exact ⟨_, [_], hst, sBlock.addChildAtRule_eq _ _, rfl,
        List.Forall₂.cons hrec List.Forall₂.nil⟩
    | w :: w2 :: t, htrail =>
      have hw : w.Typ = TokenType.S := htrail w (List.mem_cons_self _ _)
      have e3 : A ++ (⟨TokenType.AtKeyword, a.name⟩ ::
            (a.prelude ++ braceOpenTok :: (a.body ++ braceCloseTok :: w :: w2 :: t))) =
          (A ++ (⟨TokenType.AtKeyword, a.name⟩ ::
            (a.prelude ++ braceOpenTok :: (a.body ++ [braceCloseTok, w])))) ++ (w2 :: t) := by
        simp
      have hA3 : (A ++ (⟨TokenType.AtKeyword, a.name⟩ ::
            (a.prelude ++ braceOpenTok :: (a.body ++ [braceCloseTok, w])))).length =
          A.length + 1 + a.prelude.length + (a.body.length + 1) + 2 := by
        simp [List.length_append]; omega
      have hscan := loopRuns_scan_end (w2 :: t)
        (A ++ (⟨TokenType.AtKeyword, a.name⟩ ::
            (a.prelude ++ braceOpenTok :: (a.body ++ [braceCloseTok, w])))) inblock
        (b.addChildAtRule
          ((nb.setName a.name).setComponentValues (fixupComponentValues a.prelude)))
        (A.length + 1 + a.prelude.length + (a.body.length + 1) + 2) colon
        (fun x hx => isPlain_of_space (htrail x (List.mem_cons_of_mem _ hx)))
      rw [hA3, ← e3] at hscan
      have := loopRuns_block_next A a.prelude a.body (w2 :: t) w a.name inblock b colon _ nb
        hwf.2.2.1 hwf.2.2.2.1 hwf.2.2.2.2 hnb (fun _ => by simp)
        (by rw [if_pos hw]; exact hscan)
      exact ⟨_, [_], this, sBlock.addChildAtRule_eq _ _, rfl,
        List.Forall₂.cons hrec List.Forall₂.nil⟩
  | cons a2 rest ih =>
    intro a A trail inblock b colon hwf hwfs htrail hparse
    obtain ⟨nb, hnb⟩ := hparse a (List.mem_cons_self _ _)
    have hrec : AtBlock.records
        ((nb.setName a.name).setComponentValues (fixupComponentValues a.prelude)) a :=
      ⟨nb, hnb, rfl⟩
    have hwf2 : a2.WellFormed := hwfs a2 (List.mem_cons_self _ _)
    have hparse2 : ∀ x, x ∈ a2 :: rest → ∃ nb, consumeBlock x.body x.flat = Run.ret nb :=
      fun x hx => hparse x (List.mem_cons_of_mem _ hx)
    have hwfs2 : ∀ x, x ∈ rest → x.WellFormed :=
      fun x hx => hwfs x (List.mem_cons_of_mem _ hx)
    have hcore2 : ∃ R2, a2.core ++ (blocksStream rest ++ trail) =
        ⟨TokenType.AtKeyword, a2.name⟩ :: R2 := ⟨_, a2.core_append _⟩
    obtain ⟨R2, hR2⟩ := hcore2
    have hfin : ∀ (e : LoopExit) (cs2 : List sBlock), e.b = (b.addChildAtRule
          ((nb.setName a.name).setComponentValues
            (fixupComponentValues a.prelude))).addChildAtRules cs2 →
        e.b = b.addChildAtRules
          (((nb.setName a.name).setComponentValues (fixupComponentValues a.prelude)) :: cs2) := by
      intro e cs2 he
      rw [he, sBlock.addChildAtRule_eq, sBlock.addChildAtRules_append]
      rfl
    match hsep : a2.sep, hwf2.1, hwf2.2.1 with
    | [], _, _ =>
      have hs : A ++ (a.core ++ (blocksStream (a2 :: rest) ++ trail)) =
          A ++ (⟨TokenType.AtKeyword, a.name⟩ ::
            (a.prelude ++ braceOpenTok :: (a.body ++ braceCloseTok ::
              ⟨TokenType.AtKeyword, a2.name⟩ :: R2))) := by
        rw [← hR2]
        simp [blocksStream, AtBlock.toks, AtBlock.core, hsep]
      have e3 : A ++ (⟨TokenType.AtKeyword, a.name⟩ ::
            (a.prelude ++ braceOpenTok :: (a.body ++ braceCloseTok ::
              ⟨TokenType.AtKeyword, a2.name⟩ :: R2))) =
          (A ++ (⟨TokenType.AtKeyword, a.name⟩ ::
            (a.prelude ++ braceOpenTok :: (a.body ++ [braceCloseTok])))) ++
            (a2.core ++ (blocksStream rest ++ trail)) := by
        rw [hR2]; simp
      have hA3 : (A ++ (⟨TokenType.AtKeyword, a.name⟩ ::
            (a.prelude ++ braceOpenTok :: (a.body ++ [braceCloseTok])))).length =
          A.length + 1 + a.prelude.length + (a.body.length + 1) + 1 := by
        simp [List.length_append]; omega
      obtain ⟨e, cs2, hrun, hb, hc, hall⟩ := ih a2
        (A ++ (⟨TokenType.AtKeyword, a.name⟩ ::
            (a.prelude ++ braceOpenTok :: (a.body ++ [braceCloseTok])))) trail inblock
        (b.addChildAtRule
          ((nb.setName a.name).setComponentValues (fixupComponentValues a.prelude)))
        colon hwf2 hwfs2 htrail hparse2
      rw [hA3, ← e3] at hrun
      rw [hs]
      have := loopRuns_block_next A a.prelude a.body R2 ⟨TokenType.AtKeyword, a2.name⟩ a.name
        inblock b colon e nb hwf.2.2.1 hwf.2.2.2.1 hwf.2.2.2.2 hnb
        (fun h => TokenType.noConfusion h)
        (by rw [if_neg (fun h => TokenType.noConfusion h)]; exact hrun)
      exact ⟨e, _, this, hfin e cs2 hb, hc, List.Forall₂.cons hrec hall⟩
    | [w], hsp, _ =>
      have hw : w.Typ = TokenType.S := hsp w (List.mem_cons_self _ _)
      have hs : A ++ (a.core ++ (blocksStream (a2 :: rest) ++ trail)) =
          A ++ (⟨TokenType.AtKeyword, a.name⟩ ::
            (a.prelude ++ braceOpenTok :: (a.body ++ braceCloseTok :: w ::
              (⟨TokenType.AtKeyword, a2.name⟩ :: R2)))) := by
        rw [← hR2]
        simp [blocksStream, AtBlock.toks, AtBlock.core, hsep]
      have e3 : A ++ (⟨TokenType.AtKeyword, a.name⟩ ::
            (a.prelude ++ braceOpenTok :: (a.body ++ braceCloseTok :: w ::
              (⟨TokenType.AtKeyword, a2.name⟩ :: R2)))) =
          (A ++ (⟨TokenType.AtKeyword, a.name⟩ ::
            (a.prelude ++ braceOpenTok :: (a.body ++ [braceCloseTok, w])))) ++
            (a2.core ++ (blocksStream rest ++ trail)) := by
        rw [hR2]; simp
      have hA3 : (A ++ (⟨TokenType.AtKeyword, a.name⟩ ::
            (a.prelude ++ braceOpenTok :: (a.body ++ [braceCloseTok, w])))).length =
          A.length + 1 + a.prelude.length + (a.body.length + 1) + 2 := by
        simp [List.length_append]; omega
      obtain ⟨e, cs2, hrun, hb, hc, hall⟩ := ih a2
        (A ++ (⟨TokenType.AtKeyword, a.name⟩ ::
            (a.prelude ++ braceOpenTok :: (a.body ++ [braceCloseTok, w])))) trail inblock
        (b.addChildAtRule
          ((nb.setName a.name).setComponentValues (fixupComponentValues a.prelude)))
        colon hwf2 hwfs2 htrail hparse2
      rw [hA3, ← e3] at hrun
      rw [hs]
      have := loopRuns_block_next A a.prelude a.body (⟨TokenType.AtKeyword, a2.name⟩ :: R2) w
        a.name inblock b colon e nb hwf.2.2.1 hwf.2.2.2.1 hwf.2.2.2.2 hnb
        (fun _ => by simp) (by rw [if_pos hw]; exact hrun)
      exact ⟨e, _, this, hfin e cs2 hb, hc, List.Forall₂.cons hrec hall⟩
    | w :: w2 :: t, _, hle =>
      simp at hle

theorem sBlock.addRules_cons (b : sBlock) (q : qrule) (qs : List qrule) :
    b.addRules (q :: qs) = (b.addRule q).addRules qs := by
  cases b; simp [sBlock.addRules, sBlock.addRule]

/-- The loop of `consumeBlock` over declarations each closed by `;`, with more
tokens after the last `;`: it records the declarations and goes on at the
token after the last `;`, with `start` after one whitespace token. -/
theorem loopRuns_decls_then (ds : List Decl) :
    ∀ (d : Decl) (A R2 : tokenstream) (s : Token) (b : sBlock) (start colon0 : Nat),
      (∀ x, x ∈ d :: ds → x.WellFormed) → (s.Typ = TokenType.S → R2 ≠ []) →
      A.length ≤ start → start ≤ A.length + d.before.length →
      ∃ qs, List.Forall₂ declMatches qs (d :: ds) ∧
        ∀ e, LoopRuns (A ++ (declsStream (d :: ds) ++ s :: R2)) true (b.addRules qs)
            (A.length + (declsStream (d :: ds)).length)
            (if s.Typ = TokenType.S then A.length + (declsStream (d :: ds)).length + 1
              else A.length + (declsStream (d :: ds)).length) 0 e →
          LoopRuns (A ++ (declsStream (d :: ds) ++ s :: R2)) true b A.length start colon0 e := by
  induction ds with
  | nil =>
    intro d A R2 s b start colon0 hwfs hR h1 h2
    have hwf : d.WellFormed := hwfs d (List.mem_cons_self _ _)
    refine ⟨[⟨d.key ++ d.afterKey, d.value ++ d.afterValue⟩],
      List.Forall₂.cons (d.matches_closed hwf) List.Forall₂.nil, ?_⟩
    intro e h
    have hs : A ++ (declsStream [d] ++ s :: R2) =
        A ++ ((d.before ++ (d.key ++ d.afterKey)) ++
          colonTok :: ((d.beforeValue ++ (d.value ++ d.afterValue)) ++ semiTok :: s :: R2)) := by
      simp [declsStream, Decl.toks]
    have hN : A.length + (declsStream [d]).length =
        A.length + (d.before ++ (d.key ++ d.afterKey)).length + 1 +
          (d.beforeValue ++ (d.value ++ d.afterValue)).length + 1 := by
      simp [declsStream, Decl.toks, List.length_append]; omega
    rw [hs, hN] at h
    rw [hs]
    apply loopRuns_decl_semi_next A d.before (d.key ++ d.afterKey)
      (d.beforeValue ++ (d.value ++ d.afterValue)) R2 s b start colon0 e (d.plain_key hwf)
      (d.plain_value hwf) h1 h2 hR
    rw [d.trim_key hwf, d.trim_value hwf, sBlock.addRule_eq]
    exact h
  | cons d2 ds ih =>
    intro d A R2 s b start colon0 hwfs hR h1 h2
    have hwf : d.WellFormed := hwfs d (List.mem_cons_self _ _)
    have hwf2 : d2.WellFormed := hwfs d2 (List.mem_cons_of_mem _ (List.mem_cons_self _ _))
    obtain ⟨s2, R3, hsR, hR3, hsb⟩ := d2.toks_head hwf2 (semiTok :: (declsStream ds ++ s :: R2))
    have hrest : declsStream (d2 :: ds) ++ s :: R2 = s2 :: R3 := by
      rw [← hsR]; simp [declsStream]
    have hA3 : (A ++ ((d.before ++ (d.key ++ d.afterKey)) ++
          colonTok :: ((d.beforeValue ++ (d.value ++ d.afterValue)) ++ [semiTok]))).length =
        A.length + (d.before ++ (d.key ++ d.afterKey)).length + 1 +
          (d.beforeValue ++ (d.value ++ d.afterValue)).length + 1 := by
      simp [List.length_append]; omega
    obtain ⟨qs, hall, hcont⟩ := ih d2
      (A ++ ((d.before ++ (d.key ++ d.afterKey)) ++
          colonTok :: ((d.beforeValue ++ (d.value ++ d.afterValue)) ++ [semiTok])))
      R2 s (b.addRule ⟨d.key ++ d.afterKey, d.value ++ d.afterValue⟩)
      (if s2.Typ = TokenType.S then
          A.length + (d.before ++ (d.key ++ d.afterKey)).length + 1 +
            (d.beforeValue ++ (d.value ++ d.afterValue)).length + 2
        else A.length + (d.before ++ (d.key ++ d.afterKey)).length + 1 +
            (d.beforeValue ++ (d.value ++ d.afterValue)).length + 1)
      0 (fun x hx => hwfs x (List.mem_cons_of_mem _ hx)) hR
      (by rw [hA3]; split_ifs <;> omega)
      (by
        rw [hA3]
        split_ifs with hsS
        · have := hsb hsS
          omega
        · omega)
    refine ⟨⟨d.key ++ d.afterKey, d.value ++ d.afterValue⟩ :: qs,
      List.Forall₂.cons (d.matches_closed hwf) hall, ?_⟩
    intro e h
    have hs : A ++ (declsStream (d :: d2 :: ds) ++ s :: R2) =
        A ++ ((d.before ++ (d.key ++ d.afterKey)) ++
          colonTok :: ((d.beforeValue ++ (d.value ++ d.afterValue)) ++ semiTok :: s2 :: R3)) := by
      rw [← hrest]
      simp [declsStream, Decl.toks]
    have e3 : A ++ ((d.before ++ (d.key ++ d.afterKey)) ++
          colonTok :: ((d.beforeValue ++ (d.value ++ d.afterValue)) ++ semiTok :: s2 :: R3)) =
        (A ++ ((d.before ++ (d.key ++ d.afterKey)) ++
          colonTok :: ((d.beforeValue ++ (d.value ++ d.afterValue)) ++ [semiTok]))) ++
          (declsStream (d2 :: ds) ++ s :: R2) := by
      rw [hrest]; simp
    have hN : A.length + (declsStream (d :: d2 :: ds)).length =
        (A ++ ((d.before ++ (d.key ++ d.afterKey)) ++
          colonTok :: ((d.beforeValue ++ (d.value ++ d.afterValue)) ++ [semiTok]))).length +
          (declsStream (d2 :: ds)).length := by
      rw [hA3]
      simp [declsStream, Decl.toks, List.length_append]; omega
    rw [hs, hN, e3, sBlock.addRules_cons] at h
    have h5 := hcont e h
    rw [hA3, ← e3] at h5
    rw [hs]
    apply loopRuns_decl_semi_next A d.before (d.key ++ d.afterKey)
      (d.beforeValue ++ (d.value ++ d.afterValue)) R3 s2 b start colon0 e (d.plain_key hwf)
      (d.plain_value hwf) h1 h2 (fun _ => hR3)
    rw [d.trim_key hwf, d.trim_value hwf]
    exact h5

theorem consumeBlock_of_loopRuns {toks : tokenstream} {inblock : Bool} {e : LoopExit}
    {node : sBlock} (hlen : ¬ toks.length ≤ 1)
    (hrun : LoopRuns toks inblock sBlock.empty (skipSpaceLoop toks 0) (skipSpaceLoop toks 0) 0 e)
    (hfin : consumeFinish toks e.b e.start e.colon = Run.ret node) :
    consumeBlock toks inblock = Run.ret node := by
  obtain ⟨fuel, hf⟩ := hrun
  refine consumeBlock_eq_of_fuel (?_ : consumeBlockFuel fuel _ _ = _) (by simp)
  unfold consumeBlockFuel consumeBlockWith
  rw [if_neg hlen, hf]
  exact hfin

theorem declsStream_append_trail (ds : List Decl) :
    ∀ (d : Decl) (trail : tokenstream),
      declsStream (d :: ds) ++ trail = declStream d ds (some trail) := by
  induction ds with
  | nil => intro d trail; simp [declsStream, declStream, closingToks]
  | cons d2 ds ih =>
    intro d trail
    have := ih d2 trail
    simp only [declsStream, declStream, List.append_assoc, List.cons_append] at this ⊢
    rw [this]

theorem isSpaces_append {l1 l2 : tokenstream} (h1 : isSpaces l1) (h2 : isSpaces l2) :
    isSpaces (l1 ++ l2) := by
  intro t ht
  rcases List.mem_append.1 ht with h | h
  · exact h1 t h
  · exact h2 t h

theorem forall₂_declMatches_before {qs : List qrule} {d : Decl} {ds : List Decl}
    (bf : tokenstream) (h : List.Forall₂ declMatches qs ({ d with before := bf } :: ds)) :
    List.Forall₂ declMatches qs (d :: ds) := by
  cases h with
  | cons h1 h2 => exact List.Forall₂.cons h1 h2

theorem sBlock.rules_addChildAtRules (b : sBlock) (cs : List sBlock) :
    (b.addChildAtRules cs).rules = b.rules ∧ (b.addChildAtRules cs).blocks = b.blocks ∧
      (b.addChildAtRules cs).childAtRules = b.childAtRules ++ cs := by
  cases b; simp [sBlock.addChildAtRules, sBlock.rules, sBlock.blocks, sBlock.childAtRules]

theorem sBlock.rules_addRules (b : sBlock) (qs : List qrule) :
    (b.addRules qs).rules = b.rules ++ qs ∧ (b.addRules qs).blocks = b.blocks ∧
      (b.addRules qs).childAtRules = b.childAtRules := by
  cases b; simp [sBlock.addRules, sBlock.rules, sBlock.blocks, sBlock.childAtRules]

/-- The parse of a block body made of declarations closed by `;` followed by
nested at-rule blocks: the declarations, and one child at-rule for each
block. -/
theorem consumeBlock_nestedBody (inblock : Bool) (lead trail : tokenstream) (ds : List Decl)
    (bs : List AtBlock) (hlead : isSpaces lead) (htrail : isSpaces trail)
    (hds : ∀ d, d ∈ ds → d.WellFormed) (hbs : ∀ a, a ∈ bs → a.WellFormed)
    (hflat : ds ≠ [] → inblock = true)
    (hparse : ∀ a, a ∈ bs → ∃ nb, consumeBlock a.body a.flat = Run.ret nb) :
    ∃ node, consumeBlock (nestedBody lead ds bs trail) inblock = Run.ret node ∧
      List.Forall₂ declMatches node.rules ds ∧
      List.Forall₂ AtBlock.records node.childAtRules bs ∧ node.blocks = [] := by
  match ds, bs, hds, hbs, hflat, hparse with
  | [], [], _, _, _, _ =>
    refine ⟨sBlock.empty, ?_, List.Forall₂.nil, List.Forall₂.nil, rfl⟩
    have hs : nestedBody lead [] [] trail = lead ++ trail := by
      simp [nestedBody, declsStream, blocksStream]
    rw [hs]
    by_cases hlen : (lead ++ trail).length ≤ 1
    · unfold consumeBlock consumeBlockFuel consumeBlockWith
      rw [if_pos hlen]
    · have hskip : skipSpaceLoop (lead ++ trail) 0 = (lead ++ trail).length := by
        have := skipSpaceLoop_spaces (lead ++ trail) [] (isSpaces_append hlead htrail)
          (by intro t ht; simp at ht) 0
        simpa using this
      refine @consumeBlock_of_loopRuns _ _ ⟨sBlock.empty, (lead ++ trail).length, 0⟩ _ hlen ?_
        (consumeFinish_zero _ _ _)
      rw [hskip]
      exact loopRuns_end _ _ _ _ _ _ rfl
  | [], a :: rest, _, hbs, _, hparse =>
    have hwf : a.WellFormed := hbs a (List.mem_cons_self _ _)
    have hs : nestedBody lead [] (a :: rest) trail =
        (lead ++ a.sep) ++ (a.core ++ (blocksStream rest ++ trail)) := by
      simp [nestedBody, declsStream, blocksStream, AtBlock.toks]
    obtain ⟨e, cs, hrun, hb, hc, hall⟩ := loopRuns_blocks rest a (lead ++ a.sep) trail inblock
      sBlock.empty 0 hwf (fun x hx => hbs x (List.mem_cons_of_mem _ hx)) htrail hparse
    have hskip : skipSpaceLoop ((lead ++ a.sep) ++ (a.core ++ (blocksStream rest ++ trail))) 0 =
        (lead ++ a.sep).length := by
      have := skipSpaceLoop_spaces (lead ++ a.sep) (a.core ++ (blocksStream rest ++ trail))
        (isSpaces_append hlead hwf.1)
        (by
          intro t ht
          rw [a.core_append] at ht
          simp only [List.head?_cons, Option.some.injEq] at ht
          subst ht
          exact fun h => TokenType.noConfusion h) 0
      simpa using this
    have hlen : ¬ ((lead ++ a.sep) ++ (a.core ++ (blocksStream rest ++ trail))).length ≤ 1 := by
      simp only [List.length_append, a.core_length]
      omega
    rw [hs]
    refine ⟨e.b, consumeBlock_of_loopRuns hlen (by rw [hskip]; exact hrun)
      (by rw [hc]; exact consumeFinish_zero _ _ _), ?_, ?_, ?_⟩
    · rw [hb, (sBlock.rules_addChildAtRules _ _).1]
      exact List.Forall₂.nil
    · rw [hb, (sBlock.rules_addChildAtRules _ _).2.2]
      simpa [sBlock.empty, sBlock.childAtRules] using hall
    · rw [hb, (sBlock.rules_addChildAtRules _ _).2.1]
      rfl
  | d :: ds, [], hds, _, hflat, _ =>
    have hin : inblock = true := hflat (by simp)
    subst hin
    have hwf : d.WellFormed := hds d (List.mem_cons_self _ _)
    have hs : nestedBody lead (d :: ds) [] trail =
        declStream { d with before := lead ++ d.before } ds (some trail) := by
      rw [← declsStream_append_trail]
      simp [nestedBody, declsStream, blocksStream, Decl.toks]
    rw [hs]
    obtain ⟨e, qs, hlen, hrun, hfin, hall⟩ := declStream_run
      { d with before := lead ++ d.before } ds (some trail)
      (by
        intro x hx
        rcases List.mem_cons.1 hx with h | h
        · rw [h]; exact ⟨isSpaces_append hlead hwf.1, hwf.2⟩
        · exact hds x (List.mem_cons_of_mem _ h))
      (by intro ws h; cases h; exact htrail)
    exact ⟨sBlock.empty.addRules qs, consumeBlock_of_loopRuns hlen hrun hfin,
      forall₂_declMatches_before _ hall, List.Forall₂.nil, rfl⟩
  | d :: ds, a :: rest, hds, hbs, hflat, hparse =>
    have hin : inblock = true := hflat (by simp)
    subst hin
    have hwf : d.WellFormed := hds d (List.mem_cons_self _ _)
    have hwfa : a.WellFormed := hbs a (List.mem_cons_self _ _)
    have hd0 : Decl.WellFormed { d with before := [] } :=
      ⟨by intro t ht; simp at ht, hwf.2⟩
    have hds0 : ∀ x, x ∈ ({ d with before := [] } : Decl) :: ds → x.WellFormed := by
      intro x hx
      rcases List.mem_cons.1 hx with h | h
      · rw [h]; exact hd0
      · exact hds x (List.mem_cons_of_mem _ h)
    obtain ⟨s0, R0, hs0, hR0, hsb0⟩ := Decl.toks_head { d with before := [] } hd0
      (semiTok :: (declsStream ds ++ (a.sep ++ (a.core ++ (blocksStream rest ++ trail)))))
    have hs : nestedBody lead (d :: ds) (a :: rest) trail =
        (lead ++ d.before) ++ (declsStream ({ d with before := [] } :: ds) ++
          (a.sep ++ (a.core ++ (blocksStream rest ++ trail)))) := by
      simp [nestedBody, declsStream, blocksStream, AtBlock.toks, Decl.toks]
    have hskip : skipSpaceLoop ((lead ++ d.before) ++
          (declsStream ({ d with before := [] } :: ds) ++
            (a.sep ++ (a.core ++ (blocksStream rest ++ trail))))) 0 =
        (lead ++ d.before).length := by
      have := skipSpaceLoop_spaces (lead ++ d.before)
        (declsStream ({ d with before := [] } :: ds) ++
            (a.sep ++ (a.core ++ (blocksStream rest ++ trail))))
        (isSpaces_append hlead hwf.1)
        (by
          intro t ht
          have e : declsStream ({ d with before := [] } :: ds) ++
              (a.sep ++ (a.core ++ (blocksStream rest ++ trail))) = s0 :: R0 := by
            rw [← hs0]; simp [declsStream]
          rw [e] at ht
          simp only [List.head?_cons, Option.some.injEq] at ht
          subst ht
          intro hS
          have := hsb0 hS
          simp at this) 0
      simpa using this
    have hlen : ¬ ((lead ++ d.before) ++
          (declsStream ({ d with before := [] } :: ds) ++
            (a.sep ++ (a.core ++ (blocksStream rest ++ trail))))).length ≤ 1 := by
      simp only [List.length_append, a.core_length]
      omega
    rw [hs]
    have hfinish : ∀ (e : LoopExit) (qs : List qrule) (cs : List sBlock),
        LoopRuns ((lead ++ d.before) ++
          (declsStream ({ d with before := [] } :: ds) ++
            (a.sep ++ (a.core ++ (blocksStream rest ++ trail))))) true sBlock.empty
          (lead ++ d.before).length (lead ++ d.before).length 0 e →
        e.b = (sBlock.empty.addRules qs).addChildAtRules cs → e.colon = 0 →
        List.Forall₂ declMatches qs ({ d with before := [] } :: ds) →
        List.Forall₂ AtBlock.records cs (a :: rest) →
        ∃ node, consumeBlock ((lead ++ d.before) ++
          (declsStream ({ d with before := [] } :: ds) ++
            (a.sep ++ (a.core ++ (blocksStream rest ++ trail))))) true = Run.ret node ∧
          List.Forall₂ declMatches node.rules (d :: ds) ∧
          List.Forall₂ AtBlock.records node.childAtRules (a :: rest) ∧ node.blocks = [] := by
      intro e qs cs hrun hb hc hq hcs
      refine ⟨e.b, consumeBlock_of_loopRuns hlen (by rw [hskip]; exact hrun)
        (by rw [hc]; exact consumeFinish_zero _ _ _), ?_, ?_, ?_⟩
      · rw [hb, (sBlock.rules_addChildAtRules _ _).1, (sBlock.rules_addRules _ _).1]
        simpa [sBlock.empty, sBlock.rules] using forall₂_declMatches_before _ hq
      · rw [hb, (sBlock.rules_addChildAtRules _ _).2.2, (sBlock.rules_addRules _ _).2.2]
        simpa [sBlock.empty, sBlock.childAtRules] using hcs
      · rw [hb, (sBlock.rules_addChildAtRules _ _).2.1, (sBlock.rules_addRules _ _).2.1]
        rfl
    match hsep : a.sep, hwfa.1, hwfa.2.1 with
    | [], _, _ =>
      obtain ⟨qs, hq, hcont⟩ := loopRuns_decls_then ds { d with before := [] }
        (lead ++ d.before)
        (a.prelude ++ braceOpenTok :: (a.body ++ braceCloseTok :: (blocksStream rest ++ trail)))
        ⟨TokenType.AtKeyword, a.name⟩ sBlock.empty (lead ++ d.before).length 0 hds0
        (fun h => TokenType.noConfusion h) (le_refl _) (by simp)
      obtain ⟨e, cs, hrun, hb, hc, hcs⟩ := loopRuns_blocks rest a
        ((lead ++ d.before) ++ declsStream ({ d with before := [] } :: ds)) trail true
        (sBlock.empty.addRules qs) 0 hwfa (fun x hx => hbs x (List.mem_cons_of_mem _ hx))
        htrail hparse
      have e1 : (lead ++ d.before) ++ declsStream ({ d with before := [] } :: ds) ++
            (a.core ++ (blocksStream rest ++ trail)) =
          (lead ++ d.before) ++ (declsStream ({ d with before := [] } :: ds) ++
            ⟨TokenType.AtKeyword, a.name⟩ :: (a.prelude ++ braceOpenTok ::
              (a.body ++ braceCloseTok :: (blocksStream rest ++ trail)))) := by
        rw [a.core_append]; simp
      rw [e1, List.length_append] at hrun
      have h5 := hcont e (by rw [if_neg (fun h => TokenType.noConfusion h)]; exact hrun)
      rw [← a.core_append] at h5
      rw [hsep] at hfinish
      simp only [List.nil_append] at hfinish
      exact hfinish e qs cs h5 hb hc hq hcs
    | [w], hsp, _ =>
      have hw : w.Typ = TokenType.S := hsp w (List.mem_cons_self _ _)
      obtain ⟨qs, hq, hcont⟩ := loopRuns_decls_then ds { d with before := [] }
        (lead ++ d.before) (a.core ++ (blocksStream rest ++ trail)) w sBlock.empty
        (lead ++ d.before).length 0 hds0
        (fun _ => by rw [a.core_append]; simp) (le_refl _) (by simp)
      obtain ⟨e, cs, hrun, hb, hc, hcs⟩ := loopRuns_blocks rest a
        ((lead ++ d.before) ++ (declsStream ({ d with before := [] } :: ds) ++ [w])) trail true
        (sBlock.empty.addRules qs) 0 hwfa (fun x hx => hbs x (List.mem_cons_of_mem _ hx))
        htrail hparse
      have e1 : (lead ++ d.before) ++ (declsStream ({ d with before := [] } :: ds) ++ [w]) ++
            (a.core ++ (blocksStream rest ++ trail)) =
          ((lead ++ d.before) ++ declsStream ({ d with before := [] } :: ds)) ++
            ([w] ++ (a.core ++ (blocksStream rest ++ trail))) := by simp
      have hA1 : ((lead ++ d.before) ++
            (declsStream ({ d with before := [] } :: ds) ++ [w])).length =
          ((lead ++ d.before) ++ declsStream ({ d with before := [] } :: ds)).length +
            ([w] : tokenstream).length := by
        simp [List.length_append]; omega
      rw [e1, hA1] at hrun
      have hstep := loopRuns_scan [w]
        ((lead ++ d.before) ++ declsStream ({ d with before := [] } :: ds))
        (a.core ++ (blocksStream rest ++ trail)) true (sBlock.empty.addRules qs)
        (((lead ++ d.before) ++ declsStream ({ d with before := [] } :: ds)).length +
          ([w] : tokenstream).length) 0 e
        (fun t ht => isPlain_of_space (by rw [List.mem_singleton.1 ht]; exact hw))
        (by rw [a.core_append]; simp) hrun
      have e2 : ((lead ++ d.before) ++ declsStream ({ d with before := [] } :: ds)) ++
            ([w] ++ (a.core ++ (blocksStream rest ++ trail))) =
          (lead ++ d.before) ++ (declsStream ({ d with before := [] } :: ds) ++
            w :: (a.core ++ (blocksStream rest ++ trail))) := by simp
      rw [e2, List.length_append, List.length_singleton] at hstep
      have h5 := hcont e (by rw [if_pos hw]; exact hstep)
      have e3 : (lead ++ d.before) ++ (declsStream ({ d with before := [] } :: ds) ++
            w :: (a.core ++ (blocksStream rest ++ trail))) =
          (lead ++ d.before) ++ (declsStream ({ d with before := [] } :: ds) ++
            ([w] ++ (a.core ++ (blocksStream rest ++ trail)))) := by simp
      rw [e3] at h5
      rw [hsep] at hfinish
      exact hfinish e qs cs h5 hb hc hq hcs
    | w :: w2 :: t, _, hle =>
      simp at hle

theorem sBlock.fields_set (nb : sBlock) (name : String) (cv : tokenstream) :
    ((nb.setName name).setComponentValues cv).name = name ∧
      ((nb.setName name).setComponentValues cv).childAtRules = nb.childAtRules ∧
      ((nb.setName name).setComponentValues cv).blocks = nb.blocks ∧
      ((nb.setName name).setComponentValues cv).rules = nb.rules := by
  cases nb
  simp [sBlock.setName, sBlock.setComponentValues, sBlock.name, sBlock.childAtRules,
    sBlock.blocks, sBlock.rules]

theorem records_names {cs : List sBlock} {bs : List AtBlock}
    (h : List.Forall₂ AtBlock.records cs bs) :
    cs.map sBlock.name = bs.map AtBlock.name := by
  induction h with
  | nil => rfl
  | cons hab _ ih =>
    obtain ⟨nb, _, hc⟩ := hab
    simp only [List.map_cons, ih, hc, (sBlock.fields_set nb _ _).1]

/-- The structure of nested at-rules: on a stream that consists of one at-rule
block whose body holds declarations closed by `;` followed by nested at-rule
blocks, `consumeBlock(toks, false)` returns a node with exactly one child
at-rule, named by the at-keyword, whose child at-rules are named, in order, by
the at-keywords of the nested blocks, and which has no nested block. This holds
when `consumeBlock` returns on the body of every nested block, at most one
whitespace token stands before each nested at-keyword, the preludes are free of
the delimiters `:`, `;`, `{`, and the at-keyword is neither `media` nor
`supports` if there are declarations. -/
theorem consumeBlock_nested_atrules (ws wsEnd prelude lead trail : tokenstream)
    (name : String) (ds : List Decl) (bs : List AtBlock) (hws : isSpaces ws)
    (hwsEnd : isSpaces wsEnd) (hprel : ∀ t, t ∈ prelude → isPlain t) (hlead : isSpaces lead)
    (htrail : isSpaces trail) (hds : ∀ d, d ∈ ds → d.WellFormed)
    (hbs : ∀ a, a ∈ bs → a.WellFormed) (hne : nestedBody lead ds bs trail ≠ [])
    (hbal : balanced (nestedBody lead ds bs trail))
    (hflat : ds ≠ [] → ¬ (name = "media" ∨ name = "supports"))
    (hparse : ∀ a, a ∈ bs → ∃ nb, consumeBlock a.body a.flat = Run.ret nb) :
    ∃ node child,
      consumeBlock (atRuleStream ws name prelude (nestedBody lead ds bs trail) wsEnd) false =
        Run.ret node ∧
      node.childAtRules = [child] ∧ node.blocks = [] ∧ child.name = name ∧
      child.childAtRules.map sBlock.name = bs.map AtBlock.name ∧ child.blocks = [] ∧
      List.Forall₂ declMatches child.rules ds := by
  obtain ⟨nbIn, hIn, hrulesIn, hrecIn, hblIn⟩ := consumeBlock_nestedBody
    (AtBlock.flat ⟨[], name, prelude, nestedBody lead ds bs trail⟩) lead trail ds bs hlead
    htrail hds hbs (fun h => by simp [AtBlock.flat, hflat h]) hparse
  obtain ⟨node, hnode, _, hrec, hbl⟩ := consumeBlock_nestedBody false ws wsEnd []
    [⟨[], name, prelude, nestedBody lead ds bs trail⟩] hws hwsEnd (by intro d hd; simp at hd)
    (by
      intro a ha
      rw [List.mem_singleton.1 ha]
      exact ⟨by intro t ht; simp at ht, by simp, hprel, hne, hbal⟩)
    (by simp)
    (by
      intro a ha
      rw [List.mem_singleton.1 ha]
      exact ⟨nbIn, hIn⟩)
  have hs : nestedBody ws [] [⟨[], name, prelude, nestedBody lead ds bs trail⟩] wsEnd =
      atRuleStream ws name prelude (nestedBody lead ds bs trail) wsEnd := by
    simp [nestedBody, atRuleStream, declsStream, blocksStream, AtBlock.toks]
  rw [hs] at hnode
  obtain ⟨cs, hcs⟩ : ∃ cs, node.childAtRules = cs := ⟨_, rfl⟩
  rw [hcs] at hrec
  cases hrec with
  | cons hab htl =>
    cases htl
    obtain ⟨nb, hnb, hc⟩ := hab
    have hnbIn : nb = nbIn := by
      have := hnb.symm.trans hIn
      exact Run.ret.inj this
    subst hnbIn
    refine ⟨node, _, hnode, hcs, hbl, ?_, ?_, ?_, ?_⟩
    · rw [hc]; exact (sBlock.fields_set nb _ _).1
    · rw [hc, (sBlock.fields_set nb _ _).2.1]; exact records_names hrecIn
    · rw [hc, (sBlock.fields_set nb _ _).2.2.1]; exact hblIn
    · rw [hc, (sBlock.fields_set nb _ _).2.2.2]; exact hrulesIn

/-- The structure of nested at-rules on the tokens of
`@page { size: a5; @brc { border: x; } @trc { y } }`. -/
theorem consumeBlock_nested_atrules_example :
    ∃ node child,
      consumeBlock
          (atRuleStream [⟨TokenType.S, " "⟩] "page" [⟨TokenType.S, " "⟩]
            (nestedBody [⟨TokenType.S, " "⟩]
              [⟨[], [⟨TokenType.Ident, "size"⟩], [], [⟨TokenType.S, " "⟩],
                [⟨TokenType.Ident, "a5"⟩], []⟩]
              [⟨[⟨TokenType.S, " "⟩], "brc", [⟨TokenType.S, " "⟩],
                 [⟨TokenType.S, " "⟩, ⟨TokenType.Ident, "border"⟩, ⟨TokenType.Delim, ":"⟩,
                  ⟨TokenType.S, " "⟩, ⟨TokenType.Ident, "x"⟩, ⟨TokenType.Delim, ";"⟩,
                  ⟨TokenType.S, " "⟩]⟩,
               ⟨[⟨TokenType.S, " "⟩], "trc", [⟨TokenType.S, " "⟩],
                 [⟨TokenType.S, " "⟩, ⟨TokenType.Ident, "y"⟩, ⟨TokenType.S, " "⟩]⟩]
              [⟨TokenType.S, " "⟩]) []) false = Run.ret node ∧
      node.childAtRules = [child] ∧ node.blocks = [] ∧ child.name = "page" ∧
      child.childAtRules.map sBlock.name = ["brc", "trc"] ∧ child.blocks = [] ∧
      List.Forall₂ declMatches child.rules
        [⟨[], [⟨TokenType.Ident, "size"⟩], [], [⟨TokenType.S, " "⟩],
          [⟨TokenType.Ident, "a5"⟩], []⟩] :=
  consumeBlock_nested_atrules _ _ _ _ _ _ _ _
    (by simp [isSpaces]) (by simp [isSpaces])
    (by intro t ht; rw [List.mem_singleton.1 ht]; exact isPlain_of_space rfl)
    (by simp [isSpaces]) (by simp [isSpaces])
    (by
      intro d hd
      rw [List.mem_singleton.1 hd]
      simp [Decl.WellFormed, isSpaces, noLeadingSpace, isPlain])
    (by
      intro a ha
      simp only [List.mem_cons, List.mem_singleton, List.not_mem_nil, or_false] at ha
      rcases ha with h | h <;> subst h <;>
        refine ⟨by simp [isSpaces], by simp, by simp [isPlain], by simp, ?_⟩ <;>
        unfold balanced <;> decide)
    (by simp [nestedBody])
    (by unfold balanced; decide)
    (by simp)
    (by
      intro a ha
      simp only [List.mem_cons, List.mem_singleton, List.not_mem_nil, or_false] at ha
      rcases ha with h | h <;> subst h <;> exact ⟨_, rfl⟩)

/-! ### The `@font-face` extractor -/

theorem srcLoop_length (toks : tokenstream) :
    ∀ (src : FontSource) (sources : List FontSource) (src2 : FontSource)
      (sources2 : List FontSource),
      srcLoop src sources toks = some (src2, sources2) →
      sources2.length = sources.length + toks.countP isCommaTok := by
  induction toks with
  | nil =>
    intro src sources src2 sources2 h
    simp only [srcLoop, Option.some.injEq, Prod.mk.injEq] at h
    simp [← h.2]
  | cons v rest ih =>
    intro src sources src2 sources2 h
    rw [srcLoop] at h
    rw [List.countP_cons]
    have hother : v.Typ ≠ TokenType.Delim →
        ∀ src sources, srcLoop src sources rest = some (src2, sources2) →
          sources2.length = sources.length +
            (rest.countP isCommaTok + if isCommaTok v = true then 1 else 0) := by
      intro hty src sources h2
      have h3 := ih _ _ _ _ h2
      simp only [isCommaTok, hty, false_and, decide_False, Bool.false_eq_true, if_false,
        add_zero]
      exact h3
    cases hty : v.Typ <;> simp only [hty] at h <;>
      first
      | exact absurd h (by simp)
      | exact hother (by rw [hty]; decide) _ _ h
      | skip
    split at h
    · rename_i hv
      have h3 := ih _ _ _ _ h
      simp only [List.length_append, List.length_singleton] at h3
      simp only [isCommaTok, hty, hv, and_self, decide_True, if_true]
      omega
    · rename_i hv
      have h3 := ih _ _ _ _ h
      simp only [isCommaTok, hty, hv, and_false, decide_False]
      simpa using h3

theorem fontFaceRule_source (ext : Externals) (f f2 : FontFace) (rule : qrule)
    (h : fontFaceRule ext f rule = Run.ret (Except.ok f2)) :
    f2.Source.length =
      f.Source.length + (if isSrcRule rule then 1 + rule.value.countP isCommaTok else 0) := by
  unfold fontFaceRule at h
  dsimp only at h
  unfold isSrcRule
  by_cases hsrc : goTrimSpace (tokenstream.String rule.key) = "src"
  · simp only [hsrc, decide_True, if_true]
    rw [hsrc] at h
    rw [if_neg (by decide), if_neg (by decide), if_neg (by decide), if_pos rfl] at h
    split at h
    · rename_i src sources hs
      have := srcLoop_length _ _ _ _ _ hs
      simp only [Run.ret.injEq, Except.ok.injEq] at h
      subst h
      simp only [List.length_append, List.length_singleton]
      omega
    · simp at h
  · simp only [hsrc, decide_False, if_false, Bool.false_eq_true, add_zero]
    split_ifs at h
    all_goals
      first
      | (simp only [Run.ret.injEq, Except.ok.injEq] at h; subst h; rfl)
      | (split at h
         · simp only [Run.ret.injEq, Except.ok.injEq] at h; subst h; rfl
         · split at h <;>
             (simp only [Run.ret.injEq, Except.ok.injEq] at h; subst h; rfl))

theorem doFontFaceLoop_source (ext : Externals) (ff : List qrule) :
    ∀ (f f2 : FontFace), doFontFaceLoop ext f ff = Run.ret (Except.ok f2) →
      f2.Source.length = f.Source.length + srcCount ff := by
  induction ff with
  | nil =>
    intro f f2 h
    simp only [doFontFaceLoop, Run.ret.injEq, Except.ok.injEq] at h
    subst h
    simp [srcCount]
  | cons rule rest ih =>
    intro f f2 h
    rw [doFontFaceLoop] at h
    split at h
    · rename_i f1 hf1
      have h1 := fontFaceRule_source ext f f1 rule hf1
      have h2 := ih f1 f2 h
      rw [h2, h1]
      unfold srcCount
      rw [List.filter_cons]
      split_ifs
      · simp; omega
      · simp
    · rename_i hne
      exact absurd h (hne f2)

/-- C10: when `doFontFace` succeeds on a declaration list, it appends one font
face, and the number of its `Source` entries is the sum, over the `src`
declarations, of one plus the number of `,` delimiter tokens of the value. -/
theorem doFontFace_source_count (ext : Externals) (c c2 : CSS) (ff : List qrule)
    (h : doFontFace ext c ff = Run.ret (c2, none)) :
    ∃ f, c2.FontFaces = c.FontFaces ++ [f] ∧ f.Source.length = srcCount ff := by
  unfold doFontFace at h
  split at h
  · rename_i f hf
    simp only [Run.ret.injEq, Prod.mk.injEq, and_true] at h
    subst h
    refine ⟨f, rfl, ?_⟩
    have := doFontFaceLoop_source ext ff _ f hf
    simpa using this
  · simp at h
  · simp at h
  · simp at h

/-- C10 on the declarations of `src: local(T), url(c)` followed by
`font-style: italic`: one comma, two sources. -/
theorem doFontFace_source_count_witness :
    ∃ f, [({ Weight := 400, Style := "italic",
             Source := [{ Local := "T" }, { Local := "T", URI := "c" }] } : FontFace)] =
        [] ++ [f] ∧
      f.Source.length =
        srcCount
          [⟨[⟨TokenType.Ident, "src"⟩],
            [⟨TokenType.S, " "⟩, ⟨TokenType.Local, "T"⟩, ⟨TokenType.Delim, ","⟩,
             ⟨TokenType.S, " "⟩, ⟨TokenType.URI, "c"⟩]⟩,
           ⟨[⟨TokenType.Ident, "font-style"⟩], [⟨TokenType.Ident, "italic"⟩]⟩] :=
  doFontFace_source_count ⟨tokenstream.String, fun _ => true⟩ {}
    { FontFaces := [{ Weight := 400, Style := "italic",
                      Source := [{ Local := "T" }, { Local := "T", URI := "c" }] }] }
    [⟨[⟨TokenType.Ident, "src"⟩],
      [⟨TokenType.S, " "⟩, ⟨TokenType.Local, "T"⟩, ⟨TokenType.Delim, ","⟩,
       ⟨TokenType.S, " "⟩, ⟨TokenType.URI, "c"⟩]⟩,
     ⟨[⟨TokenType.Ident, "font-style"⟩], [⟨TokenType.Ident, "italic"⟩]⟩]
    rfl

/-! ### `doFontFace`: sources, weight, errors -/

/-- C11: on the `src` value of the test `TestFontFace`,
`local(Trickster), url(1) format(opentype) tech(color-COLRv1),
url(2) format(opentype), url(3) format(woff)`, `doFontFace` gives four sources
of which the later ones keep the descriptors of the earlier segments: the
second has `Local` `Trickster`, the third and the fourth have the `Tech` of the
second.  The current source is not emptied at a comma. -/
theorem doFontFace_src_carries_over (ext : Externals) :
    doFontFace ext {}
        [⟨[⟨TokenType.Ident, "src"⟩],
          [⟨TokenType.Local, "Trickster"⟩, ⟨TokenType.Delim, ","⟩, ⟨TokenType.S, " "⟩,
           ⟨TokenType.URI, "1"⟩, ⟨TokenType.S, " "⟩, ⟨TokenType.Format, "opentype"⟩,
           ⟨TokenType.S, " "⟩, ⟨TokenType.Tech, "color-COLRv1"⟩, ⟨TokenType.Delim, ","⟩,
           ⟨TokenType.S, " "⟩, ⟨TokenType.URI, "2"⟩, ⟨TokenType.S, " "⟩,
           ⟨TokenType.Format, "opentype"⟩, ⟨TokenType.Delim, ","⟩, ⟨TokenType.S, " "⟩,
           ⟨TokenType.URI, "3"⟩, ⟨TokenType.S, " "⟩, ⟨TokenType.Format, "woff"⟩]⟩] =
      Run.ret
        ({ FontFaces :=
            [{ Weight := 400
               Source :=
                [{ Local := "Trickster" },
                 { Local := "Trickster", URI := "1", Format := "opentype",
                   Tech := "color-COLRv1" },
                 { Local := "Trickster", URI := "2", Format := "opentype",
                   Tech := "color-COLRv1" },
                 { Local := "Trickster", URI := "3", Format := "woff",
                   Tech := "color-COLRv1" }] }] }, none) :=
  rfl

theorem weightKeyword_eq_table (v : String) :
    weightKeyword v = mapGet specWeightTable v := by
  by_cases h0 : v = "thin"
  · subst h0; rfl
  by_cases h1 : v = "hairline"
  · subst h1; rfl
  by_cases h2 : v = "extra light"
  · subst h2; rfl
  by_cases h3 : v = "ultra light"
  · subst h3; rfl
  by_cases h4 : v = "light"
  · subst h4; rfl
  by_cases h5 : v = "normal"
  · subst h5; rfl
  by_cases h6 : v = "medium"
  · subst h6; rfl
  by_cases h7 : v = "semi bold"
  · subst h7; rfl
  by_cases h8 : v = "demi bold"
  · subst h8; rfl
  by_cases h9 : v = "bold"
  · subst h9; rfl
  by_cases h10 : v = "extra bold"
  · subst h10; rfl
  by_cases h11 : v = "ultra bold"
  · subst h11; rfl
  by_cases h12 : v = "black"
  · subst h12; rfl
  by_cases h13 : v = "heavy"
  · subst h13; rfl
  have g0 : ¬ "thin" = v := fun h => h0 h.symm
  have g1 : ¬ "hairline" = v := fun h => h1 h.symm
  have g2 : ¬ "extra light" = v := fun h => h2 h.symm
  have g3 : ¬ "ultra light" = v := fun h => h3 h.symm
  have g4 : ¬ "light" = v := fun h => h4 h.symm
  have g5 : ¬ "normal" = v := fun h => h5 h.symm
  have g6 : ¬ "medium" = v := fun h => h6 h.symm
  have g7 : ¬ "semi bold" = v := fun h => h7 h.symm
  have g8 : ¬ "demi bold" = v := fun h => h8 h.symm
  have g9 : ¬ "bold" = v := fun h => h9 h.symm
  have g10 : ¬ "extra bold" = v := fun h => h10 h.symm
  have g11 : ¬ "ultra bold" = v := fun h => h11 h.symm
  have g12 : ¬ "black" = v := fun h => h12 h.symm
  have g13 : ¬ "heavy" = v := fun h => h13 h.symm
  unfold weightKeyword specWeightTable
  simp only [mapGet, h0, h1, h2, h3, h4, h5, h6, h7, h8, h9, h10, h11, h12, h13,
    g0, g1, g2, g3, g4, g5, g6, g7, g8, g9, g10, g11, g12, g13, or_self, if_false]

theorem fontFaceRule_weight (ext : Externals) (f f2 : FontFace) (rule : qrule)
    (h : fontFaceRule ext f rule = Run.ret (Except.ok f2)) :
    f2.Weight =
      if isWeightRule rule then specWeightFrom f.Weight (ruleValue ext rule) else f.Weight := by
  unfold fontFaceRule at h
  dsimp only at h
  unfold isWeightRule
  by_cases hw : goTrimSpace (tokenstream.String rule.key) = "font-weight"
  · simp only [hw, decide_True, if_true]
    rw [hw] at h
    rw [if_neg (by decide), if_neg (by decide), if_pos rfl] at h
    unfold specWeightFrom ruleValue
    rw [← weightKeyword_eq_table]
    split at h
    · simp only [Run.ret.injEq, Except.ok.injEq] at h
      subst h
      rfl
    · split at h
      · rename_i w hk
        simp only [Run.ret.injEq, Except.ok.injEq] at h
        subst h
        rw [hk]; rfl
      · rename_i hk
        simp only [Run.ret.injEq, Except.ok.injEq] at h
        subst h
        rw [hk]; rfl
  · simp only [hw, decide_False, if_false, Bool.false_eq_true]
    split_ifs at h
    all_goals
      first
      | (simp only [Run.ret.injEq, Except.ok.injEq] at h; subst h; rfl)
      | (split at h
         · simp only [Run.ret.injEq, Except.ok.injEq] at h; subst h; rfl
         · simp at h)

theorem doFontFaceLoop_weight (ext : Externals) (ff : List qrule) :
    ∀ (f f2 : FontFace), doFontFaceLoop ext f ff = Run.ret (Except.ok f2) →
      f2.Weight =
        ((ff.filter isWeightRule).map (ruleValue ext)).foldl specWeightFrom f.Weight := by
  induction ff with
  | nil =>
    intro f f2 h
    simp only [doFontFaceLoop, Run.ret.injEq, Except.ok.injEq] at h
    subst h
    rfl
  | cons rule rest ih =>
    intro f f2 h
    rw [doFontFaceLoop] at h
    split at h
    · rename_i f1 hf1
      have h1 := fontFaceRule_weight ext f f1 rule hf1
      rw [ih f1 f2 h, h1, List.filter_cons]
      split_ifs <;> rfl
    · rename_i hne
      exact absurd h (hne f2)

theorem foldl_decimal (ds : List Char) :
    ∀ a : Nat, ds.foldl (fun a c => 10 * a + (c.toNat - 48)) a =
      a * 10 ^ ds.length + decimalValue ds := by
  induction ds with
  | nil => intro a; simp [decimalValue]
  | cons c cs ih =>
    intro a
    rw [List.foldl_cons, ih, decimalValue, List.length_cons, pow_succ]
    ring

theorem decimalValue_lt (ds : List Char) (h : ∀ c, c ∈ ds → isDigitRune c = true) :
    decimalValue ds < 10 ^ ds.length := by
  induction ds with
  | nil => simp [decimalValue]
  | cons c cs ih =>
    have hc : c.toNat - 48 ≤ 9 := by
      have := h c (List.mem_cons_self _ _)
      unfold isDigitRune at this
      simp only [decide_eq_true_eq] at this
      omega
    have h2 := ih (fun x hx => h x (List.mem_cons_of_mem _ hx))
    rw [decimalValue, List.length_cons, pow_succ]
    nlinarith [Nat.mul_le_mul_right (10 ^ cs.length) hc]

/-- `strconv.Atoi` on a plain decimal numeral gives the number it writes. -/
theorem goAtoi_decimal (s : String) (h : isDecimal s.data) :
    goAtoi s = some (decimalValue s.data : Int) := by
  obtain ⟨hne, hdig, hlen⟩ := h
  have hminus : ¬ s.data.head? = some '-' := by
    intro hh
    exact absurd (hdig _ (List.mem_of_mem_head? hh)) (by decide)
  have hplus : ¬ s.data.head? = some '+' := by
    intro hh
    exact absurd (hdig _ (List.mem_of_mem_head? hh)) (by decide)
  have hall : s.data.all isDigitRune = true := List.all_eq_true.2 hdig
  have hlt : decimalValue s.data < 10 ^ 18 :=
    lt_of_lt_of_le (decimalValue_lt _ hdig) (Nat.pow_le_pow_right (by decide) hlen)
  unfold goAtoi
  simp only [hminus, hplus, or_self, if_false, decide_False, hne, hall, not_true_eq_false,
    Bool.false_eq_true, false_or]
  rw [foldl_decimal, Nat.zero_mul, Nat.zero_add]
  rw [if_pos]
  constructor
  · have : (0 : Int) ≤ (decimalValue s.data : Int) := Int.natCast_nonneg _
    omega
  · have : (decimalValue s.data : Int) < 10 ^ 18 := by exact_mod_cast hlt
    omega

theorem specWeightFrom_decimal (w : Int) (v : String) (h : isDecimal v.data) :
    specWeightFrom w v = (decimalValue v.data : Int) := by
  unfold specWeightFrom
  rw [goAtoi_decimal v h]

/-- C12: when `doFontFace` succeeds it appends a font face whose weight is 400
if the list has no `font-weight` declaration, and, if it has one `font-weight`
declaration, with the trimmed value `v`: the integer that `v` parses as, else
the entry of the lower-cased `v` in the keyword table of the specification,
else 400 (`specWeight`); in particular the number that `v` writes when `v` is
a plain decimal numeral. -/
theorem doFontFace_weight (ext : Externals) (c c2 : CSS) (ff : List qrule)
    (h : doFontFace ext c ff = Run.ret (c2, none)) :
    ∃ f, c2.FontFaces = c.FontFaces ++ [f] ∧
      (ff.filter isWeightRule = [] → f.Weight = 400) ∧
      (∀ rule, ff.filter isWeightRule = [rule] →
        f.Weight = specWeight (ruleValue ext rule)) ∧
      (∀ rule, ff.filter isWeightRule = [rule] → isDecimal (ruleValue ext rule).data →
        f.Weight = (decimalValue (ruleValue ext rule).data : Int)) := by
  unfold doFontFace at h
  split at h
  · rename_i f hf
    simp only [Run.ret.injEq, Prod.mk.injEq, and_true] at h
    subst h
    have hw := doFontFaceLoop_weight ext ff _ f hf
    refine ⟨f, rfl, ?_, ?_, ?_⟩
    · intro h0
      rw [hw, h0]
      rfl
    · intro rule h1
      rw [hw, h1]
      rfl
    · intro rule h1 hd
      rw [hw, h1]
      exact specWeightFrom_decimal 400 _ hd
  · simp at h
  · simp at h
  · simp at h

/-- C12 on the declarations `font-weight: 650` (the weight is 650) and
`font-style: italic; font-weight: Bold` (the weight is 700), read through
`sampleExternals`. -/
theorem doFontFace_weight_witness :
    (∃ f, [({ Weight := 650 } : FontFace)] = [] ++ [f] ∧
      (([⟨[⟨TokenType.Ident, "font-weight"⟩], [⟨TokenType.Number, "650"⟩]⟩] :
          List qrule).filter isWeightRule = [] → f.Weight = 400) ∧
      (∀ rule,
        ([⟨[⟨TokenType.Ident, "font-weight"⟩], [⟨TokenType.Number, "650"⟩]⟩] :
          List qrule).filter isWeightRule = [rule] →
        f.Weight = specWeight (ruleValue sampleExternals rule)) ∧
      (∀ rule,
        ([⟨[⟨TokenType.Ident, "font-weight"⟩], [⟨TokenType.Number, "650"⟩]⟩] :
          List qrule).filter isWeightRule = [rule] →
        isDecimal (ruleValue sampleExternals rule).data →
        f.Weight = (decimalValue (ruleValue sampleExternals rule).data : Int))) ∧
    (∃ f, [({ Weight := 700, Style := "italic" } : FontFace)] = [] ++ [f] ∧
      (([⟨[⟨TokenType.Ident, "font-style"⟩], [⟨TokenType.Ident, "italic"⟩]⟩,
          ⟨[⟨TokenType.Ident, "font-weight"⟩], [⟨TokenType.Ident, "Bold"⟩]⟩] :
            List qrule).filter isWeightRule = [] → f.Weight = 400) ∧
      (∀ rule,
        ([⟨[⟨TokenType.Ident, "font-style"⟩], [⟨TokenType.Ident, "italic"⟩]⟩,
          ⟨[⟨TokenType.Ident, "font-weight"⟩], [⟨TokenType.Ident, "Bold"⟩]⟩] :
            List qrule).filter isWeightRule = [rule] →
        f.Weight = specWeight (ruleValue sampleExternals rule)) ∧
      (∀ rule,
        ([⟨[⟨TokenType.Ident, "font-style"⟩], [⟨TokenType.Ident, "italic"⟩]⟩,
          ⟨[⟨TokenType.Ident, "font-weight"⟩], [⟨TokenType.Ident, "Bold"⟩]⟩] :
            List qrule).filter isWeightRule = [rule] →
        isDecimal (ruleValue sampleExternals rule).data →
        f.Weight = (decimalValue (ruleValue sampleExternals rule).data : Int))) :=
  ⟨doFontFace_weight sampleExternals {} { FontFaces := [{ Weight := 650 }] }
      [⟨[⟨TokenType.Ident, "font-weight"⟩], [⟨TokenType.Number, "650"⟩]⟩] rfl,
    doFontFace_weight sampleExternals {}
      { FontFaces := [{ Weight := 700, Style := "italic" }] }
      [⟨[⟨TokenType.Ident, "font-style"⟩], [⟨TokenType.Ident, "italic"⟩]⟩,
       ⟨[⟨TokenType.Ident, "font-weight"⟩], [⟨TokenType.Ident, "Bold"⟩]⟩]
      rfl⟩

/-- The weights of the specification's examples, by evaluation of the code:
`font-weight: 650` gives 650, `bold` 700, `thin` 100, `Extra Bold` 800, an
unknown keyword and no declaration 400; and `strconv.Atoi` at some values. -/
theorem doFontFace_weight_examples :
    doFontFace sampleExternals {}
        [⟨[⟨TokenType.Ident, "font-weight"⟩], [⟨TokenType.Number, "650"⟩]⟩] =
      Run.ret ({ FontFaces := [{ Weight := 650 }] }, none) ∧
    doFontFace sampleExternals {}
        [⟨[⟨TokenType.Ident, "font-weight"⟩], [⟨TokenType.Ident, "bold"⟩]⟩] =
      Run.ret ({ FontFaces := [{ Weight := 700 }] }, none) ∧
    doFontFace sampleExternals {}
        [⟨[⟨TokenType.Ident, "font-weight"⟩], [⟨TokenType.Ident, "thin"⟩]⟩] =
      Run.ret ({ FontFaces := [{ Weight := 100 }] }, none) ∧
    doFontFace sampleExternals {}
        [⟨[⟨TokenType.Ident, "font-weight"⟩],
          [⟨TokenType.Ident, "Extra"⟩, ⟨TokenType.S, " "⟩, ⟨TokenType.Ident, "Bold"⟩]⟩] =
      Run.ret ({ FontFaces := [{ Weight := 800 }] }, none) ∧
    doFontFace sampleExternals {}
        [⟨[⟨TokenType.Ident, "font-weight"⟩], [⟨TokenType.Ident, "strong"⟩]⟩] =
      Run.ret ({ FontFaces := [{ Weight := 400 }] }, none) ∧
    doFontFace sampleExternals {} [] = Run.ret ({ FontFaces := [{ Weight := 400 }] }, none) ∧
    goAtoi "650" = some 650 ∧ goAtoi "+7" = some 7 ∧ goAtoi "-12" = some (-12) ∧
    goAtoi "" = none ∧ goAtoi "-" = none ∧ goAtoi "1e3" = none ∧ goAtoi "bold" = none ∧
    goAtoi "9223372036854775807" = some 9223372036854775807 ∧
    goAtoi "9223372036854775808" = none ∧
    specWeight "650" = 650 ∧ decimalValue "650".data = 650 :=
  ⟨rfl, rfl, rfl, rfl, rfl, rfl, by decide, by decide, by decide, by decide, by decide,
    by decide, by decide, by decide, by decide, by decide, by decide⟩

theorem srcLoop_none_iff (toks : tokenstream) :
    ∀ (src : FontSource) (sources : List FontSource),
      srcLoop src sources toks = none ↔ ∃ t, t ∈ toks ∧ isSrcToken t = false := by
  induction toks with
  | nil =>
    intro src sources
    simp [srcLoop]
  | cons v rest ih =>
    intro src sources
    rw [srcLoop]
    have hgood : isSrcToken v = true →
        ((∃ t, t ∈ v :: rest ∧ isSrcToken t = false) ↔
          ∃ t, t ∈ rest ∧ isSrcToken t = false) := by
      intro hv
      constructor
      · rintro ⟨t, ht, hb⟩
        rcases List.mem_cons.1 ht with h1 | h1
        · rw [h1, hv] at hb
          exact absurd hb (by decide)
        · exact ⟨t, h1, hb⟩
      · rintro ⟨t, ht, hb⟩
        exact ⟨t, List.mem_cons_of_mem _ ht, hb⟩
    cases hty : v.Typ <;> simp only [] <;>
      first
      | (rw [hgood (by simp [isSrcToken, hty])]
         first
         | exact ih _ _
         | (split <;> exact ih _ _))
      | (constructor
         · intro _
           exact ⟨v, List.mem_cons_self _ _, by simp [isSrcToken, hty]⟩
         · intro _
           trivial)

/-- What the body of the loop of `doFontFace` gives for a declaration whose
`size-adjust` value, if it is one, is numeric: an updated font face, or the
error of `src`, the latter exactly for a `src` value with an unhandled token. -/
theorem fontFaceRule_cases (ext : Externals) (f : FontFace) (rule : qrule)
    (hnum : isSizeAdjustRule rule = true →
      ext.parsesAsFloat (goTrimSuffixPercent (ruleValue ext rule)) = true) :
    (∃ f2, fontFaceRule ext f rule = Run.ret (Except.ok f2) ∧
        ¬ (isSrcRule rule = true ∧ ∃ t, t ∈ rule.value ∧ isSrcToken t = false)) ∨
      (fontFaceRule ext f rule = Run.ret (Except.error srcError) ∧
        isSrcRule rule = true ∧ ∃ t, t ∈ rule.value ∧ isSrcToken t = false) := by
  unfold isSizeAdjustRule ruleValue at hnum
  unfold fontFaceRule isSrcRule
  dsimp only
  by_cases hsrc : goTrimSpace (tokenstream.String rule.key) = "src"
  · rw [hsrc]
    rw [if_neg (by decide), if_neg (by decide), if_neg (by decide), if_pos rfl]
    cases hs : srcLoop {} f.Source rule.value with
    | none =>
      right
      exact ⟨rfl, by simp, (srcLoop_none_iff _ _ _).1 hs⟩
    | some p =>
      left
      refine ⟨_, rfl, ?_⟩
      rintro ⟨_, hbad⟩
      rw [(srcLoop_none_iff _ _ _).2 hbad] at hs
      exact absurd hs (by simp)
  · left
    simp only [hsrc, decide_False, Bool.false_eq_true, false_and, not_false_eq_true, and_true]
    split_ifs
    all_goals
      first
      | exact ⟨_, rfl⟩
      | (split
         · exact ⟨_, rfl⟩
         · split <;> exact ⟨_, rfl⟩)
      | (rename_i hk hf
         exact absurd (hnum (by simp [hk])) hf)
      | contradiction

theorem doFontFaceLoop_cases (ext : Externals) (ff : List qrule) :
    numericSizeAdjust ext ff → ∀ f : FontFace,
      (∃ f2, doFontFaceLoop ext f ff = Run.ret (Except.ok f2) ∧ ¬ hasUnhandledSrc ff) ∨
        (doFontFaceLoop ext f ff = Run.ret (Except.error srcError) ∧ hasUnhandledSrc ff) := by
  induction ff with
  | nil =>
    intro _ f
    left
    refine ⟨f, rfl, ?_⟩
    rintro ⟨rule, hmem, _⟩
    exact absurd hmem (List.not_mem_nil _)
  | cons rule rest ih =>
    intro hnum f
    have hrest : numericSizeAdjust ext rest :=
      fun r hr => hnum r (List.mem_cons_of_mem _ hr)
    rcases fontFaceRule_cases ext f rule (hnum rule (List.mem_cons_self _ _)) with
      ⟨f1, h1, hgood⟩ | ⟨h1, hbad⟩
    · rw [doFontFaceLoop, h1]
      rcases ih hrest f1 with ⟨f2, h2, hno⟩ | ⟨h2, hyes⟩
      · left
        refine ⟨f2, h2, ?_⟩
        rintro ⟨r, hmem, hs, ht⟩
        rcases List.mem_cons.1 hmem with hr | hr
        · subst hr
          exact hgood ⟨hs, ht⟩
        · exact hno ⟨r, hr, hs, ht⟩
      · right
        obtain ⟨r, hr, hs⟩ := hyes
        exact ⟨h2, r, List.mem_cons_of_mem _ hr, hs⟩
    · right
      rw [doFontFaceLoop, h1]
      exact ⟨rfl, rule, List.mem_cons_self _ _, hbad⟩

/-- C13: on a declaration list whose `size-adjust` values are numeric,
`doFontFace` returns; it returns an error exactly when some `src` declaration
has a value with a token that is none of `local()`, URI, `format()`, `tech()`,
delimiter and whitespace; with an error the list of font faces is as before,
without an error one font face has been appended. -/
theorem doFontFace_error_iff (ext : Externals) (c : CSS) (ff : List qrule)
    (hnum : numericSizeAdjust ext ff) :
    ∃ c2 err, doFontFace ext c ff = Run.ret (c2, err) ∧
      (err ≠ none ↔ hasUnhandledSrc ff) ∧
      (err ≠ none → c2.FontFaces = c.FontFaces) ∧
      (err = none → ∃ f, c2.FontFaces = c.FontFaces ++ [f]) := by
  unfold doFontFace
  rcases doFontFaceLoop_cases ext ff hnum { Weight := 400 } with ⟨f2, h2, hno⟩ | ⟨h2, hyes⟩
  · rw [h2]
    refine ⟨_, none, rfl, ?_, ?_, ?_⟩
    · exact ⟨fun h => absurd rfl h, fun h => absurd h hno⟩
    · intro h
      exact absurd rfl h
    · intro _
      exact ⟨f2, rfl⟩
  · rw [h2]
    refine ⟨c, some srcError, rfl, ?_, ?_, ?_⟩
    · exact ⟨fun _ => hyes, fun _ => by simp⟩
    · intro _
      rfl
    · intro h
      exact absurd h (by simp)

/-- C13 on the declarations `size-adjust: 90%; src: url(a) x`, where the
identifier `x` is not handled: an error, and no font face. -/
theorem doFontFace_error_iff_witness :
    ∃ c2 err,
      doFontFace ⟨tokenstream.String, fun v => decide (v = "90")⟩ {}
          [⟨[⟨TokenType.Ident, "size-adjust"⟩], [⟨TokenType.Percentage, "90%"⟩]⟩,
           ⟨[⟨TokenType.Ident, "src"⟩],
            [⟨TokenType.URI, "a"⟩, ⟨TokenType.S, " "⟩, ⟨TokenType.Ident, "x"⟩]⟩] =
        Run.ret (c2, err) ∧
      (err ≠ none ↔
        hasUnhandledSrc
          [⟨[⟨TokenType.Ident, "size-adjust"⟩], [⟨TokenType.Percentage, "90%"⟩]⟩,
           ⟨[⟨TokenType.Ident, "src"⟩],
            [⟨TokenType.URI, "a"⟩, ⟨TokenType.S, " "⟩, ⟨TokenType.Ident, "x"⟩]⟩]) ∧
      (err ≠ none → c2.FontFaces = ({} : CSS).FontFaces) ∧
      (err = none → ∃ f, c2.FontFaces = ({} : CSS).FontFaces ++ [f]) :=
  doFontFace_error_iff ⟨tokenstream.String, fun v => decide (v = "90")⟩ {}
    [⟨[⟨TokenType.Ident, "size-adjust"⟩], [⟨TokenType.Percentage, "90%"⟩]⟩,
     ⟨[⟨TokenType.Ident, "src"⟩],
      [⟨TokenType.URI, "a"⟩, ⟨TokenType.S, " "⟩, ⟨TokenType.Ident, "x"⟩]⟩]
    (by
      intro rule hmem hs
      simp only [List.mem_cons, List.mem_singleton, List.not_mem_nil, or_false] at hmem
      rcases hmem with h | h <;> subst h
      · decide
      · exact absurd hs (by decide))

/-! ### `processAtRules` -/

theorem doFontFace_appends (ext : Externals) (c c2 : CSS) (rules : List qrule)
    (h : doFontFace ext c rules = Run.ret (c2, none)) :
    ∃ f, c2 = { c with FontFaces := c.FontFaces ++ [f] } ∧ appendsFontFace ext rules f := by
  unfold doFontFace at h
  split at h
  · rename_i f hf
    simp only [Run.ret.injEq, Prod.mk.injEq, and_true] at h
    refine ⟨f, h.symm, ?_⟩
    intro c0
    unfold doFontFace
    rw [hf]
  · simp at h
  · simp at h
  · simp at h

theorem doPage_fontFaces (ext : Externals) (hp : PageHelpers) (order : RangeOrder)
    (c c2 : CSS) (block : sBlock) (h : doPage ext hp order c block = Run.ret c2) :
    c2.FontFaces = c.FontFaces := by
  unfold doPage at h
  split at h
  · simp at h
  · simp only [Run.ret.injEq] at h
    subst h
    rfl

theorem processAtRulesLoop_fontFaces (ext : Externals) (hp : PageHelpers) (order : RangeOrder)
    (cs : List sBlock) :
    ∀ (c c2 : CSS), processAtRulesLoop ext hp order c cs = Run.ret (c2, none) →
      ∃ fs, c2.FontFaces = c.FontFaces ++ fs ∧
        List.Forall₂ (fun f a => appendsFontFace ext a.rules f) fs
          (cs.filter isFontFaceAtRule) := by
  induction cs with
  | nil =>
    intro c c2 h
    simp only [processAtRulesLoop, Run.ret.injEq, Prod.mk.injEq, and_true] at h
    subst h
    exact ⟨[], by simp, List.Forall₂.nil⟩
  | cons a rest ih =>
    intro c c2 h
    rw [processAtRulesLoop] at h
    rw [List.filter_cons]
    unfold isFontFaceAtRule
    by_cases hff : a.name = "font-face"
    · rw [if_pos hff] at h
      simp only [hff, decide_True, if_true]
      split at h
      · rename_i c1 h1
        obtain ⟨f, hc1, hf⟩ := doFontFace_appends ext c c1 a.rules h1
        obtain ⟨fs, hfs, hall⟩ := ih c1 c2 h
        refine ⟨f :: fs, ?_, List.Forall₂.cons hf hall⟩
        rw [hfs, hc1]
        simp
      · rename_i hne
        exact absurd h (hne c2)
    · rw [if_neg hff] at h
      simp only [hff, decide_False, Bool.false_eq_true, if_false]
      split_ifs at h
      · split at h
        · rename_i c1 h1
          obtain ⟨fs, hfs, hall⟩ := ih c1 c2 h
          rw [doPage_fontFaces ext hp order c c1 a h1] at hfs
          exact ⟨fs, hfs, hall⟩
        · simp at h
        · simp at h
      · exact ih c c2 h

theorem processAtRulesLoop_filter (ext : Externals) (hp : PageHelpers) (order : RangeOrder)
    (cs : List sBlock) :
    ∀ c : CSS, processAtRulesLoop ext hp order c (cs.filter isKnownAtRule) =
      processAtRulesLoop ext hp order c cs := by
  induction cs with
  | nil => intro c; rfl
  | cons a rest ih =>
    intro c
    rw [List.filter_cons]
    unfold isKnownAtRule
    by_cases hff : a.name = "font-face"
    · simp only [hff, true_or, decide_True, if_true]
      rw [processAtRulesLoop, processAtRulesLoop]
      simp only [hff, if_true]
      split
      · exact ih _
      · rfl
    · by_cases hpg : a.name = "page"
      · simp only [hpg, or_true, decide_True, if_true]
        rw [processAtRulesLoop, processAtRulesLoop]
        rw [if_neg (by rw [hpg]; decide), if_pos hpg, if_neg (by rw [hpg]; decide), if_pos hpg]
        split
        · exact ih _
        · rfl
        · rfl
      · simp only [hff, hpg, or_self, decide_False, Bool.false_eq_true, if_false]
        rw [show (fun a : sBlock => decide (a.name = "font-face" ∨ a.name = "page")) =
          isKnownAtRule from rfl, ih c]
        conv => rhs; rw [processAtRulesLoop]
        rw [if_neg hff, if_neg hpg]

/-- C14: when `processAtRules` succeeds on a stylesheet root, the list of font
faces afterwards is the list before followed by one font face per child
at-rule named `font-face`, in their order, each the one `doFontFace` gives for
the declarations of that at-rule; and a root without the child at-rules named
neither `font-face` nor `page` gives the same run: the same engine and the
same (absent) error. -/
theorem processAtRules_fontFaces (ext : Externals) (hp : PageHelpers) (order : RangeOrder)
    (c c2 : CSS) (stylesheet : sBlock)
    (h : processAtRules ext hp order c stylesheet = Run.ret (c2, none)) :
    (∃ fs, c2.FontFaces = c.FontFaces ++ fs ∧
        List.Forall₂ (fun f a => appendsFontFace ext a.rules f) fs
          (stylesheet.childAtRules.filter isFontFaceAtRule)) ∧
      ∀ stylesheet2 : sBlock,
        stylesheet2.childAtRules = stylesheet.childAtRules.filter isKnownAtRule →
        processAtRules ext hp order c stylesheet2 = Run.ret (c2, none) := by
  constructor
  · exact processAtRulesLoop_fontFaces ext hp order stylesheet.childAtRules
      { c with Pages := some (c.Pages.getD []) } c2 h
  · intro stylesheet2 h2
    unfold processAtRules at h ⊢
    rw [h2, processAtRulesLoop_filter]
    exact h

/-- C14 on `sampleRoot`, from the engine of `NewCSSParser`: two font faces, and
the page `a5`. -/
theorem processAtRules_fontFaces_witness :
    (∃ fs, [({ Weight := 400, Style := "italic" } : FontFace), { Weight := 700 }] =
          ({} : CSS).FontFaces ++ fs ∧
        List.Forall₂ (fun f a => appendsFontFace sampleExternals a.rules f) fs
          (sampleRoot.childAtRules.filter isFontFaceAtRule)) ∧
      ∀ stylesheet2 : sBlock,
        stylesheet2.childAtRules = sampleRoot.childAtRules.filter isKnownAtRule →
        processAtRules sampleExternals sampleHelpers id {} stylesheet2 =
          Run.ret
            ({ Pages := some [("", { Papersize := "a5" })]
               FontFaces := [{ Weight := 400, Style := "italic" }, { Weight := 700 }] },
              none) :=
  processAtRules_fontFaces sampleExternals sampleHelpers id {}
    { Pages := some [("", { Papersize := "a5" })]
      FontFaces := [{ Weight := 400, Style := "italic" }, { Weight := 700 }] }
    sampleRoot rfl

/-! ### `font-feature-settings` -/

theorem noTrailingSpace_suffix {t s : List Char} (h : t <:+ s)
    (hs : noTrailingSpace s) : noTrailingSpace t := by
  obtain ⟨q, rfl⟩ := h
  intro c hc
  apply hs c
  rw [List.getLast?_append, hc]
  rfl

theorem all_space_eq_nil {t : List Char} (ht : noTrailingSpace t)
    (h : t.all isRegexSpace = true) : t = [] := by
  by_contra hne
  obtain ⟨c, hc⟩ : ∃ c, t.getLast? = some c := by
    cases hl : t.getLast? with
    | none => exact absurd (List.getLast?_eq_none_iff.1 hl) hne
    | some c => exact ⟨c, rfl⟩
  have hmem : c ∈ t := by
    obtain ⟨ys, hys⟩ := List.getLast?_eq_some_iff.1 hc
    rw [hys]
    simp
  have := List.all_eq_true.1 h c hmem
  rw [ht c hc] at this
  exact absurd this (by decide)

theorem featureTailMatch_iff {s : List Char} (hs : noTrailingSpace s) :
    featureTailMatch s = true ↔ isSwitch s := by
  unfold featureTailMatch isSwitch
  simp only [decide_eq_true_eq, Bool.decide_and, Bool.decide_or, Bool.or_eq_true,
    Bool.and_eq_true, Bool.decide_eq_true, ne_eq, decide_not, Bool.not_eq_true']
  constructor
  · rintro (⟨h1, h2⟩ | ⟨h1, h2⟩ | ⟨h1, h2⟩)
    · left
      by_cases hd : s.drop 2 = []
      · rw [← List.take_append_drop 2 s, hd, h1]; rfl
      · have := all_space_eq_nil
          (noTrailingSpace_suffix (List.drop_suffix 2 s) hs) h2
        exact absurd this hd
    · right; left
      by_cases hd : s.drop 3 = []
      · rw [← List.take_append_drop 3 s, hd, h1]; rfl
      · have := all_space_eq_nil
          (noTrailingSpace_suffix (List.drop_suffix 3 s) hs) h2
        exact absurd this hd
    · right; right
      have hd : s.dropWhile isDigitRune = [] := by
        by_contra hd
        exact hd (all_space_eq_nil
          (noTrailingSpace_suffix (List.dropWhile_suffix _) hs) h2)
      have he : s.takeWhile isDigitRune = s := by
        have := List.takeWhile_append_dropWhile isDigitRune s
        rw [hd, List.append_nil] at this
        exact this
      refine ⟨?_, List.takeWhile_eq_self_iff.1 he⟩
      intro h0
      rw [h0] at h1
      simp at h1
  · rintro (h | h | ⟨h1, h2⟩)
    · subst h; left; decide
    · subst h; right; left; decide
    · right; right
      have he : s.takeWhile isDigitRune = s := List.takeWhile_eq_self_iff.2 h2
      have hd : s.dropWhile isDigitRune = [] := by
        have := List.takeWhile_append_dropWhile isDigitRune s
        rw [he] at this
        simpa using this
      rw [he, hd]
      simp only [List.all_nil, and_true]
      cases s with
      | nil => exact absurd rfl h1
      | cons a t => rfl

theorem featureMatchIndex_some (sw : List Char) (hsw : sw ≠ [])
    (hm : featureTailMatch sw = true) :
    ∀ (p : List Char) (i : Nat),
      (∀ q r, p = q ++ r → r ≠ [] → featureTailMatch (r ++ sw) = false) →
      featureMatchIndex (p ++ sw) i = some (i + p.length) := by
  intro p
  induction p with
  | nil =>
    intro i _
    cases sw with
    | nil => exact absurd rfl hsw
    | cons c cs =>
      rw [List.nil_append, featureMatchIndex, if_pos hm]
      rfl
  | cons a p ih =>
    intro i h
    rw [List.cons_append, featureMatchIndex]
    have h1 := h [] (a :: p) rfl (by simp)
    rw [List.cons_append] at h1
    rw [h1, if_neg (by decide), ih (i + 1)]
    · simp only [List.length_cons]
      congr 1
      omega
    · intro q r hq hr
      exact h (a :: q) r (by rw [hq]; rfl) hr

theorem featureMatchIndex_none :
    ∀ (cs : List Char) (i : Nat),
      (∀ q r, cs = q ++ r → r ≠ [] → featureTailMatch r = false) →
      featureMatchIndex cs i = none := by
  intro cs
  induction cs with
  | nil => intro i _; rfl
  | cons a cs ih =>
    intro i h
    rw [featureMatchIndex, h [] (a :: cs) rfl (by simp), if_neg (by decide)]
    exact ih (i + 1) fun q r hq hr => h (a :: q) r (by rw [hq]; rfl) hr

theorem rtakeWhile_append_of_pos (p : Char → Bool) (a b : List Char)
    (h : ∀ c, c ∈ b → p c = true) :
    (a ++ b).rtakeWhile p = a.rtakeWhile p ++ b := by
  unfold List.rtakeWhile
  rw [List.reverse_append,
    List.takeWhile_append_of_pos (fun c hc => h c (List.mem_reverse.1 hc)),
    List.reverse_append, List.reverse_reverse]

theorem strippedSwitch_suffix (cs : List Char) : strippedSwitch cs <:+ cs := by
  unfold strippedSwitch
  split_ifs with h1 h2
  · exact h1
  · exact h2
  · exact List.rtakeWhile_suffix _ _

theorem getLast?_append_cons_ne {r sw : List Char} (c : Char) (hsw : sw.getLast? = some c) :
    (r ++ sw).getLast? = some c := by
  rw [List.getLast?_append, hsw]
  rfl

/-- The leftmost match of `(on|off|\d+)\s*$` in a value that does not end with
white space starts where the stripped match of the specification starts. -/
theorem featureMatchIndex_eq (cs : List Char) (hs : noTrailingSpace cs) :
    featureMatchIndex cs 0 =
      if strippedSwitch cs = [] then none
      else some (cs.length - (strippedSwitch cs).length) := by
  obtain ⟨p, hp⟩ := strippedSwitch_suffix cs
  have hnot : ∀ r : List Char, r <:+ cs → ¬ isSwitch r → featureTailMatch r = false := by
    intro r hr hn
    cases hm : featureTailMatch r with
    | false => rfl
    | true => exact absurd ((featureTailMatch_iff (noTrailingSpace_suffix hr hs)).1 hm) hn
  by_cases h0 : strippedSwitch cs = []
  · rw [if_pos h0]
    apply featureMatchIndex_none
    intro q r hq hr
    apply hnot r ⟨q, hq.symm⟩
    unfold strippedSwitch at h0
    split_ifs at h0 with h1 h2
    rintro (h | h | ⟨_, h⟩)
    · exact h1 ⟨q, by rw [hq, h]⟩
    · exact h2 ⟨q, by rw [hq, h]⟩
    · have hcs : cs ≠ [] := by
        rw [hq]
        simp [hr]
      have hlast := List.rtakeWhile_eq_nil_iff.1 h0 hcs
      have e : cs.getLast hcs = r.getLast hr :=
        (List.IsSuffix.getLast ⟨q, hq.symm⟩ hr).symm
      rw [e] at hlast
      exact hlast (h _ (List.getLast_mem hr))
  · rw [if_neg h0]
    have hlen : cs.length - (strippedSwitch cs).length = p.length := by
      have := congrArg List.length hp
      rw [List.length_append] at this
      omega
    rw [hlen]
    have hsw : isSwitch (strippedSwitch cs) := by
      unfold strippedSwitch at h0 ⊢
      split_ifs at h0 ⊢ with h1 h2
      · left; rfl
      · right; left; rfl
      · right; right
        exact ⟨h0, fun c hc => List.mem_rtakeWhile_imp hc⟩
    have hm : featureTailMatch (strippedSwitch cs) = true :=
      (featureTailMatch_iff (noTrailingSpace_suffix (strippedSwitch_suffix cs) hs)).2 hsw
    have key := featureMatchIndex_some (strippedSwitch cs) h0 hm p 0 (by
      intro q r hq hr
      apply hnot (r ++ strippedSwitch cs) ⟨q, by rw [← List.append_assoc, ← hq, hp]⟩
      unfold strippedSwitch at hp ⊢
      split_ifs at hp ⊢ with h1 h2
      · rintro (h | h | ⟨_, h⟩)
        · exact hr (List.append_left_eq_self.1 h)
        · have := congrArg List.getLast? h
          rw [@getLast?_append_cons_ne r ['o', 'n'] 'n' rfl] at this
          exact absurd this (by decide)
        · exact absurd (h 'n' (by simp)) (by decide)
      · rintro (h | h | ⟨_, h⟩)
        · have := congrArg List.getLast? h
          rw [@getLast?_append_cons_ne r ['o', 'f', 'f'] 'f' rfl] at this
          exact absurd this (by decide)
        · exact hr (List.append_left_eq_self.1 h)
        · exact absurd (h 'f' (by simp)) (by decide)
      · have hcs : cs = q ++ (r ++ cs.rtakeWhile isDigitRune) := by
          rw [← List.append_assoc, ← hq, hp]
        rintro (h | h | ⟨_, h⟩)
        · exact h1 ⟨q, by rw [← h]; exact hcs.symm⟩
        · exact h2 ⟨q, by rw [← h]; exact hcs.symm⟩
        · have e := congrArg (fun l => (List.rtakeWhile isDigitRune l).length) hcs
          simp only [rtakeWhile_append_of_pos _ _ _ h, List.length_append] at e
          have : r.length = 0 := by omega
          exact hr (List.length_eq_zero.1 this))
    rw [hp, Nat.zero_add] at key
    exact key

theorem featureSettings_eq_spec (v : String) (hv : noTrailingSpace v.data) :
    featureSettings v = specFeatureSettings v := by
  unfold featureSettings specFeatureSettings featureRemainder featurePrefix
  dsimp only
  rw [featureMatchIndex_eq v.data hv]
  by_cases h0 : strippedSwitch v.data = []
  · rw [if_pos h0, h0]
    have e : ¬ (([] : List Char) = ['o', 'f', 'f'] ∨ ([] : List Char) = ['0']) := by
      rintro (h | h) <;> exact absurd h (List.noConfusion)
    rw [if_neg e]
    simp only [List.length_nil, Nat.sub_zero, List.take_length, Option.map_none']
    rfl
  · rw [if_neg h0]
    have hd : v.data.drop (v.data.length - (strippedSwitch v.data).length) =
        strippedSwitch v.data :=
      (List.suffix_iff_eq_drop.1 (strippedSwitch_suffix v.data)).symm
    simp only [Option.map_some', hd, Option.some.injEq]
    have e1 : (String.mk (strippedSwitch v.data) = "off") ↔
        strippedSwitch v.data = ['o', 'f', 'f'] := by
      constructor
      · intro h; exact congrArg String.data h
      · intro h; rw [h]
    have e2 : (String.mk (strippedSwitch v.data) = "0") ↔
        strippedSwitch v.data = ['0'] := by
      constructor
      · intro h; exact congrArg String.data h
      · intro h; rw [h]
    simp only [e1, e2]
    by_cases hoff : strippedSwitch v.data = ['o', 'f', 'f'] ∨ strippedSwitch v.data = ['0']
    · simp [hoff]
    · simp [hoff]

theorem isSpaceRune_of_regexSpace (c : Char) (h : isRegexSpace c = true) :
    isSpaceRune c = true := by
  unfold isRegexSpace at h
  unfold isSpaceRune
  simp only [Bool.decide_or, Bool.or_eq_true, decide_eq_true_eq] at h ⊢
  rcases h with h | h | h | h | h <;> simp [h]

theorem noTrailingSpace_trim (s : String) : noTrailingSpace (goTrimSpace s).data := by
  intro c hc
  unfold goTrimSpace trimBoth at hc
  cases hr : isRegexSpace c with
  | false => rfl
  | true =>
    have hsp := isSpaceRune_of_regexSpace c hr
    simp only [] at hc
    rw [List.getLast?_reverse] at hc
    have hmem := List.head?_eq_some_iff.1 hc
    obtain ⟨tl, htl⟩ := hmem
    have := List.head_dropWhile_not isSpaceRune (s.data.dropWhile isSpaceRune).reverse
      (by rw [htl]; simp)
    simp only [htl, List.head_cons] at this
    rw [hsp] at this
    exact absurd this (by decide)

theorem goSplitComma_length (cs : List Char) :
    (goSplitComma cs).length = 1 + cs.count ',' := by
  induction cs with
  | nil => rfl
  | cons c cs ih =>
    rw [goSplitComma]
    by_cases hc : c = ','
    · rw [if_pos hc, hc, List.count_cons_self, List.length_cons, ih]
      omega
    · rw [if_neg hc, List.count_cons_of_ne (fun h => hc h.symm)]
      cases hr : goSplitComma cs with
      | nil => rw [hr] at ih; simp at ih; omega
      | cons h t => rw [hr] at ih; simpa using ih

theorem featurePrefix_cases (cs : List Char) :
    featurePrefix cs = "+" ∨ featurePrefix cs = "-" := by
  unfold featurePrefix
  split_ifs
  · right; rfl
  · left; rfl

/-- C17: for a `font-feature-settings` declaration, with `v` its trimmed
value, `doFontFace` appends to `Features` the pieces of the remainder of `v`
(`v` without a trailing `on`, `off` or run of digits) between commas, each
trimmed and with the common prefix, which is `-` exactly when what was stripped
is `off` or `0`; every appended feature starts with `+` or `-`, and their
number is one plus the number of commas of the remainder. -/
theorem fontFaceRule_features (ext : Externals) (f : FontFace) (rule : qrule)
    (hkey : isFeatureRule rule = true) :
    ∃ f2, fontFaceRule ext f rule = Run.ret (Except.ok f2) ∧
      f2.Features = f.Features ++ specFeatureSettings (ruleValue ext rule) ∧
      (∀ x, x ∈ specFeatureSettings (ruleValue ext rule) →
        x.data.head? = some '+' ∨ x.data.head? = some '-') ∧
      (specFeatureSettings (ruleValue ext rule)).length =
        1 + (featureRemainder (ruleValue ext rule).data).count ',' := by
  unfold isFeatureRule at hkey
  have hk : goTrimSpace (tokenstream.String rule.key) = "font-feature-settings" := by
    simpa using hkey
  refine ⟨{ f with Features := f.Features ++ featureSettings (ruleValue ext rule) }, ?_, ?_, ?_, ?_⟩
  · unfold fontFaceRule
    dsimp only
    rw [hk, if_neg (by decide), if_neg (by decide), if_neg (by decide), if_neg (by decide),
      if_pos rfl]
    rfl
  · show f.Features ++ featureSettings (ruleValue ext rule) = _
    rw [featureSettings_eq_spec (ruleValue ext rule) (noTrailingSpace_trim _)]
  · intro x hx
    unfold specFeatureSettings at hx
    obtain ⟨piece, _, rfl⟩ := List.mem_map.1 hx
    rcases featurePrefix_cases (ruleValue ext rule).data with h | h
    · left; rw [h, String.data_append]; rfl
    · right; rw [h, String.data_append]; rfl
  · unfold specFeatureSettings
    rw [List.length_map, goSplitComma_length]

/-- C17 on the declaration `font-feature-settings: "smcp", "liga" off` (read
through `sampleExternals`): the features `-"smcp"` and `-"liga"`. -/
theorem fontFaceRule_features_witness :
    ∃ f2,
      fontFaceRule sampleExternals { Weight := 400 }
          ⟨[⟨TokenType.Ident, "font-feature-settings"⟩],
            [⟨TokenType.Ident, "smcp"⟩, ⟨TokenType.Delim, ","⟩, ⟨TokenType.S, " "⟩,
             ⟨TokenType.Ident, "liga"⟩, ⟨TokenType.S, " "⟩, ⟨TokenType.Ident, "off"⟩]⟩ =
        Run.ret (Except.ok f2) ∧
      f2.Features = [] ++ specFeatureSettings "smcp, liga off" ∧
      (∀ x, x ∈ specFeatureSettings "smcp, liga off" →
        x.data.head? = some '+' ∨ x.data.head? = some '-') ∧
      (specFeatureSettings "smcp, liga off").length =
        1 + (featureRemainder "smcp, liga off".data).count ',' :=
  fontFaceRule_features sampleExternals { Weight := 400 }
    ⟨[⟨TokenType.Ident, "font-feature-settings"⟩],
      [⟨TokenType.Ident, "smcp"⟩, ⟨TokenType.Delim, ","⟩, ⟨TokenType.S, " "⟩,
       ⟨TokenType.Ident, "liga"⟩, ⟨TokenType.S, " "⟩, ⟨TokenType.Ident, "off"⟩]⟩
    (by decide)

/-- The features of the value `smcp, liga off` are `-smcp` and `-liga`; those
of `kern 10` are `+kern`. -/
theorem specFeatureSettings_examples :
    specFeatureSettings "smcp, liga off" = ["-smcp", "-liga"] ∧
      specFeatureSettings "kern 10" = ["+kern"] ∧
      featureSettings "smcp, liga off" = ["-smcp", "-liga"] := by
  refine ⟨?_, ?_, ?_⟩ <;> decide

/-! ### Maps as lists of pairs -/

theorem mapGet_mapSet {α : Type} (m : List (String × α)) (k : String) (v : α) (k2 : String) :
    mapGet (mapSet m k v) k2 = if k = k2 then some v else mapGet m k2 := by
  induction m with
  | nil => rfl
  | cons p rest ih =>
    obtain ⟨a, b⟩ := p
    rw [mapSet]
    by_cases hak : a = k
    · rw [if_pos hak, mapGet, mapGet, hak]
      by_cases hk2 : k = k2
      · rw [if_pos hk2, if_pos hk2]
      · rw [if_neg hk2, if_neg hk2, if_neg hk2]
    · rw [if_neg hak, mapGet, ih, mapGet]
      by_cases ha2 : a = k2
      · rw [if_pos ha2, if_pos ha2, if_neg (fun h => hak (ha2.trans h.symm))]
      · rw [if_neg ha2, if_neg ha2]

theorem mapGet_eq_none_iff {α : Type} (m : List (String × α)) (k : String) :
    mapGet m k = none ↔ k ∉ mapKeys m := by
  induction m with
  | nil => simp [mapGet, mapKeys]
  | cons p rest ih =>
    obtain ⟨a, b⟩ := p
    rw [mapGet]
    by_cases hak : a = k
    · rw [if_pos hak]
      simp [mapKeys, hak]
    · rw [if_neg hak, ih]
      simp only [mapKeys, List.map_cons, List.mem_cons, not_or]
      exact ⟨fun h => ⟨fun e => hak e.symm, h⟩, fun h => h.2⟩

theorem mem_mapKeys_iff {α : Type} (m : List (String × α)) (k : String) :
    k ∈ mapKeys m ↔ ∃ v, mapGet m k = some v := by
  constructor
  · intro h
    cases hg : mapGet m k with
    | none => exact absurd h ((mapGet_eq_none_iff m k).1 hg)
    | some v => exact ⟨v, rfl⟩
  · rintro ⟨v, hv⟩
    by_contra hn
    rw [(mapGet_eq_none_iff m k).2 hn] at hv
    exact absurd hv (by simp)

theorem mem_mapKeys_mapSet {α : Type} (m : List (String × α)) (k : String) (v : α)
    (k2 : String) : k2 ∈ mapKeys (mapSet m k v) ↔ k2 = k ∨ k2 ∈ mapKeys m := by
  rw [mem_mapKeys_iff, mem_mapKeys_iff]
  simp only [mapGet_mapSet]
  by_cases h : k = k2
  · simp [h]
  · have h2 : ¬ k2 = k := fun e => h e.symm
    simp [h, h2]

theorem mapKeys_mapSet_nodup {α : Type} (m : List (String × α)) (k : String) (v : α)
    (h : (mapKeys m).Nodup) : (mapKeys (mapSet m k v)).Nodup := by
  induction m with
  | nil => simp [mapSet, mapKeys]
  | cons p rest ih =>
    obtain ⟨a, b⟩ := p
    have h2 := List.nodup_cons.1 h
    rw [mapSet]
    by_cases hak : a = k
    · rw [if_pos hak]
      show (k :: mapKeys rest).Nodup
      rw [← hak]
      exact h
    · rw [if_neg hak]
      show (a :: mapKeys (mapSet rest k v)).Nodup
      refine List.nodup_cons.2 ⟨?_, ih h2.2⟩
      rw [mem_mapKeys_mapSet]
      rintro (e | e)
      · exact hak e
      · exact h2.1 e

/-- A loop of map assignments `m[f k] = g v` over the pairs `k, v` of `L`:
the value under a key is that of the last assignment to it. -/
theorem foldl_mapSet_get {β γ : Type} (f : String → String) (g : β → γ)
    (L : List (String × β)) (pa0 : List (String × γ)) (k2 : String) :
    mapGet (L.foldl (fun pa kv => mapSet pa (f kv.1) (g kv.2)) pa0) k2 =
      (((L.filter fun kv => decide (f kv.1 = k2)).getLast?).map fun kv => g kv.2).or
        (mapGet pa0 k2) := by
  induction L using List.reverseRecOn with
  | nil => rfl
  | append_singleton xs x ih =>
    rw [List.foldl_append, List.foldl_cons, List.foldl_nil, mapGet_mapSet, List.filter_append]
    by_cases h : f x.1 = k2
    · rw [if_pos h]
      have e : List.filter (fun kv => decide (f kv.1 = k2)) [x] = [x] := by
        simp [List.filter_cons, h]
      rw [e, List.getLast?_concat]
      rfl
    · rw [if_neg h]
      have e : List.filter (fun kv => decide (f kv.1 = k2)) [x] = [] := by
        simp [List.filter_cons, h]
      rw [e, List.append_nil]
      exact ih

theorem foldl_mapSet_keys {β γ : Type} (f : String → String) (g : β → γ)
    (L : List (String × β)) :
    ∀ (pa0 : List (String × γ)) (k2 : String),
      k2 ∈ mapKeys (L.foldl (fun pa kv => mapSet pa (f kv.1) (g kv.2)) pa0) ↔
        k2 ∈ mapKeys pa0 ∨ ∃ kv, kv ∈ L ∧ f kv.1 = k2 := by
  induction L with
  | nil => intro pa0 k2; simp
  | cons x xs ih =>
    intro pa0 k2
    rw [List.foldl_cons, ih, mem_mapKeys_mapSet]
    constructor
    · rintro ((h | h) | ⟨kv, hkv, h⟩)
      · exact Or.inr ⟨x, List.mem_cons_self _ _, h.symm⟩
      · exact Or.inl h
      · exact Or.inr ⟨kv, List.mem_cons_of_mem _ hkv, h⟩
    · rintro (h | ⟨kv, hkv, h⟩)
      · exact Or.inl (Or.inr h)
      · rcases List.mem_cons.1 hkv with e | e
        · subst e
          exact Or.inl (Or.inl h.symm)
        · exact Or.inr ⟨kv, e, h⟩

theorem foldl_mapSet_nodup {β γ : Type} (f : String → String) (g : β → γ)
    (L : List (String × β)) :
    ∀ (pa0 : List (String × γ)), (mapKeys pa0).Nodup →
      (mapKeys (L.foldl (fun pa kv => mapSet pa (f kv.1) (g kv.2)) pa0)).Nodup := by
  induction L with
  | nil => intro pa0 h; exact h
  | cons x xs ih =>
    intro pa0 h
    rw [List.foldl_cons]
    exact ih _ (mapKeys_mapSet_nodup _ _ _ h)

/-- When one pair of `L` only is assigned to the key `f k`, the loop leaves its
value there. -/
theorem foldl_mapSet_get_unique {β γ : Type} (f : String → String) (g : β → γ)
    (L : List (String × β)) (pa0 : List (String × γ)) (kv : String × β) (hmem : kv ∈ L)
    (huniq : ∀ kv2, kv2 ∈ L → f kv2.1 = f kv.1 → kv2 = kv) :
    mapGet (L.foldl (fun pa kv => mapSet pa (f kv.1) (g kv.2)) pa0) (f kv.1) =
      some (g kv.2) := by
  rw [foldl_mapSet_get]
  have hne : L.filter (fun kv2 => decide (f kv2.1 = f kv.1)) ≠ [] := by
    intro h0
    have : kv ∈ L.filter (fun kv2 => decide (f kv2.1 = f kv.1)) :=
      List.mem_filter.2 ⟨hmem, by simp⟩
    rw [h0] at this
    exact absurd this (List.not_mem_nil _)
  have hlast : (L.filter (fun kv2 => decide (f kv2.1 = f kv.1))).getLast? = some kv := by
    rw [List.getLast?_eq_getLast _ hne]
    have hm := List.getLast_mem hne
    rw [List.mem_filter] at hm
    rw [huniq _ hm.1 (by simpa using hm.2)]
  rw [hlast]
  rfl

/-! ### `doPage` -/

theorem pageareaRulesLoop_append (m : List (String × List qrule)) (cs : List sBlock)
    (a : sBlock) :
    pageareaRulesLoop m (cs ++ [a]) = mapSet (pageareaRulesLoop m cs) a.name a.rules := by
  unfold pageareaRulesLoop
  rw [List.foldl_append]
  rfl

/-- After the loop over the child at-rules, the map has under a name the
declarations of the last child at-rule of that name, and what it had before
under the other names. -/
theorem pageareaRulesLoop_get (m : List (String × List qrule)) (cs : List sBlock)
    (n : String) :
    mapGet (pageareaRulesLoop m cs) n =
      ((lastNamed cs n).map fun a => a.rules).or (mapGet m n) := by
  induction cs using List.reverseRecOn with
  | nil => rfl
  | append_singleton xs x ih =>
    rw [pageareaRulesLoop_append, mapGet_mapSet]
    unfold lastNamed
    rw [List.filter_append]
    by_cases h : x.name = n
    · rw [if_pos h]
      have e : List.filter (fun a : sBlock => decide (a.name = n)) [x] = [x] := by
        simp [List.filter_cons, h]
      rw [e, List.getLast?_concat]
      rfl
    · rw [if_neg h]
      have e : List.filter (fun a : sBlock => decide (a.name = n)) [x] = [] := by
        simp [List.filter_cons, h]
      rw [e, List.append_nil]
      exact ih

theorem pageareaRulesLoop_keys (cs : List sBlock) :
    ∀ (m : List (String × List qrule)) (n : String),
      n ∈ mapKeys (pageareaRulesLoop m cs) ↔ n ∈ mapKeys m ∨ ∃ a, a ∈ cs ∧ a.name = n := by
  induction cs with
  | nil => intro m n; simp [pageareaRulesLoop]
  | cons x xs ih =>
    intro m n
    have e : pageareaRulesLoop m (x :: xs) = pageareaRulesLoop (mapSet m x.name x.rules) xs :=
      rfl
    rw [e, ih, mem_mapKeys_mapSet]
    constructor
    · rintro ((h | h) | ⟨a, ha, h⟩)
      · exact Or.inr ⟨x, List.mem_cons_self _ _, h.symm⟩
      · exact Or.inl h
      · exact Or.inr ⟨a, List.mem_cons_of_mem _ ha, h⟩
    · rintro (h | ⟨a, ha, h⟩)
      · exact Or.inl (Or.inr h)
      · rcases List.mem_cons.1 ha with e2 | e2
        · subst e2
          exact Or.inl (Or.inl h.symm)
        · exact Or.inr ⟨a, e2, h⟩

theorem lastNamed_mem {cs : List sBlock} {n : String} {a : sBlock}
    (h : lastNamed cs n = some a) : a ∈ cs ∧ a.name = n := by
  unfold lastNamed at h
  have hm := List.mem_of_getLast?_eq_some h
  rw [List.mem_filter] at hm
  exact ⟨hm.1, by simpa using hm.2⟩

theorem lastNamed_eq_none {cs : List sBlock} {n : String}
    (h : ∀ a, a ∈ cs → a.name ≠ n) : lastNamed cs n = none := by
  unfold lastNamed
  rw [List.getLast?_eq_none_iff, List.filter_eq_nil_iff]
  intro a ha
  simpa using h a ha

theorem pageRule_keeps (ext : Externals) (hp : PageHelpers) (pg : Page) (v : qrule) :
    (pageRule ext hp pg v).pageareaRules = pg.pageareaRules ∧
      (pageRule ext hp pg v).PageArea = pg.PageArea ∧
      (pageRule ext hp pg v).Papersize =
        if isSizeRule v then tokenstream.String v.value else pg.Papersize := by
  unfold pageRule isSizeRule
  by_cases h1 : tokenstream.String v.key = "size"
  · simp only [h1, if_true, decide_True, and_self]
  · rw [if_neg h1]
    simp only [h1, decide_False, Bool.false_eq_true, if_false]
    split_ifs <;> exact ⟨rfl, rfl, rfl⟩

theorem pageRules_keeps (ext : Externals) (hp : PageHelpers) (rules : List qrule)
    (pg : Page) :
    (rules.foldl (pageRule ext hp) pg).pageareaRules = pg.pageareaRules ∧
      (rules.foldl (pageRule ext hp) pg).PageArea = pg.PageArea ∧
      (rules.foldl (pageRule ext hp) pg).Papersize = (lastSize rules).getD pg.Papersize := by
  induction rules using List.reverseRecOn with
  | nil => exact ⟨rfl, rfl, rfl⟩
  | append_singleton xs x ih =>
    rw [List.foldl_append, List.foldl_cons, List.foldl_nil]
    obtain ⟨k1, k2, k3⟩ := pageRule_keeps ext hp (xs.foldl (pageRule ext hp) pg) x
    refine ⟨k1.trans ih.1, k2.trans ih.2.1, ?_⟩
    rw [k3]
    unfold lastSize
    rw [List.filter_append]
    by_cases h : isSizeRule x = true
    · rw [if_pos h]
      have e : List.filter isSizeRule [x] = [x] := by simp [List.filter_cons, h]
      rw [e, List.getLast?_concat]
      rfl
    · rw [if_neg h]
      have e : List.filter isSizeRule [x] = [] := by simp [List.filter_cons, h]
      rw [e, List.append_nil]
      exact ih.2.2

/-- The fields of the page that `doPage` stores. -/
theorem pageOf_fields (ext : Externals) (hp : PageHelpers) (order : RangeOrder) (pg : Page)
    (block : sBlock) :
    (pageOf ext hp order pg block).pageareaRules =
        pageareaRulesLoop pg.pageareaRules block.childAtRules ∧
      (pageOf ext hp order pg block).PageArea =
        pageAreaLoop ext hp pg.PageArea
          (order (pageareaRulesLoop pg.pageareaRules block.childAtRules)) ∧
      (pageOf ext hp order pg block).Papersize = (lastSize block.rules).getD pg.Papersize := by
  obtain ⟨k1, k2, k3⟩ := pageRules_keeps ext hp block.rules pg
  unfold pageOf
  dsimp only
  rw [k1, k2]
  exact ⟨rfl, rfl, k3⟩

theorem isRange_keys {α : Type} {L M : List (String × α)} (h : IsRange L M) (n : String) :
    n ∈ mapKeys L ↔ n ∈ mapKeys M := by
  constructor
  · intro hn
    obtain ⟨p, hp, rfl⟩ := List.mem_map.1 hn
    exact (mem_mapKeys_iff M p.1).2 ⟨p.2, h.2.1 p hp⟩
  · intro hn
    obtain ⟨p, hp, rfl⟩ := List.mem_map.1 hn
    exact h.2.2 p hp

theorem pageAreaLoop_keys (ext : Externals) (hp : PageHelpers)
    (pa0 : List (String × List (String × String))) (L : List (String × List qrule))
    (k : String) :
    k ∈ mapKeys (pageAreaLoop ext hp pa0 L) ↔
      k ∈ mapKeys pa0 ∨ ∃ n, n ∈ mapKeys L ∧ goTrimPrefixAt n = k := by
  unfold pageAreaLoop
  rw [foldl_mapSet_keys goTrimPrefixAt (fun v => hp.resolveAttributes (areaAttributes ext v))]
  constructor
  · rintro (h | ⟨kv, hkv, h⟩)
    · exact Or.inl h
    · exact Or.inr ⟨kv.1, List.mem_map.2 ⟨kv, hkv, rfl⟩, h⟩
  · rintro (h | ⟨n, hn, h⟩)
    · exact Or.inl h
    · obtain ⟨kv, hkv, rfl⟩ := List.mem_map.1 hn
      exact Or.inr ⟨kv, hkv, h⟩

/-- The last loop of `doPage`, run over the map `M` in any order that `range`
can take: when no two keys of `M` differ only by a leading `@`, the margin box
of each key holds the resolved declarations that `M` has for the key. -/
theorem pageAreaLoop_get (ext : Externals) (hp : PageHelpers)
    (pa0 : List (String × List (String × String))) (L M : List (String × List qrule))
    (hr : IsRange L M) (hinj : trimInjective (mapKeys M)) (n : String) (v : List qrule)
    (hn : mapGet M n = some v) :
    mapGet (pageAreaLoop ext hp pa0 L) (goTrimPrefixAt n) =
      some (hp.resolveAttributes (areaAttributes ext v)) := by
  have hnL : n ∈ mapKeys L := (isRange_keys hr n).2 ((mem_mapKeys_iff M n).2 ⟨v, hn⟩)
  obtain ⟨kv, hkv, hk⟩ := List.mem_map.1 hnL
  have hv : kv.2 = v := by
    have := hr.2.1 kv hkv
    rw [hk, hn] at this
    exact (Option.some.inj this).symm
  have key := foldl_mapSet_get_unique goTrimPrefixAt
    (fun v => hp.resolveAttributes (areaAttributes ext v)) L pa0 kv hkv (by
      intro kv2 hkv2 he
      have h1 : kv2.1 ∈ mapKeys M := (isRange_keys hr _).1 (List.mem_map.2 ⟨kv2, hkv2, rfl⟩)
      have h2 : kv.1 ∈ mapKeys M := (isRange_keys hr _).1 (List.mem_map.2 ⟨kv, hkv, rfl⟩)
      have e1 : kv2.1 = kv.1 := hinj _ _ h1 h2 he
      have e2 : kv2.2 = kv.2 := by
        have a1 := hr.2.1 kv2 hkv2
        have a2 := hr.2.1 kv hkv
        rw [e1, a2] at a1
        exact (Option.some.inj a1).symm
      exact Prod.ext e1 e2)
  rw [hk, hv] at key
  exact key

theorem doPage_eq (ext : Externals) (hp : PageHelpers) (order : RangeOrder) (c : CSS)
    (m : List (String × Page)) (block : sBlock) (hm : c.Pages = some m) :
    doPage ext hp order c block =
      Run.ret
        { c with
          Pages := some (mapSet m (pageSelector block)
            (pageOf ext hp order ((mapGet m (pageSelector block)).getD {}) block)) } := by
  unfold doPage
  rw [hm]

theorem length_eq_of_same_members {l1 l2 : List String} (h1 : l1.Nodup) (h2 : l2.Nodup)
    (h : ∀ a, a ∈ l1 ↔ a ∈ l2) : l1.length = l2.length :=
  ((List.perm_ext_iff_of_nodup h1 h2).2 h).length_eq

theorem tokenstream.String_data (t : tokenstream) :
    (tokenstream.String t).data = specStringify t := by
  unfold tokenstream.String specStringify
  rw [String.data_join, List.map_map]
  rfl

theorem trimBoth_spec (p : Char → Bool) (l : List Char) :
    ∃ lead trail, (∀ c, c ∈ lead → p c = true) ∧ (∀ c, c ∈ trail → p c = true) ∧
      l = lead ++ (trimBoth p l ++ trail) ∧
      (∀ c, (trimBoth p l).head? = some c → p c = false) ∧
      (∀ c, (trimBoth p l).getLast? = some c → p c = false) := by
  have hsplit : (l.dropWhile p).reverse =
      (l.dropWhile p).reverse.takeWhile p ++ (l.dropWhile p).reverse.dropWhile p :=
    (List.takeWhile_append_dropWhile p _).symm
  have hD : l.dropWhile p =
      trimBoth p l ++ ((l.dropWhile p).reverse.takeWhile p).reverse := by
    have := congrArg List.reverse hsplit
    rw [List.reverse_reverse, List.reverse_append] at this
    exact this
  have hlast : ∀ c, (trimBoth p l).getLast? = some c → p c = false := by
    intro c hc
    unfold trimBoth at hc
    rw [List.getLast?_reverse] at hc
    have := List.head?_dropWhile_not p (l.dropWhile p).reverse
    rw [hc] at this
    simpa using this
  refine ⟨l.takeWhile p, ((l.dropWhile p).reverse.takeWhile p).reverse, ?_, ?_, ?_, ?_, hlast⟩
  · intro c hc
    exact List.mem_takeWhile_imp hc
  · intro c hc
    exact List.mem_takeWhile_imp (List.mem_reverse.1 hc)
  · rw [← hD, List.takeWhile_append_dropWhile]
  · intro c hc
    have h1 : (l.dropWhile p).head? = some c := by
      rw [hD, List.head?_append, hc]
      rfl
    have := List.head?_dropWhile_not p l
    rw [h1] at this
    simpa using this

/-- The selector of `doPage` is the stringified prelude without the blanks at
its ends. -/
theorem pageSelector_spec (block : sBlock) :
    isBlankTrim (pageSelector block) (specStringify block.componentValues) := by
  obtain ⟨lead, trail, h1, h2, h3, h4, h5⟩ :=
    trimBoth_spec (fun x => decide (x = ' ')) (tokenstream.String block.componentValues).data
  refine ⟨lead, trail, ?_, ?_, ?_, ?_, ?_⟩
  · intro c hc
    simpa using h1 c hc
  · intro c hc
    simpa using h2 c hc
  · rw [← tokenstream.String_data]
    exact h3
  · intro hh
    have := h4 ' ' hh
    simp at this
  · intro hh
    have := h5 ' ' hh
    simp at this

/-- C15: `doPage` on an engine whose page map is made and has no entry for the
selector of the block, for any order in which `range` can visit the map of the
margin boxes.  The selector is the stringified prelude (the token values one
after the other) without the blanks at its two ends, `""` for an empty
prelude; the page stored under the selector has a margin-box map
whose keys, each once, are the names of the child at-rules without the prefix
`@`; when no two of the names differ only by a leading `@` it has as many
entries as there are distinct names; and its paper size is the stringified
value of the last `size` declaration of the block (empty without one). -/
theorem doPage_new_page (ext : Externals) (hp : PageHelpers) (order : RangeOrder) (c : CSS)
    (m : List (String × Page)) (block : sBlock) (hm : c.Pages = some m)
    (hnew : mapGet m (pageSelector block) = none)
    (horder : IsRange (order (pageareaRulesLoop [] block.childAtRules))
      (pageareaRulesLoop [] block.childAtRules)) :
    ∃ c2 m2 pg, doPage ext hp order c block = Run.ret c2 ∧ c2.Pages = some m2 ∧
      mapGet m2 (pageSelector block) = some pg ∧
      isBlankTrim (pageSelector block) (specStringify block.componentValues) ∧
      (block.componentValues = [] → pageSelector block = "") ∧
      (∀ k, k ∈ mapKeys pg.PageArea ↔
        ∃ a, a ∈ block.childAtRules ∧ k = goTrimPrefixAt a.name) ∧
      (mapKeys pg.PageArea).Nodup ∧
      (trimInjective (block.childAtRules.map sBlock.name) →
        pg.PageArea.length = ((block.childAtRules.map sBlock.name).dedup).length) ∧
      pg.Papersize = (lastSize block.rules).getD "" := by
  obtain ⟨k1, k2, k3⟩ := pageOf_fields ext hp order {} block
  have hkeys : ∀ k, k ∈ mapKeys (pageOf ext hp order {} block).PageArea ↔
      ∃ a, a ∈ block.childAtRules ∧ k = goTrimPrefixAt a.name := by
    intro k
    rw [k2, pageAreaLoop_keys]
    constructor
    · rintro (h | ⟨n, hn, h⟩)
      · exact absurd h (List.not_mem_nil _)
      · rw [isRange_keys horder, pageareaRulesLoop_keys] at hn
        rcases hn with hn | ⟨a, ha, hn⟩
        · exact absurd hn (List.not_mem_nil _)
        · exact ⟨a, ha, by rw [hn, h]⟩
    · rintro ⟨a, ha, h⟩
      refine Or.inr ⟨a.name, ?_, h.symm⟩
      rw [isRange_keys horder, pageareaRulesLoop_keys]
      exact Or.inr ⟨a, ha, rfl⟩
  have hnodup : (mapKeys (pageOf ext hp order {} block).PageArea).Nodup := by
    rw [k2]
    exact foldl_mapSet_nodup goTrimPrefixAt
      (fun v => hp.resolveAttributes (areaAttributes ext v)) _ [] List.nodup_nil
  refine ⟨_, _, pageOf ext hp order {} block, doPage_eq ext hp order c m block hm, rfl, ?_,
    pageSelector_spec block, ?_, hkeys, hnodup, ?_, k3⟩
  · rw [hnew, mapGet_mapSet, if_pos rfl]
    rfl
  · intro h
    unfold pageSelector
    rw [h]
    rfl
  · intro hinj
    have hlen : (pageOf ext hp order {} block).PageArea.length =
        (mapKeys (pageOf ext hp order {} block).PageArea).length := by
      unfold mapKeys
      rw [List.length_map]
    rw [hlen, ← List.length_map ((block.childAtRules.map sBlock.name).dedup) goTrimPrefixAt]
    apply length_eq_of_same_members hnodup
    · apply List.Nodup.map_on _ (List.nodup_dedup _)
      intro x hx y hy hxy
      exact hinj x y (List.mem_dedup.1 hx) (List.mem_dedup.1 hy) hxy
    · intro k
      rw [hkeys]
      simp only [List.mem_map, List.mem_dedup]
      constructor
      · rintro ⟨a, ha, h⟩
        exact ⟨a.name, ⟨a, ha, rfl⟩, h.symm⟩
      · rintro ⟨n, ⟨a, ha, hn⟩, h⟩
        exact ⟨a, ha, by rw [hn, h]⟩

/-- C15 on `samplePageFirst` (the prelude `:first` and a blank), for an engine
that has a page under the selector `""` only, and on `samplePage` (an empty
prelude, three margin boxes), for an engine with an empty page map. -/
theorem doPage_new_page_witness :
    (∃ c2 m2 pg,
      doPage sampleExternals sampleHelpers id { Pages := some [("", { Papersize := "a5" })] }
          samplePageFirst = Run.ret c2 ∧
      c2.Pages = some m2 ∧ mapGet m2 (pageSelector samplePageFirst) = some pg ∧
      isBlankTrim (pageSelector samplePageFirst)
        (specStringify samplePageFirst.componentValues) ∧
      (samplePageFirst.componentValues = [] → pageSelector samplePageFirst = "") ∧
      (∀ k, k ∈ mapKeys pg.PageArea ↔
        ∃ a, a ∈ samplePageFirst.childAtRules ∧ k = goTrimPrefixAt a.name) ∧
      (mapKeys pg.PageArea).Nodup ∧
      (trimInjective (samplePageFirst.childAtRules.map sBlock.name) →
        pg.PageArea.length =
          ((samplePageFirst.childAtRules.map sBlock.name).dedup).length) ∧
      pg.Papersize = (lastSize samplePageFirst.rules).getD "") ∧
    (∃ c2 m2 pg,
      doPage sampleExternals sampleHelpers id { Pages := some [] } samplePage = Run.ret c2 ∧
      c2.Pages = some m2 ∧ mapGet m2 (pageSelector samplePage) = some pg ∧
      isBlankTrim (pageSelector samplePage) (specStringify samplePage.componentValues) ∧
      (samplePage.componentValues = [] → pageSelector samplePage = "") ∧
      (∀ k, k ∈ mapKeys pg.PageArea ↔
        ∃ a, a ∈ samplePage.childAtRules ∧ k = goTrimPrefixAt a.name) ∧
      (mapKeys pg.PageArea).Nodup ∧
      (trimInjective (samplePage.childAtRules.map sBlock.name) →
        pg.PageArea.length = ((samplePage.childAtRules.map sBlock.name).dedup).length) ∧
      pg.Papersize = (lastSize samplePage.rules).getD "") :=
  ⟨doPage_new_page sampleExternals sampleHelpers id
      { Pages := some [("", { Papersize := "a5" })] } [("", { Papersize := "a5" })]
      samplePageFirst rfl rfl ⟨by decide, by decide, by decide⟩,
    doPage_new_page sampleExternals sampleHelpers id { Pages := some [] } [] samplePage rfl rfl
      ⟨by decide, by decide, by decide⟩⟩

/-- The page that `doPage` stores for `samplePageFirst`: it is stored under the
selector `:first`, the prelude `:first ` without its blank, beside the page of
the selector `""`; its paper size is `a4` and it has the margin box
`top-center`. -/
theorem doPage_samplePageFirst :
    pageSelector samplePageFirst = ":first" ∧
    specStringify samplePageFirst.componentValues = [':', 'f', 'i', 'r', 's', 't', ' '] ∧
    ∃ c2 pg,
      doPage sampleExternals sampleHelpers id { Pages := some [("", { Papersize := "a5" })] }
          samplePageFirst = Run.ret c2 ∧
      c2.Pages = some [("", { Papersize := "a5" }), (":first", pg)] ∧
      pg.Papersize = "a4" ∧ pg.PageArea = [("top-center", [("!content", "x")])] :=
  ⟨by decide, by decide, _, _, rfl, rfl, rfl, rfl⟩

/-- The page that `doPage` stores for `samplePage`: paper size `a5`, and the
margin boxes of the three corners. -/
theorem doPage_samplePage :
    ∃ c2 pg, doPage sampleExternals sampleHelpers id { Pages := some [] } samplePage =
        Run.ret c2 ∧
      c2.Pages = some [("", pg)] ∧ pg.Papersize = "a5" ∧
      pg.PageArea =
        [("bottom-right-corner", [("!border", "4pt")]),
         ("top-right-corner", [("!border", "3pt")]),
         ("bottom-left-corner", [("!border", "2pt")])] ∧
      ((samplePage.childAtRules.map sBlock.name).dedup).length = 3 :=
  ⟨_, _, rfl, rfl, rfl, rfl, by decide⟩

theorem pageRules_margins (ext : Externals) (hp : PageHelpers) (rules : List qrule) :
    ∀ pg : Page, (∀ q, q ∈ rules → isMarginRule q = false) → emptyMargins pg →
      emptyMargins (rules.foldl (pageRule ext hp) pg) := by
  induction rules with
  | nil => intro pg _ h; exact h
  | cons q rest ih =>
    intro pg hq h
    rw [List.foldl_cons]
    apply ih _ (fun q2 h2 => hq q2 (List.mem_cons_of_mem _ h2))
    have hm : ¬ tokenstream.String q.key = "margin" := by
      have := hq q (List.mem_cons_self _ _)
      unfold isMarginRule at this
      simpa using this
    unfold pageRule
    split_ifs
    · exact h
    · exact h

/-- C16: two `@page` blocks with the same selector, processed by `doPage` one
after the other on an engine whose page map is made, in any orders of the
`range` loops.  They end in one entry under the selector and leave the other
entries alone; its paper size is that of the later block if it declares
`size`, otherwise what the earlier block left; each name of a margin box of the
later block has the declarations of the later block, every other name keeps
what the earlier block left, where the names of the earlier block have its
declarations; when no two names differ only by a leading `@`, the margin-box
map holds, under each name without its prefix `@`, the resolved declarations of
that name; and for a selector that had no entry the earlier block starts from
an empty paper size, empty margins and no margin boxes. -/
theorem doPage_accumulates (ext : Externals) (hp : PageHelpers) (order1 order2 : RangeOrder)
    (c : CSS) (m : List (String × Page)) (b1 b2 : sBlock) (hm : c.Pages = some m)
    (hsel : pageSelector b2 = pageSelector b1) :
    ∃ c1 c2 m1 m2 pg1 pg2,
      doPage ext hp order1 c b1 = Run.ret c1 ∧ doPage ext hp order2 c1 b2 = Run.ret c2 ∧
      c1.Pages = some m1 ∧ mapGet m1 (pageSelector b1) = some pg1 ∧
      c2.Pages = some m2 ∧ mapGet m2 (pageSelector b1) = some pg2 ∧
      (∀ s, s ≠ pageSelector b1 → mapGet m2 s = mapGet m s) ∧
      pg2.Papersize = (lastSize b2.rules).getD pg1.Papersize ∧
      (∀ n a, lastNamed b2.childAtRules n = some a →
        mapGet pg2.pageareaRules n = some a.rules) ∧
      (∀ n, lastNamed b2.childAtRules n = none →
        mapGet pg2.pageareaRules n = mapGet pg1.pageareaRules n) ∧
      (∀ n a, lastNamed b1.childAtRules n = some a →
        mapGet pg1.pageareaRules n = some a.rules) ∧
      (IsRange (order2 pg2.pageareaRules) pg2.pageareaRules →
        trimInjective (mapKeys pg2.pageareaRules) →
        ∀ n v, mapGet pg2.pageareaRules n = some v →
          mapGet pg2.PageArea (goTrimPrefixAt n) =
            some (hp.resolveAttributes (areaAttributes ext v))) ∧
      (mapGet m (pageSelector b1) = none →
        pg1.Papersize = (lastSize b1.rules).getD "" ∧
        ((∀ q, q ∈ b1.rules → isMarginRule q = false) → emptyMargins pg1) ∧
        ∀ n, lastNamed b1.childAtRules n = none → mapGet pg1.pageareaRules n = none) := by
  have hg1 : mapGet (mapSet m (pageSelector b1)
      (pageOf ext hp order1 ((mapGet m (pageSelector b1)).getD {}) b1)) (pageSelector b1) =
      some (pageOf ext hp order1 ((mapGet m (pageSelector b1)).getD {}) b1) := by
    rw [mapGet_mapSet, if_pos rfl]
  have hd2 := doPage_eq ext hp order2
    { c with Pages := some (mapSet m (pageSelector b1)
      (pageOf ext hp order1 ((mapGet m (pageSelector b1)).getD {}) b1)) } _ b2 rfl
  rw [hsel, hg1] at hd2
  obtain ⟨p1, _, p3⟩ := pageOf_fields ext hp order1 ((mapGet m (pageSelector b1)).getD {}) b1
  obtain ⟨q1, q2, q3⟩ := pageOf_fields ext hp order2
    (pageOf ext hp order1 ((mapGet m (pageSelector b1)).getD {}) b1) b2
  refine ⟨_, _, _, _, _, _, doPage_eq ext hp order1 c m b1 hm, hd2, rfl, hg1, rfl, ?_, ?_, q3,
    ?_, ?_, ?_, ?_, ?_⟩
  · rw [mapGet_mapSet, if_pos rfl]
    rfl
  · intro s hs
    rw [mapGet_mapSet, if_neg (fun e => hs e.symm), mapGet_mapSet,
      if_neg (fun e => hs e.symm)]
  · intro n a ha
    rw [q1, pageareaRulesLoop_get, ha]
    rfl
  · intro n hn
    rw [q1, pageareaRulesLoop_get, hn]
    rfl
  · intro n a ha
    rw [p1, pageareaRulesLoop_get, ha]
    rfl
  · intro hr hinj n v hv
    rw [q2]
    rw [q1] at hr hinj hv
    exact pageAreaLoop_get ext hp _ _ _ hr hinj n v hv
  · intro hnew
    rw [hnew]
    obtain ⟨r1, _, r3⟩ := pageOf_fields ext hp order1 {} b1
    refine ⟨r3, ?_, ?_⟩
    · intro hq
      exact pageRules_margins ext hp b1.rules {} hq ⟨rfl, rfl, rfl, rfl⟩
    · intro n hn
      show mapGet (pageOf ext hp order1 {} b1).pageareaRules n = none
      rw [r1, pageareaRulesLoop_get, hn]
      rfl

/-- C16 on `samplePage` followed by `samplePageLater`, for an engine with an
empty page map. -/
theorem doPage_accumulates_witness :
    ∃ c1 c2 m1 m2 pg1 pg2,
      doPage sampleExternals sampleHelpers id { Pages := some [] } samplePage = Run.ret c1 ∧
      doPage sampleExternals sampleHelpers id c1 samplePageLater = Run.ret c2 ∧
      c1.Pages = some m1 ∧ mapGet m1 (pageSelector samplePage) = some pg1 ∧
      c2.Pages = some m2 ∧ mapGet m2 (pageSelector samplePage) = some pg2 ∧
      (∀ s, s ≠ pageSelector samplePage → mapGet m2 s = mapGet [] s) ∧
      pg2.Papersize = (lastSize samplePageLater.rules).getD pg1.Papersize ∧
      (∀ n a, lastNamed samplePageLater.childAtRules n = some a →
        mapGet pg2.pageareaRules n = some a.rules) ∧
      (∀ n, lastNamed samplePageLater.childAtRules n = none →
        mapGet pg2.pageareaRules n = mapGet pg1.pageareaRules n) ∧
      (∀ n a, lastNamed samplePage.childAtRules n = some a →
        mapGet pg1.pageareaRules n = some a.rules) ∧
      (IsRange (id pg2.pageareaRules) pg2.pageareaRules →
        trimInjective (mapKeys pg2.pageareaRules) →
        ∀ n v, mapGet pg2.pageareaRules n = some v →
          mapGet pg2.PageArea (goTrimPrefixAt n) =
            some (sampleHelpers.resolveAttributes (areaAttributes sampleExternals v))) ∧
      (mapGet ([] : List (String × Page)) (pageSelector samplePage) = none →
        pg1.Papersize = (lastSize samplePage.rules).getD "" ∧
        ((∀ q, q ∈ samplePage.rules → isMarginRule q = false) → emptyMargins pg1) ∧
        ∀ n, lastNamed samplePage.childAtRules n = none → mapGet pg1.pageareaRules n = none) :=
  doPage_accumulates sampleExternals sampleHelpers id id { Pages := some [] } [] samplePage
    samplePageLater rfl rfl

/-- The page after `samplePage` and `samplePageLater`: the paper size `a5` of
the earlier block, the border of `top-right-corner` of the later one, the
other margin boxes of the earlier one. -/
theorem doPage_samplePageLater :
    ∃ c1 c2 pg, doPage sampleExternals sampleHelpers id { Pages := some [] } samplePage =
        Run.ret c1 ∧
      doPage sampleExternals sampleHelpers id c1 samplePageLater = Run.ret c2 ∧
      c2.Pages = some [("", pg)] ∧ pg.Papersize = "a5" ∧
      pg.PageArea =
        [("bottom-right-corner", [("!border", "4pt")]),
         ("top-right-corner", [("!border", "1pt")]),
         ("bottom-left-corner", [("!border", "2pt")])] :=
  ⟨_, _, _, rfl, rfl, rfl, rfl, rfl⟩

/-- Why the margin boxes need names that do not differ only by a leading `@`:
for the names `@a` and `a` the last loop of `doPage` writes both under the key
`a`, and what is left there depends on the order of the `range` loop. -/
theorem pageAreaLoop_order_matters :
    mapGet
        (pageAreaLoop sampleExternals sampleHelpers []
          [("@a", [⟨[⟨TokenType.Ident, "x"⟩], [⟨TokenType.Ident, "1"⟩]⟩]),
           ("a", [⟨[⟨TokenType.Ident, "x"⟩], [⟨TokenType.Ident, "2"⟩]⟩])]) "a" =
      some [("!x", "2")] ∧
    mapGet
        (pageAreaLoop sampleExternals sampleHelpers []
          [("a", [⟨[⟨TokenType.Ident, "x"⟩], [⟨TokenType.Ident, "2"⟩]⟩]),
           ("@a", [⟨[⟨TokenType.Ident, "x"⟩], [⟨TokenType.Ident, "1"⟩]⟩])]) "a" =
      some [("!x", "1")] :=
  ⟨rfl, rfl⟩

/-! ### The block parser: single blocks, empty blocks, whitespace after a block -/

/-- C18 at failing inputs, the tokens of `p{ color:red;; }` and of
`@font-face{ src:x;; }` (a prelude, `{`, a body that is not empty, the matching
`}`): the recursive call on the body reaches the second `;` with
`colon = 0 < start` and panics, so no node is recorded. -/
theorem consumeBlock_single_block_panics :
    consumeBlock
        [⟨TokenType.Ident, "p"⟩, ⟨TokenType.Delim, "\x7b"⟩, ⟨TokenType.S, " "⟩,
         ⟨TokenType.Ident, "color"⟩, ⟨TokenType.Delim, ":"⟩, ⟨TokenType.Ident, "red"⟩,
         ⟨TokenType.Delim, ";"⟩, ⟨TokenType.Delim, ";"⟩, ⟨TokenType.S, " "⟩,
         ⟨TokenType.Delim, "\x7d"⟩] false = Run.panic ∧
    consumeBlock
        [⟨TokenType.AtKeyword, "font-face"⟩, ⟨TokenType.Delim, "\x7b"⟩, ⟨TokenType.S, " "⟩,
         ⟨TokenType.Ident, "src"⟩, ⟨TokenType.Delim, ":"⟩, ⟨TokenType.Ident, "x"⟩,
         ⟨TokenType.Delim, ";"⟩, ⟨TokenType.Delim, ";"⟩, ⟨TokenType.S, " "⟩,
         ⟨TokenType.Delim, "\x7d"⟩] false = Run.panic :=
  ⟨rfl, rfl⟩

/-- C19 fails as stated: on the tokens of `a{}` no node is recorded, while on
those of `a{ }` (a body of one whitespace token) an empty node with the
selector `a` is; and on the tokens of `a{}b{c:d}` the one node recorded has
the selector `a`, `{`, `}`, `b`: the prelude of the second block does not start
after the closing brace of the first. -/
theorem consumeBlock_empty_body :
    consumeBlock
        [⟨TokenType.Ident, "a"⟩, ⟨TokenType.Delim, "\x7b"⟩, ⟨TokenType.Delim, "\x7d"⟩]
        false = Run.ret (sBlock.mk "" [] [] [] []) ∧
    consumeBlock
        [⟨TokenType.Ident, "a"⟩, ⟨TokenType.Delim, "\x7b"⟩, ⟨TokenType.S, " "⟩,
         ⟨TokenType.Delim, "\x7d"⟩] false =
      Run.ret (sBlock.mk "" [] [] [sBlock.mk "" [⟨TokenType.Ident, "a"⟩] [] [] []] []) ∧
    consumeBlock
        [⟨TokenType.Ident, "a"⟩, ⟨TokenType.Delim, "\x7b"⟩, ⟨TokenType.Delim, "\x7d"⟩,
         ⟨TokenType.Ident, "b"⟩, ⟨TokenType.Delim, "\x7b"⟩, ⟨TokenType.Ident, "c"⟩,
         ⟨TokenType.Delim, ":"⟩, ⟨TokenType.Ident, "d"⟩, ⟨TokenType.Delim, "\x7d"⟩] false =
      Run.ret (sBlock.mk "" [] []
        [sBlock.mk ""
          [⟨TokenType.Ident, "a"⟩, ⟨TokenType.Delim, "\x7b"⟩, ⟨TokenType.Delim, "\x7d"⟩,
           ⟨TokenType.Ident, "b"⟩] [] []
          [⟨[⟨TokenType.Ident, "c"⟩], [⟨TokenType.Ident, "d"⟩]⟩]] []) :=
  ⟨rfl, rfl, rfl⟩

/-- C20 at a failing input: the tokens of `a{b:c}`, two whitespace tokens,
`@media{d{e:f}}`.  With one whitespace token between the blocks the second is
the child at-rule `media`; with two the second whitespace token is where its
prelude starts, and it is recorded as a nested block with the selector
`media`, no child at-rule. -/
theorem consumeBlock_two_spaces :
    consumeBlock
        [⟨TokenType.Ident, "a"⟩, ⟨TokenType.Delim, "\x7b"⟩, ⟨TokenType.Ident, "b"⟩,
         ⟨TokenType.Delim, ":"⟩, ⟨TokenType.Ident, "c"⟩, ⟨TokenType.Delim, "\x7d"⟩,
         ⟨TokenType.S, " "⟩, ⟨TokenType.AtKeyword, "media"⟩, ⟨TokenType.Delim, "\x7b"⟩,
         ⟨TokenType.Ident, "d"⟩, ⟨TokenType.Delim, "\x7b"⟩, ⟨TokenType.Ident, "e"⟩,
         ⟨TokenType.Delim, ":"⟩, ⟨TokenType.Ident, "f"⟩, ⟨TokenType.Delim, "\x7d"⟩,
         ⟨TokenType.Delim, "\x7d"⟩] false =
      Run.ret (sBlock.mk "" []
        [sBlock.mk "media" [] []
          [sBlock.mk "" [⟨TokenType.Ident, "d"⟩] [] []
            [⟨[⟨TokenType.Ident, "e"⟩], [⟨TokenType.Ident, "f"⟩]⟩]] []]
        [sBlock.mk "" [⟨TokenType.Ident, "a"⟩] [] []
          [⟨[⟨TokenType.Ident, "b"⟩], [⟨TokenType.Ident, "c"⟩]⟩]] []) ∧
    consumeBlock
        [⟨TokenType.Ident, "a"⟩, ⟨TokenType.Delim, "\x7b"⟩, ⟨TokenType.Ident, "b"⟩,
         ⟨TokenType.Delim, ":"⟩, ⟨TokenType.Ident, "c"⟩, ⟨TokenType.Delim, "\x7d"⟩,
         ⟨TokenType.S, " "⟩, ⟨TokenType.S, " "⟩, ⟨TokenType.AtKeyword, "media"⟩,
         ⟨TokenType.Delim, "\x7b"⟩, ⟨TokenType.Ident, "d"⟩, ⟨TokenType.Delim, "\x7b"⟩,
         ⟨TokenType.Ident, "e"⟩, ⟨TokenType.Delim, ":"⟩, ⟨TokenType.Ident, "f"⟩,
         ⟨TokenType.Delim, "\x7d"⟩, ⟨TokenType.Delim, "\x7d"⟩] false =
      Run.ret (sBlock.mk "" [] []
        [sBlock.mk "" [⟨TokenType.Ident, "a"⟩] [] []
          [⟨[⟨TokenType.Ident, "b"⟩], [⟨TokenType.Ident, "c"⟩]⟩],
         sBlock.mk "" [⟨TokenType.AtKeyword, "media"⟩] []
          [sBlock.mk "" [⟨TokenType.Ident, "d"⟩] [] []
            [⟨[⟨TokenType.Ident, "e"⟩], [⟨TokenType.Ident, "f"⟩]⟩]] []] []) :=
  ⟨rfl, rfl⟩

/-- At a token that is no `;`, and no `{` with a body, an iteration of the
loop changes at most `colon`. -/
theorem consumeStep_passedOver (f : LoopFn) (toks : tokenstream) (inblock : Bool) (b : sBlock)
    (i start colon : Nat) (t : Token) (ht : toks[i]? = some t) (hp : passedOver toks i) :
    consumeStep f toks inblock b i start colon =
      consumeNext f toks inblock b i start
        (if t.Typ = TokenType.Delim ∧ t.Value = ":" ∧ inblock = true then i else colon) := by
  have hi : i < toks.length := (List.getElem?_eq_some_iff.1 ht).1
  obtain ⟨h1, h2⟩ := hp t ht
  unfold consumeStep
  rw [if_neg (by omega)]
  simp only [ht]
  by_cases hd : t.Typ = TokenType.Delim
  · rw [if_pos hd]
    by_cases hc : t.Value = ":"
    · rw [if_pos hc]
      cases inblock <;> simp [hd, hc]
    · rw [if_neg hc, if_neg (fun h => h1 ⟨hd, h⟩)]
      by_cases hb : t.Value = "\x7b"
      · rw [if_pos hb, if_pos (h2 ⟨hd, hb⟩)]
        simp [hc]
      · rw [if_neg hb]
        simp [hc]
  · rw [if_neg hd]
    simp [hd]

/-- Over a stream whose positions from `i` on are all passed over, the loop
is left with the node and `start` it was entered with. -/
theorem loopRuns_passedOver (toks : tokenstream) (inblock : Bool) (b : sBlock) (start : Nat)
    (hp : ∀ i, passedOver toks i) :
    ∀ (n i colon : Nat), toks.length - i = n → i ≤ toks.length → start ≤ i →
      colonOk toks start colon →
      ∃ colon2, LoopRuns toks inblock b i start colon ⟨b, start, colon2⟩ ∧
        colonOk toks start colon2 := by
  intro n
  induction n with
  | zero =>
    intro i colon hn hi _ hc
    exact ⟨colon, loopRuns_end toks inblock b i start colon (by omega), hc⟩
  | succ n ih =>
    intro i colon hn hi hs hc
    have hlt : i < toks.length := by omega
    obtain ⟨t, ht⟩ : ∃ t, toks[i]? = some t := ⟨toks[i], List.getElem?_eq_getElem hlt⟩
    have hstep := fun f => consumeStep_passedOver f toks inblock b i start colon t ht (hp i)
    have hc2 : colonOk toks start
        (if t.Typ = TokenType.Delim ∧ t.Value = ":" ∧ inblock = true then i else colon) := by
      split_ifs
      · exact Or.inr ⟨hs, hlt⟩
      · exact hc
    by_cases hlast : i + 1 = toks.length
    · exact ⟨_, loopRuns_of_last hstep hlast, hc2⟩
    · obtain ⟨colon2, hrun, hok⟩ := ih (i + 1) _ (by omega) (by omega) (by omega) hc2
      exact ⟨colon2, loopRuns_of_next hstep (by omega) hrun, hok⟩

theorem consumeFinish_colonOk (toks : tokenstream) (b : sBlock) (start colon : Nat)
    (hc : colonOk toks start colon) :
    ∃ node, consumeFinish toks b start colon = Run.ret node ∧
      node.childAtRules = b.childAtRules ∧ node.blocks = b.blocks := by
  unfold consumeFinish
  by_cases h0 : colon > 0
  · rw [if_pos h0]
    rcases hc with hc | ⟨h1, h2⟩
    · omega
    · unfold goSlice
      rw [if_pos ⟨h1, by omega⟩, if_pos ⟨by omega, le_refl _⟩]
      refine ⟨_, rfl, ?_, ?_⟩ <;> cases b <;> rfl
  · rw [if_neg h0]
    exact ⟨b, rfl, rfl, rfl⟩

theorem skipSpaceLoop_le (toks : tokenstream) :
    ∀ i, skipSpaceLoop toks i ≤ i + toks.length := by
  induction toks with
  | nil => intro i; simp [skipSpaceLoop]
  | cons t rest ih =>
    intro i
    rw [skipSpaceLoop]
    split_ifs
    · have := ih (i + 1)
      simp only [List.length_cons]
      omega
    · omega

/-- A stream all of whose positions are passed over parses to a node without
child at-rules and without nested blocks. -/
theorem consumeBlock_passedOver (toks : tokenstream) (inblock : Bool)
    (hp : ∀ i, passedOver toks i) :
    ∃ node, consumeBlock toks inblock = Run.ret node ∧ node.childAtRules = [] ∧
      node.blocks = [] := by
  by_cases hlen : toks.length ≤ 1
  · refine ⟨sBlock.empty, ?_, rfl, rfl⟩
    unfold consumeBlock consumeBlockFuel consumeBlockWith
    rw [if_pos hlen]
  · have hle : skipSpaceLoop toks 0 ≤ toks.length := by
      have := skipSpaceLoop_le toks 0
      omega
    obtain ⟨colon2, hrun, hok⟩ := loopRuns_passedOver toks inblock sBlock.empty
      (skipSpaceLoop toks 0) hp _ (skipSpaceLoop toks 0) 0 rfl hle (le_refl _) (Or.inl rfl)
    obtain ⟨node, hfin, h1, h2⟩ := consumeFinish_colonOk toks sBlock.empty
      (skipSpaceLoop toks 0) colon2 hok
    exact ⟨node, consumeBlock_of_loopRuns hlen hrun hfin, h1, h2⟩

theorem findClosingBrace_close (tail : tokenstream) :
    findClosingBrace (braceCloseTok :: tail) = 1 := by
  simp [findClosingBrace, findClosingBraceLoop, braceCloseTok]

theorem passedOver_of_prelude {toks : tokenstream} {i : Nat}
    (h : ∀ t, toks[i]? = some t → isPreludeTok t) : passedOver toks i := by
  intro t ht
  have := h t ht
  unfold isPreludeTok at this
  exact ⟨fun h1 => this ⟨h1.1, Or.inl h1.2⟩, fun h1 => absurd ⟨h1.1, Or.inr h1.2⟩ this⟩

/-- C19, as amended: for a block whose body is empty, `consumeBlock` records no
node.  A stream that has, besides tokens other than the delimiters `;` and
`{`, one opening brace with its closing brace right after it, parses (in either
mode) to a node without child at-rules and without nested blocks. -/
theorem consumeBlock_empty_block (pre tail : tokenstream) (inblock : Bool)
    (hpre : ∀ t, t ∈ pre → isPreludeTok t) (htail : ∀ t, t ∈ tail → isPreludeTok t) :
    ∃ node, consumeBlock (pre ++ braceOpenTok :: braceCloseTok :: tail) inblock =
        Run.ret node ∧
      node.childAtRules = [] ∧ node.blocks = [] := by
  apply consumeBlock_passedOver
  intro i
  rcases Nat.lt_trichotomy i pre.length with hlt | heq | hgt
  · apply passedOver_of_prelude
    intro t ht
    rw [List.getElem?_append_left hlt] at ht
    exact hpre t (List.getElem?_mem ht)
  · subst heq
    intro t ht
    rw [getElem?_append_cons] at ht
    have e : t = braceOpenTok := (Option.some.inj ht).symm
    subst e
    refine ⟨by decide, fun _ => ?_⟩
    have e2 : pre ++ braceOpenTok :: braceCloseTok :: tail =
        (pre ++ [braceOpenTok]) ++ braceCloseTok :: tail := by simp
    have e3 : pre.length + 1 = (pre ++ [braceOpenTok]).length := by simp
    rw [e2, e3, List.drop_left]
    exact findClosingBrace_close tail
  · apply passedOver_of_prelude
    intro t ht
    rw [List.getElem?_append_right (by omega)] at ht
    obtain ⟨k, hk⟩ : ∃ k, i - pre.length = k + 1 := ⟨i - pre.length - 1, by omega⟩
    rw [hk, List.getElem?_cons_succ] at ht
    cases k with
    | zero =>
      rw [List.getElem?_cons_zero] at ht
      have e : t = braceCloseTok := (Option.some.inj ht).symm
      subst e
      decide
    | succ k =>
      rw [List.getElem?_cons_succ] at ht
      exact htail t (List.getElem?_mem ht)

/-- C19 as amended, on the tokens of `a{} b`. -/
theorem consumeBlock_empty_block_witness :
    ∃ node,
      consumeBlock
          ([⟨TokenType.Ident, "a"⟩] ++ braceOpenTok :: braceCloseTok ::
            [⟨TokenType.S, " "⟩, ⟨TokenType.Ident, "b"⟩]) false = Run.ret node ∧
      node.childAtRules = [] ∧ node.blocks = [] :=
  consumeBlock_empty_block [⟨TokenType.Ident, "a"⟩]
    [⟨TokenType.S, " "⟩, ⟨TokenType.Ident, "b"⟩] false (by decide) (by decide)

/-! ### A stream of one block -/

/-- An iteration of the loop at the opening brace of a block with a body that
is not empty, whatever the token at `start` is: the node of the body is
recorded as a child at-rule or as a nested block. -/
theorem consumeStep_brace_any (f : LoopFn) (toks : tokenstream) (inblock : Bool) (b : sBlock)
    (g start colon : Nat) (body preA preB : tokenstream) (starttok : Token) (nb : sBlock)
    (ht : toks[g]? = some braceOpenTok)
    (hl : findClosingBrace (toks.drop (g + 1)) = body.length + 1) (hbody : body ≠ [])
    (hsub : goSlice toks (g + 1) (g + (body.length + 1)) = some body)
    (hst : toks[start]? = some starttok)
    (hnb : consumeBlockWith f body
      (!(decide (starttok.Typ = TokenType.AtKeyword ∧
        (starttok.Value = "media" ∨ starttok.Value = "supports")))) = Run.ret nb)
    (hpreA : goSlice toks (start + 1) g = some preA)
    (hpreB : goSlice toks start g = some preB) :
    consumeStep f toks inblock b g start colon =
      if isSpaceAt toks (g + (body.length + 1) + 1) then
        consumeNext f toks inblock
          (if starttok.Typ = TokenType.AtKeyword then
            b.addChildAtRule
              ((nb.setName starttok.Value).setComponentValues (fixupComponentValues preA))
          else b.addBlock (nb.setComponentValues (fixupComponentValues preB)))
          (g + (body.length + 1) + 1) (g + (body.length + 1) + 2) colon
      else
        consumeNext f toks inblock
          (if starttok.Typ = TokenType.AtKeyword then
            b.addChildAtRule
              ((nb.setName starttok.Value).setComponentValues (fixupComponentValues preA))
          else b.addBlock (nb.setComponentValues (fixupComponentValues preB)))
          (g + (body.length + 1)) (g + (body.length + 1) + 1) colon := by
  have hi : g < toks.length := (List.getElem?_eq_some_iff.1 ht).1
  have hlen : body.length ≠ 0 := fun h0 => hbody (List.length_eq_zero.1 h0)
  unfold consumeStep
  rw [if_neg (by omega)]
  simp only [ht]
  rw [if_pos (by decide), if_neg (by decide), if_neg (by decide), if_pos (by decide), hl,
    if_neg (by omega)]
  simp only [hsub, hst]
  rw [hnb]
  by_cases hat : starttok.Typ = TokenType.AtKeyword
  · simp only [hat, if_true, hpreA, Option.map_some']
  · simp only [hat, if_false, hpreB, Option.map_some']

/-- What the stream of one block gives the statements of the case `{`. -/
theorem single_block_facts (A pre body : tokenstream) (p : Token) (hbal : balanced body) :
    (A ++ (p :: (pre ++ braceOpenTok :: (body ++ [braceCloseTok]))))[A.length + 1 +
        pre.length]? = some braceOpenTok ∧
    findClosingBrace ((A ++ (p :: (pre ++ braceOpenTok :: (body ++ [braceCloseTok])))).drop
        (A.length + 1 + pre.length + 1)) = body.length + 1 ∧
    goSlice (A ++ (p :: (pre ++ braceOpenTok :: (body ++ [braceCloseTok]))))
        (A.length + 1 + pre.length + 1) (A.length + 1 + pre.length + (body.length + 1)) =
      some body ∧
    (A ++ (p :: (pre ++ braceOpenTok :: (body ++ [braceCloseTok]))))[A.length]? = some p ∧
    goSlice (A ++ (p :: (pre ++ braceOpenTok :: (body ++ [braceCloseTok]))))
        (A.length + 1) (A.length + 1 + pre.length) = some pre ∧
    goSlice (A ++ (p :: (pre ++ braceOpenTok :: (body ++ [braceCloseTok]))))
        A.length (A.length + 1 + pre.length) = some (p :: pre) := by
  have e1 : A ++ (p :: (pre ++ braceOpenTok :: (body ++ [braceCloseTok]))) =
      (A ++ (p :: pre)) ++ braceOpenTok :: (body ++ [braceCloseTok]) := by simp
  have h1 : (A ++ (p :: pre)).length = A.length + 1 + pre.length := by
    simp [List.length_append]; omega
  have e2 : A ++ (p :: (pre ++ braceOpenTok :: (body ++ [braceCloseTok]))) =
      (A ++ (p :: (pre ++ [braceOpenTok]))) ++ (body ++ [braceCloseTok]) := by simp
  have h2 : (A ++ (p :: (pre ++ [braceOpenTok]))).length = A.length + 1 + pre.length + 1 := by
    simp [List.length_append]; omega
  have e3 : A ++ (p :: (pre ++ braceOpenTok :: (body ++ [braceCloseTok]))) =
      (A ++ [p]) ++ (pre ++ braceOpenTok :: (body ++ [braceCloseTok])) := by simp
  have h3 : (A ++ [p]).length = A.length + 1 := by simp
  have e4 : A ++ (p :: (pre ++ braceOpenTok :: (body ++ [braceCloseTok]))) =
      A ++ ((p :: pre) ++ braceOpenTok :: (body ++ [braceCloseTok])) := by simp
  refine ⟨?_, ?_, ?_, getElem?_append_cons A _ _, ?_, ?_⟩
  · have := getElem?_append_cons (A ++ (p :: pre)) braceOpenTok (body ++ [braceCloseTok])
    rw [h1, ← e1] at this
    exact this
  · rw [e2, ← h2, List.drop_left]
    exact findClosingBrace_balanced body [] hbal
  · have := goSlice_mid (A ++ (p :: (pre ++ [braceOpenTok]))) body [braceCloseTok]
    rw [h2, ← e2] at this
    have e : A.length + 1 + pre.length + (body.length + 1) =
        A.length + 1 + pre.length + 1 + body.length := by omega
    rw [e]
    exact this
  · have := goSlice_mid (A ++ [p]) pre (braceOpenTok :: (body ++ [braceCloseTok]))
    rw [h3, ← e3] at this
    exact this
  · have := goSlice_mid A (p :: pre) (braceOpenTok :: (body ++ [braceCloseTok]))
    rw [← e4] at this
    have e : A.length + (p :: pre).length = A.length + 1 + pre.length := by
      simp; omega
    rw [e] at this
    exact this

theorem consumeStep_prelude (f : LoopFn) (toks : tokenstream) (b : sBlock)
    (i start colon : Nat) (t : Token) (ht : toks[i]? = some t) (hp : isPreludeTok t) :
    consumeStep f toks false b i start colon = consumeNext f toks false b i start colon := by
  have hpo : passedOver toks i := passedOver_of_prelude (by
    intro t2 ht2
    rw [ht] at ht2
    rw [← Option.some.inj ht2]
    exact hp)
  rw [consumeStep_passedOver f toks false b i start colon t ht hpo]
  simp

/-- In block-container mode the loop passes over a segment of tokens without
the delimiters `;` and `{` that something follows. -/
theorem loopRuns_scan_prelude (seg : tokenstream) :
    ∀ (A B : tokenstream) (b : sBlock) (start colon : Nat) (e : LoopExit),
      (∀ t, t ∈ seg → isPreludeTok t) → B ≠ [] →
      LoopRuns (A ++ (seg ++ B)) false b (A.length + seg.length) start colon e →
      LoopRuns (A ++ (seg ++ B)) false b A.length start colon e := by
  induction seg with
  | nil => intro A B b start colon e _ _ h; simpa using h
  | cons t seg ih =>
    intro A B b start colon e hp hB h
    have hlen : A.length + 1 < (A ++ (t :: seg ++ B)).length := by
      cases B with
      | nil => exact absurd rfl hB
      | cons x B => simp [List.length_append]
    refine loopRuns_of_next
      (fun f => consumeStep_prelude f _ b A.length start colon t
        (getElem?_append_cons A t (seg ++ B)) (hp t (List.mem_cons_self _ _)))
      hlen ?_
    have h2 := ih (A ++ [t]) B b start colon e
      (fun x hx => hp x (List.mem_cons_of_mem _ hx)) hB
    simp only [List.append_assoc, List.singleton_append, List.length_append,
      List.length_singleton] at h2
    apply h2
    simpa [Nat.add_assoc, Nat.add_comm 1] using h

theorem isSpaceAt_of_le (toks : tokenstream) (n : Nat) (h : toks.length ≤ n) :
    isSpaceAt toks n = false := by
  unfold isSpaceAt
  rw [List.getElem?_eq_none h]

/-- A stream of one block on whose body the recursive call returns:
whitespace, a prelude that begins with the token `p` (no whitespace) and has
no delimiter `;` or `{`, `{`, a body that is not empty, the matching `}`.
`consumeBlock(toks, false)` records one node: for an at-keyword `p` the only
child at-rule, named by `p`, with the normalized tokens between `p` and `{` as
prelude; otherwise the only nested block, with the normalized prelude as
selector.  Its content is the node of `consumeBlock(body, flat)`, `flat` being
false exactly for the at-keywords `media` and `supports`. -/
theorem consumeBlock_single_block (ws pre body : tokenstream) (p : Token) (nb : sBlock)
    (hws : isSpaces ws) (hp : p.Typ ≠ TokenType.S) (hpl : ∀ t, t ∈ p :: pre → isPreludeTok t)
    (hbody : body ≠ []) (hbal : balanced body)
    (hnb : consumeBlock body
      (!(decide (p.Typ = TokenType.AtKeyword ∧
        (p.Value = "media" ∨ p.Value = "supports")))) = Run.ret nb) :
    consumeBlock (ws ++ (p :: (pre ++ braceOpenTok :: (body ++ [braceCloseTok])))) false =
      Run.ret
        (if p.Typ = TokenType.AtKeyword then
          sBlock.mk "" []
            [(nb.setName p.Value).setComponentValues (fixupComponentValues pre)] [] []
        else
          sBlock.mk "" [] [] [nb.setComponentValues (fixupComponentValues (p :: pre))] []) := by
  obtain ⟨f1, f2, f3, f4, f5, f6⟩ := single_block_facts ws pre body p hbal
  have hlen : (ws ++ (p :: (pre ++ braceOpenTok :: (body ++ [braceCloseTok])))).length =
      ws.length + 1 + pre.length + (body.length + 1) + 1 := by
    simp [List.length_append]; omega
  have hskip : skipSpaceLoop
      (ws ++ (p :: (pre ++ braceOpenTok :: (body ++ [braceCloseTok])))) 0 = ws.length := by
    have := skipSpaceLoop_spaces ws (p :: (pre ++ braceOpenTok :: (body ++ [braceCloseTok])))
      hws (by
        intro t ht
        simp only [List.head?_cons, Option.some.injEq] at ht
        rw [← ht]
        exact hp) 0
    omega
  have hstep := consumeStep_brace_any (consumeLoop (body.length + 1 + 0))
    (ws ++ (p :: (pre ++ braceOpenTok :: (body ++ [braceCloseTok])))) false sBlock.empty
    (ws.length + 1 + pre.length) ws.length 0 body pre (p :: pre) p nb f1 f2 hbody f3 f4
    (consumeBlockWith_of_consumeBlock hnb 0) f5 f6
  rw [isSpaceAt_of_le _ _ (by omega)] at hstep
  simp only [Bool.false_eq_true, if_false] at hstep
  rw [consumeNext, if_pos (by omega)] at hstep
  have hrun : LoopRuns (ws ++ (p :: (pre ++ braceOpenTok :: (body ++ [braceCloseTok]))))
      false sBlock.empty ws.length ws.length 0
      ⟨if p.Typ = TokenType.AtKeyword then
          sBlock.empty.addChildAtRule
            ((nb.setName p.Value).setComponentValues (fixupComponentValues pre))
        else sBlock.empty.addBlock (nb.setComponentValues (fixupComponentValues (p :: pre))),
        ws.length + 1 + pre.length + (body.length + 1) + 1, 0⟩ := by
    have e4 : ws ++ (p :: (pre ++ braceOpenTok :: (body ++ [braceCloseTok]))) =
        ws ++ ((p :: pre) ++ braceOpenTok :: (body ++ [braceCloseTok])) := by simp
    rw [e4]
    apply loopRuns_scan_prelude (p :: pre) ws _ sBlock.empty ws.length 0 _ hpl (by simp)
    rw [← e4]
    refine ⟨body.length + 1 + 0 + 1, ?_⟩
    have e5 : ws.length + (p :: pre).length = ws.length + 1 + pre.length := by
      simp; omega
    rw [e5]
    exact hstep
  rw [← hskip] at hrun
  refine consumeBlock_of_loopRuns (by omega) hrun ?_
  rw [consumeFinish_zero]
  split_ifs <;> rfl

/-- The theorem `consumeBlock_single_block` on the tokens of ` p em{a:b}` and
of `@media print{p{a:b}}`. -/
theorem consumeBlock_single_block_examples :
    consumeBlock
        [⟨TokenType.S, " "⟩, ⟨TokenType.Ident, "p"⟩, ⟨TokenType.S, " "⟩,
         ⟨TokenType.Ident, "em"⟩, ⟨TokenType.Delim, "\x7b"⟩, ⟨TokenType.Ident, "a"⟩,
         ⟨TokenType.Delim, ":"⟩, ⟨TokenType.Ident, "b"⟩, ⟨TokenType.Delim, "\x7d"⟩] false =
      Run.ret (sBlock.mk "" [] []
        [sBlock.mk "" [⟨TokenType.Ident, "p"⟩, ⟨TokenType.S, " "⟩, ⟨TokenType.Ident, "em"⟩]
          [] [] [⟨[⟨TokenType.Ident, "a"⟩], [⟨TokenType.Ident, "b"⟩]⟩]] []) ∧
    consumeBlock
        [⟨TokenType.AtKeyword, "media"⟩, ⟨TokenType.S, " "⟩, ⟨TokenType.Ident, "print"⟩,
         ⟨TokenType.Delim, "\x7b"⟩, ⟨TokenType.Ident, "p"⟩, ⟨TokenType.Delim, "\x7b"⟩,
         ⟨TokenType.Ident, "a"⟩, ⟨TokenType.Delim, ":"⟩, ⟨TokenType.Ident, "b"⟩,
         ⟨TokenType.Delim, "\x7d"⟩, ⟨TokenType.Delim, "\x7d"⟩] false =
      Run.ret (sBlock.mk "" []
        [sBlock.mk "media" [⟨TokenType.Ident, "print"⟩] []
          [sBlock.mk "" [⟨TokenType.Ident, "p"⟩] [] []
            [⟨[⟨TokenType.Ident, "a"⟩], [⟨TokenType.Ident, "b"⟩]⟩]] []] [] []) :=
  ⟨rfl, rfl⟩

/-! ### Streams that end in `;` have no dangling declaration -/

theorem consumeNext_semi_last {f : LoopFn} {toks : tokenstream}
    (hf : ∀ inblock b i start colon e, i < toks.length →
      f toks inblock b i start colon = Run.ret e → e.colon = 0)
    {inblock : Bool} {b : sBlock} {i start colon : Nat} {e : LoopExit}
    (hi : i < toks.length) (hend : i + 1 = toks.length → colon = 0)
    (h : consumeNext f toks inblock b i start colon = Run.ret e) : e.colon = 0 := by
  unfold consumeNext at h
  split at h
  · rename_i hlen
    simp only [Run.ret.injEq] at h
    subst h
    exact hend hlen
  · rename_i hlen
    exact hf _ _ _ _ _ _ (by omega) h

theorem consumeStep_semi_last {f : LoopFn} {toks : tokenstream}
    (hlast : toks[toks.length - 1]? = some semiTok) (hnb : braceOpenTok ∉ toks)
    (hf : ∀ inblock b i start colon e, i < toks.length →
      f toks inblock b i start colon = Run.ret e → e.colon = 0)
    {inblock : Bool} {b : sBlock} {i start colon : Nat} {e : LoopExit}
    (hi : i < toks.length) (h : consumeStep f toks inblock b i start colon = Run.ret e) :
    e.colon = 0 := by
  unfold consumeStep at h
  split at h
  · rename_i hlen
    exact absurd hlen (by omega)
  · split at h
    · simp at h
    · rename_i t ht
      have hsemi : i + 1 = toks.length → t = semiTok := by
        intro hh
        have h2 : toks.length - 1 = i := by omega
        rw [h2, ht] at hlast
        exact Option.some.inj hlast
      split at h
      · rename_i hdelim
        split at h
        · rename_i hv
          refine consumeNext_semi_last hf hi (fun hh => ?_) h
          rw [hsemi hh] at hv
          exact absurd hv (by decide)
        · split at h
          · split at h
            · split_ifs at h <;>
                first
                | exact consumeNext_semi_last hf hi (fun _ => rfl) h
                | (simp only [Run.ret.injEq] at h; subst h; rfl)
            · simp at h
          · split at h
            · rename_i hbrace
              have hmem : t ∈ toks := List.getElem?_mem ht
              have : t = braceOpenTok := by
                cases t with
                | mk ty v =>
                  simp only [] at hdelim hbrace
                  rw [hdelim, hbrace]
                  rfl
              rw [this] at hmem
              exact absurd hmem hnb
            · rename_i hv1 hv2 hv3
              refine consumeNext_semi_last hf hi (fun hh => ?_) h
              rw [hsemi hh] at hv2
              exact absurd rfl hv2
      · rename_i hdelim
        refine consumeNext_semi_last hf hi (fun hh => ?_) h
        rw [hsemi hh] at hdelim
        exact absurd rfl hdelim

theorem consumeLoop_semi_last {toks : tokenstream}
    (hlast : toks[toks.length - 1]? = some semiTok) (hnb : braceOpenTok ∉ toks) (n : Nat) :
    ∀ inblock b i start colon e, i < toks.length →
      consumeLoop n toks inblock b i start colon = Run.ret e → e.colon = 0 := by
  induction n with
  | zero => intro _ _ _ _ _ e _ h; simp [consumeLoop] at h
  | succ n ih =>
    intro inblock b i start colon e hi h
    exact consumeStep_semi_last hlast hnb ih hi h

/-- A stream without an opening brace whose last token is `;` has no dangling
declaration, with either flag: the loop is left at the last `;`, which resets
`colon`. -/
theorem not_hasDangling_of_semi_last (toks : tokenstream) (inblock : Bool)
    (hlast : toks.getLast? = some semiTok) (hnb : braceOpenTok ∉ toks) :
    ¬ hasDangling toks inblock := by
  rintro ⟨e, ⟨n, h⟩, hpos⟩
  rw [List.getLast?_eq_getElem?] at hlast
  have hle := skipSpaceLoop_le toks 0
  rw [Nat.zero_add] at hle
  rcases Nat.lt_or_ge (skipSpaceLoop toks 0) toks.length with hlt | hge
  · rw [consumeLoop_semi_last hlast hnb n _ _ _ _ _ _ hlt h] at hpos
    exact absurd hpos (by decide)
  · have heq : skipSpaceLoop toks 0 = toks.length := Nat.le_antisymm hle hge
    cases n with
    | zero => simp [consumeLoop] at h
    | succ n =>
      rw [consumeLoop, consumeStep, if_pos heq] at h
      simp only [Run.ret.injEq] at h
      subst h
      exact absurd hpos (Nat.lt_irrefl 0)

/-- A list of declarations without nested blocks that ends in `;`: every
declaration of the node that `consumeBlock` returns has a key and a value
that do not begin with whitespace, the last one included. -/
theorem consumeBlock_semi_last_trimmed (toks : tokenstream) (inblock : Bool) (node : sBlock)
    (hlast : toks.getLast? = some semiTok) (hnb : braceOpenTok ∉ toks)
    (h : consumeBlock toks inblock = Run.ret node) :
    ∀ q, q ∈ node.rules → leadTrimmed q := by
  have hd : DeclsTrimmed toks inblock node := consumeBlockWith_decls (consumeLoop_keeps _) h
  cases hd with
  | mk _ _ n cv cs bl r h1 h2 h3 h4 =>
    exact h2 (not_hasDangling_of_semi_last toks inblock hlast hnb)

end Csshtml
